import Mathlib

/-!
# opuscodec core: a shallow embedding of `opus_codec_core.c`

The C functions of `src/opus_codec_core.c` are transcribed as Lean functions.

* C `int` values are `Int`; none of the arithmetic below can overflow a 32-bit
  `int` on the states the theorems speak about, so no wrap-around is modelled.
* A `float *` buffer is a `List Sample`; `buf[i] = v` is `List.set`, `buf[i]`
  is `List.getD _ _ 0`, and an `int` cursor indexes through `Int.toNat`. An
  index outside the allocation is undefined behaviour in C; the theorems that
  speak of buffer contents carry the bounds they need as hypotheses.
* The Opus engine (libopus) is an external library: it is a parameter of the
  model (`Engine`), a family of state-passing functions over an abstract
  engine state.
-/

namespace OpusCodec

/-! ## Rate negotiation -/

/-- The helper `get_opus_sample_rate` of `opus_codec_core.c`, lines 4-11. -/
def get_opus_sample_rate (host_rate : Int) : Int :=
  if host_rate ≤ 8000 then 8000
  else if host_rate ≤ 12000 then 12000
  else if host_rate ≤ 16000 then 16000
  else if host_rate ≤ 24000 then 24000
  else 48000

/-- The sample rates the Opus engine supports (comment at line 5). -/
def supported_rates : List Int := [8000, 12000, 16000, 24000, 48000]

/-! ## Constants of `opus_codec_core.h` -/

/-- The macro `OPUS_MAX_FRAME_SIZE`, `48000 * 60 / 1000`. -/
def OPUS_MAX_FRAME_SIZE : Int := 48000 * 60 / 1000

/-- The macro `OPUS_MAX_PACKET_SIZE`. -/
def OPUS_MAX_PACKET_SIZE : Int := 4000

/-- The macro `OPUS_CHANNELS`. -/
def OPUS_CHANNELS : Int := 2

/-- The macro `OPUS_CODEC_OK`. -/
def OPUS_CODEC_OK : Int := 0

/-- The macro `OPUS_CODEC_ERROR`. -/
def OPUS_CODEC_ERROR : Int := -1

/-! ## The engine boundary -/

/-- An audio sample. The core only stores and copies `float` samples, it never
computes with them, so a sample is an opaque token; the literal `0.0f` is the
token `0`. -/
abbrev Sample := Int

/-- A `float` argument of the core that is compared with literals
(`opus_codec_set_frame_size_ms`): a finite value is the rational it denotes. -/
inductive CFloat where
  | finite (q : ℚ)
  | pos_inf
  | neg_inf
  | nan
  deriving DecidableEq

/-- The C comparison `x == lit` of a float with a finite literal: an infinity
or a NaN equals no finite literal. -/
def CFloat.eq_lit (x : CFloat) (lit : ℚ) : Bool :=
  match x with
  | CFloat.finite q => decide (q = lit)
  | _ => false

/-- The control requests the core sends through `opus_encoder_ctl` and
`opus_decoder_ctl`; the name is that of the libopus request macro. -/
inductive CtlRequest where
  | OPUS_SET_BITRATE (x : Int)
  | OPUS_SET_COMPLEXITY (x : Int)
  | OPUS_SET_VBR (x : Int)
  | OPUS_SET_VBR_CONSTRAINT (x : Int)
  | OPUS_SET_SIGNAL (x : Int)
  | OPUS_SET_PACKET_LOSS_PERC (x : Int)
  | OPUS_SET_DTX (x : Int)
  | OPUS_SET_INBAND_FEC (x : Int)
  | OPUS_RESET_STATE
  | OPUS_GET_LOOKAHEAD
  deriving DecidableEq, Repr

/-- One invocation of the engine, with the scalar arguments and the sample
data it was handed. -/
inductive EngineCall where
  | encoder_create (Fs channels application : Int)
  | decoder_create (Fs channels : Int)
  | encode_float (pcm : List Sample) (frame_size max_data_bytes : Int)
  | decode_float (data : List Nat) (len frame_size decode_fec : Int)
  | encoder_ctl (req : CtlRequest)
  | decoder_ctl (req : CtlRequest)
  deriving DecidableEq, Repr

/-- The Opus engine, which is not part of the repository: its constants and
its entry points, as functions that take the engine object's state and return
the new state with what the call writes and returns.

* `opus_encode_float st pcm frame_size data max_data_bytes` returns the new
  encoder state, the packet buffer after the call and the return value (the
  packet length, or a value `≤ 0`).
* `opus_decode_float st data len pcm frame_size decode_fec` returns the new
  decoder state, the sample buffer after the call and the return value (the
  number of decoded samples per channel, or a value `≤ 0`).
* `opus_encoder_ctl` and `opus_decoder_ctl` return the new state and the
  result code; `lookahead` is what `OPUS_GET_LOOKAHEAD` stores. -/
structure Engine where
  Enc : Type
  Dec : Type
  OPUS_OK : Int
  OPUS_SIGNAL_VOICE : Int
  OPUS_SIGNAL_MUSIC : Int
  OPUS_APPLICATION_AUDIO : Int
  opus_encoder_create : Int → Int → Int → Int × Option Enc
  opus_decoder_create : Int → Int → Int × Option Dec
  opus_encode_float : Enc → List Sample → Int → List Nat → Int → Enc × List Nat × Int
  opus_decode_float : Dec → List Nat → Int → List Sample → Int → Int → Dec × List Sample × Int
  opus_encoder_ctl : Enc → CtlRequest → Enc × Int
  opus_decoder_ctl : Dec → CtlRequest → Dec × Int
  lookahead : Enc → Int

/-! ## The codec instance -/

/-- The struct `t_opus_codec` of `opus_codec_core.h`, field for field. The
last field, `trace`, is a ghost field: the engine invocations the instance has
made so far, oldest first. -/
structure t_opus_codec (E : Engine) where
  encoder : E.Enc
  decoder : E.Dec
  sample_rate : Int
  bitrate : Int
  complexity : Int
  vbr_mode : Int
  signal_type : Int
  application : Int
  packet_loss_perc : Int
  use_dtx : Int
  use_fec : Int
  input_buffer_left : List Sample
  input_buffer_right : List Sample
  output_buffer_left : List Sample
  output_buffer_right : List Sample
  interleaved_input : List Sample
  interleaved_output : List Sample
  opus_packet : List Nat
  buffer_pos : Int
  frame_size : Int
  output_pos : Int
  output_available : Int
  silence_threshold : ℚ
  silent_frames_count : Int
  output_ring_left : List Sample
  output_ring_right : List Sample
  ring_write_pos : Int
  ring_read_pos : Int
  ring_size : Int
  trace : List EngineCall

variable {E : Engine}

/-! ## `opus_codec_process_sample` -/

/-- Lines 118-120: store the input pair at the input cursor and advance it. -/
def push_input (c : t_opus_codec E) (in_left in_right : Sample) : t_opus_codec E :=
  { c with
    input_buffer_left := c.input_buffer_left.set c.buffer_pos.toNat in_left
    input_buffer_right := c.input_buffer_right.set c.buffer_pos.toNat in_right
    buffer_pos := c.buffer_pos + 1 }

/-- The body of the loop of lines 127-130 for index `i`. -/
def interleave_body (left right : List Sample) (buf : List Sample) (i : Nat) : List Sample :=
  (buf.set (i * 2) (left.getD i 0)).set (i * 2 + 1) (right.getD i 0)

/-- Lines 127-130: `for (int i = 0; i < frame_size; i++)`, interleaving the
two input buffers into `interleaved_input`. -/
def interleave (c : t_opus_codec E) : t_opus_codec E :=
  { c with
    interleaved_input :=
      (List.range c.frame_size.toNat).foldl
        (interleave_body c.input_buffer_left c.input_buffer_right) c.interleaved_input }

/-- Lines 133-137: the call of `opus_encode_float`; returns `packet_size`. -/
def encode_frame (c : t_opus_codec E) : t_opus_codec E × Int :=
  let r := E.opus_encode_float c.encoder c.interleaved_input c.frame_size c.opus_packet
    OPUS_MAX_PACKET_SIZE
  ({ c with
      encoder := r.1
      opus_packet := r.2.1
      trace := c.trace ++
        [EngineCall.encode_float c.interleaved_input c.frame_size OPUS_MAX_PACKET_SIZE] },
   r.2.2)

/-- Lines 141-146: the call of `opus_decode_float`; returns `decoded_samples`. -/
def decode_packet (c : t_opus_codec E) (packet_size : Int) : t_opus_codec E × Int :=
  let r := E.opus_decode_float c.decoder c.opus_packet packet_size c.interleaved_output
    c.frame_size 0
  ({ c with
      decoder := r.1
      interleaved_output := r.2.1
      trace := c.trace ++ [EngineCall.decode_float c.opus_packet packet_size c.frame_size 0] },
   r.2.2)

/-- The body of the loop of lines 150-157 for index `i`: store the decoded
pair at the ring write cursor and advance the cursor, wrapping at `ring_size`. -/
def ring_write_body (c : t_opus_codec E) (i : Nat) : t_opus_codec E :=
  let c1 : t_opus_codec E :=
    { c with
      output_ring_left :=
        c.output_ring_left.set c.ring_write_pos.toNat (c.interleaved_output.getD (i * 2) 0)
      output_ring_right :=
        c.output_ring_right.set c.ring_write_pos.toNat (c.interleaved_output.getD (i * 2 + 1) 0)
      ring_write_pos := c.ring_write_pos + 1 }
  if c1.ring_write_pos ≥ c1.ring_size then { c1 with ring_write_pos := 0 } else c1

/-- Lines 150-157: `for (int i = 0; i < decoded_samples; i++)`. -/
def ring_write (c : t_opus_codec E) (decoded_samples : Int) : t_opus_codec E :=
  (List.range decoded_samples.toNat).foldl ring_write_body c

/-- Lines 124-159: what happens once a frame is complete. -/
def round_trip (c : t_opus_codec E) : t_opus_codec E :=
  let c0 := interleave { c with buffer_pos := 0 }
  let e := encode_frame c0
  if e.2 > 0 then
    let d := decode_packet e.1 e.2
    if d.2 > 0 then ring_write d.1 d.2 else d.1
  else e.1

/-- Lines 117-160: the input half of `opus_codec_process_sample`. -/
def frame_step (c : t_opus_codec E) (in_left in_right : Sample) : t_opus_codec E :=
  let c1 := push_input c in_left in_right
  if c1.buffer_pos ≥ c1.frame_size then round_trip c1 else c1

/-- Lines 163-168: the local `available`. -/
def available (c : t_opus_codec E) : Int :=
  if c.ring_write_pos ≥ c.ring_read_pos then c.ring_write_pos - c.ring_read_pos
  else (c.ring_size - c.ring_read_pos) + c.ring_write_pos

/-- Lines 162-182: the output half of `opus_codec_process_sample`; returns the
instance with the values written to `*out_left` and `*out_right`. -/
def output_step (c : t_opus_codec E) : t_opus_codec E × Sample × Sample :=
  if available c > c.frame_size then
    let out_left := c.output_ring_left.getD c.ring_read_pos.toNat 0
    let out_right := c.output_ring_right.getD c.ring_read_pos.toNat 0
    let c1 : t_opus_codec E := { c with ring_read_pos := c.ring_read_pos + 1 }
    (if c1.ring_read_pos ≥ c1.ring_size then { c1 with ring_read_pos := 0 } else c1,
     out_left, out_right)
  else (c, 0, 0)

/-- What a call of `opus_codec_process_sample` leaves behind: the instance, the
floats `out_left` and `out_right` point to, and the return value. -/
structure ProcessResult (E : Engine) where
  codec : Option (t_opus_codec E)
  out_left : Option Sample
  out_right : Option Sample
  ret : Int

/-- The function `opus_codec_process_sample`, lines 113-185. A pointer argument
is an `Option`: `none` is `NULL`, `some v` points to an object holding `v`. -/
def opus_codec_process_sample (codec : Option (t_opus_codec E)) (in_left in_right : Sample)
    (out_left out_right : Option Sample) : ProcessResult E :=
  match codec, out_left, out_right with
  | some c, some _, some _ =>
    let r := output_step (frame_step c in_left in_right)
    { codec := some r.1, out_left := some r.2.1, out_right := some r.2.2, ret := OPUS_CODEC_OK }
  | _, _, _ =>
    { codec := codec, out_left := out_left, out_right := out_right, ret := OPUS_CODEC_ERROR }

/-! ## Parameter setters -/

/-- The C expression `r == OPUS_OK ? OPUS_CODEC_OK : OPUS_CODEC_ERROR`. -/
def ctl_status (E : Engine) (r : Int) : Int :=
  if r = E.OPUS_OK then OPUS_CODEC_OK else OPUS_CODEC_ERROR

/-- The call `opus_encoder_ctl(codec->encoder, req)`: the encoder state is
replaced, the call is appended to the trace, the result code is returned. -/
def encoder_ctl (c : t_opus_codec E) (req : CtlRequest) : t_opus_codec E × Int :=
  let r := E.opus_encoder_ctl c.encoder req
  ({ c with encoder := r.1, trace := c.trace ++ [EngineCall.encoder_ctl req] }, r.2)

/-- The call `opus_decoder_ctl(codec->decoder, req)`. -/
def decoder_ctl (c : t_opus_codec E) (req : CtlRequest) : t_opus_codec E × Int :=
  let r := E.opus_decoder_ctl c.decoder req
  ({ c with decoder := r.1, trace := c.trace ++ [EngineCall.decoder_ctl req] }, r.2)

/-- The function `opus_codec_set_bitrate`, lines 188-194. -/
def opus_codec_set_bitrate (codec : Option (t_opus_codec E)) (bitrate : Int) :
    Option (t_opus_codec E) × Int :=
  match codec with
  | none => (none, OPUS_CODEC_ERROR)
  | some c =>
    if bitrate < 6000 ∨ bitrate > 510000 then (some c, OPUS_CODEC_ERROR)
    else
      let r := encoder_ctl { c with bitrate := bitrate } (CtlRequest.OPUS_SET_BITRATE bitrate)
      (some r.1, ctl_status E r.2)

/-- The function `opus_codec_set_complexity`, lines 196-202. -/
def opus_codec_set_complexity (codec : Option (t_opus_codec E)) (complexity : Int) :
    Option (t_opus_codec E) × Int :=
  match codec with
  | none => (none, OPUS_CODEC_ERROR)
  | some c =>
    if complexity < 0 ∨ complexity > 10 then (some c, OPUS_CODEC_ERROR)
    else
      let r := encoder_ctl { c with complexity := complexity }
        (CtlRequest.OPUS_SET_COMPLEXITY complexity)
      (some r.1, ctl_status E r.2)

/-- The two arms `case 1` and `case 2` of the switch of `opus_codec_set_vbr_mode`
(lines 214-225): `OPUS_SET_VBR(1)`, then `OPUS_SET_VBR_CONSTRAINT(constraint)` only
if the first control returned `OPUS_OK`; returns `result`. -/
def vbr_with_constraint (c : t_opus_codec E) (constraint : Int) : t_opus_codec E × Int :=
  let r := encoder_ctl c (CtlRequest.OPUS_SET_VBR 1)
  if r.2 = E.OPUS_OK then encoder_ctl r.1 (CtlRequest.OPUS_SET_VBR_CONSTRAINT constraint)
  else r

/-- The function `opus_codec_set_vbr_mode`, lines 204-231. -/
def opus_codec_set_vbr_mode (codec : Option (t_opus_codec E)) (mode : Int) :
    Option (t_opus_codec E) × Int :=
  match codec with
  | none => (none, OPUS_CODEC_ERROR)
  | some c =>
    if mode < 0 ∨ mode > 2 then (some c, OPUS_CODEC_ERROR)
    else
      let c1 : t_opus_codec E := { c with vbr_mode := mode }
      if mode = 0 then
        let r := encoder_ctl c1 (CtlRequest.OPUS_SET_VBR 0)
        (some r.1, ctl_status E r.2)
      else if mode = 1 then
        let r := vbr_with_constraint c1 0
        (some r.1, ctl_status E r.2)
      else if mode = 2 then
        let r := vbr_with_constraint c1 1
        (some r.1, ctl_status E r.2)
      else (some c1, OPUS_CODEC_ERROR)

/-- The function `opus_codec_set_signal_type`, lines 233-241. -/
def opus_codec_set_signal_type (codec : Option (t_opus_codec E)) (type : Int) :
    Option (t_opus_codec E) × Int :=
  match codec with
  | none => (none, OPUS_CODEC_ERROR)
  | some c =>
    if type ≠ E.OPUS_SIGNAL_VOICE ∧ type ≠ E.OPUS_SIGNAL_MUSIC then (some c, OPUS_CODEC_ERROR)
    else
      let r := encoder_ctl { c with signal_type := type } (CtlRequest.OPUS_SET_SIGNAL type)
      (some r.1, ctl_status E r.2)

/-- The function `opus_codec_set_packet_loss`, lines 243-249. -/
def opus_codec_set_packet_loss (codec : Option (t_opus_codec E)) (percentage : Int) :
    Option (t_opus_codec E) × Int :=
  match codec with
  | none => (none, OPUS_CODEC_ERROR)
  | some c =>
    if percentage < 0 ∨ percentage > 100 then (some c, OPUS_CODEC_ERROR)
    else
      let r := encoder_ctl { c with packet_loss_perc := percentage }
        (CtlRequest.OPUS_SET_PACKET_LOSS_PERC percentage)
      (some r.1, ctl_status E r.2)

/-- The function `opus_codec_set_dtx`, lines 251-257. -/
def opus_codec_set_dtx (codec : Option (t_opus_codec E)) (enable : Int) :
    Option (t_opus_codec E) × Int :=
  match codec with
  | none => (none, OPUS_CODEC_ERROR)
  | some c =>
    let c1 : t_opus_codec E := { c with use_dtx := if enable ≠ 0 then 1 else 0 }
    let r := encoder_ctl c1 (CtlRequest.OPUS_SET_DTX c1.use_dtx)
    (some r.1, ctl_status E r.2)

/-- The function `opus_codec_set_fec`, lines 259-265. -/
def opus_codec_set_fec (codec : Option (t_opus_codec E)) (enable : Int) :
    Option (t_opus_codec E) × Int :=
  match codec with
  | none => (none, OPUS_CODEC_ERROR)
  | some c =>
    let c1 : t_opus_codec E := { c with use_fec := if enable ≠ 0 then 1 else 0 }
    let r := encoder_ctl c1 (CtlRequest.OPUS_SET_INBAND_FEC c1.use_fec)
    (some r.1, ctl_status E r.2)

/-! ## Frame size -/

/-- The C expression `(int)(sample_rate * ms / 1000.0)` for a duration of
`ms = num / den` milliseconds, `den` being 1 or 2 (the literals of the source
are 2.5, 5.0, 6.5, 10.0, 20.0, 40.0 and 60.0): the conversion truncates toward
zero. For a 32-bit `sample_rate` the `double` product is exact, and the
rounding of the `double` quotient cannot reach an integer the exact quotient
has not reached (an exact quotient that is not an integer is at least
`1 / 2000` away from one), so the result is the truncation of the exact
quotient `sample_rate * num / (den * 1000)`. -/
def ms_to_samples (sample_rate : Int) (num den : Int) : Int :=
  Int.tdiv (sample_rate * num) (den * 1000)

/-- The function `opus_codec_set_frame_size_ms`, lines 303-323. -/
def opus_codec_set_frame_size_ms (codec : Option (t_opus_codec E)) (ms : CFloat) :
    Option (t_opus_codec E) × Int :=
  match codec with
  | none => (none, OPUS_CODEC_ERROR)
  | some c =>
    let samples : Option Int :=
      if ms.eq_lit (5 / 2) then some (ms_to_samples c.sample_rate 5 2)
      else if ms.eq_lit 5 then some (ms_to_samples c.sample_rate 5 1)
      else if ms.eq_lit 10 then some (ms_to_samples c.sample_rate 10 1)
      else if ms.eq_lit 20 then some (ms_to_samples c.sample_rate 20 1)
      else if ms.eq_lit 40 then some (ms_to_samples c.sample_rate 40 1)
      else if ms.eq_lit 60 then some (ms_to_samples c.sample_rate 60 1)
      else none
    match samples with
    | none => (some c, OPUS_CODEC_ERROR)
    | some s =>
      (some { c with frame_size := s, buffer_pos := 0, output_pos := 0, output_available := 0 },
       OPUS_CODEC_OK)

/-! ## Creation, reset and latency -/

/-- The macro `OPUS_FRAME_SIZE_MS`, `20.0`, as a whole number of milliseconds. -/
def OPUS_FRAME_SIZE_MS : Int := 20

/-- The instance `calloc` returns at line 14, with the engine objects of lines
23 and 31 stored and the rate of line 20 set: every other field is zero, every
buffer pointer `NULL` (an empty buffer). The trace starts with the two
creation calls. -/
def calloc_codec (E : Engine) (sample_rate : Int) (encoder : E.Enc) (decoder : E.Dec) :
    t_opus_codec E where
  encoder := encoder
  decoder := decoder
  sample_rate := sample_rate
  bitrate := 0
  complexity := 0
  vbr_mode := 0
  signal_type := 0
  application := 0
  packet_loss_perc := 0
  use_dtx := 0
  use_fec := 0
  input_buffer_left := []
  input_buffer_right := []
  output_buffer_left := []
  output_buffer_right := []
  interleaved_input := []
  interleaved_output := []
  opus_packet := []
  buffer_pos := 0
  frame_size := 0
  output_pos := 0
  output_available := 0
  silence_threshold := 0
  silent_frames_count := 0
  output_ring_left := []
  output_ring_right := []
  ring_write_pos := 0
  ring_read_pos := 0
  ring_size := 0
  trace :=
    [EngineCall.encoder_create sample_rate OPUS_CHANNELS E.OPUS_APPLICATION_AUDIO,
     EngineCall.decoder_create sample_rate OPUS_CHANNELS]

/-- Lines 38-47 of `opus_codec_create`: the default parameters. -/
def set_defaults (c : t_opus_codec E) : t_opus_codec E :=
  { c with
    bitrate := 6000
    complexity := 0
    vbr_mode := 0
    signal_type := E.OPUS_SIGNAL_MUSIC
    application := E.OPUS_APPLICATION_AUDIO
    packet_loss_perc := 0
    use_dtx := 0
    use_fec := 0
    frame_size := ms_to_samples c.sample_rate OPUS_FRAME_SIZE_MS 1 }

/-- Lines 50-54 of `opus_codec_create`: the five controls that apply the
defaults to the encoder; their results are ignored. -/
def apply_defaults (c : t_opus_codec E) : t_opus_codec E :=
  let c1 := (encoder_ctl c (CtlRequest.OPUS_SET_BITRATE c.bitrate)).1
  let c2 := (encoder_ctl c1 (CtlRequest.OPUS_SET_COMPLEXITY c1.complexity)).1
  let c3 := (encoder_ctl c2 (CtlRequest.OPUS_SET_VBR c2.vbr_mode)).1
  let c4 := (encoder_ctl c3 (CtlRequest.OPUS_SET_SIGNAL c3.signal_type)).1
  (encoder_ctl c4 (CtlRequest.OPUS_SET_DTX c4.use_dtx)).1

/-- Lines 57-76 and 87-89 of `opus_codec_create`: the silence detection
fields (the literal `0.001f` is written `1 / 1000`), the ring cursors and
capacity, the zero-filled buffers of `calloc`, the remaining cursors. -/
def init_buffers (c : t_opus_codec E) : t_opus_codec E :=
  { c with
    silence_threshold := 1 / 1000
    silent_frames_count := 0
    ring_size := c.frame_size * 4
    ring_write_pos := 0
    ring_read_pos := 0
    input_buffer_left := List.replicate OPUS_MAX_FRAME_SIZE.toNat 0
    input_buffer_right := List.replicate OPUS_MAX_FRAME_SIZE.toNat 0
    output_buffer_left := List.replicate OPUS_MAX_FRAME_SIZE.toNat 0
    output_buffer_right := List.replicate OPUS_MAX_FRAME_SIZE.toNat 0
    interleaved_input := List.replicate (OPUS_MAX_FRAME_SIZE * OPUS_CHANNELS).toNat 0
    interleaved_output := List.replicate (OPUS_MAX_FRAME_SIZE * OPUS_CHANNELS).toNat 0
    opus_packet := List.replicate OPUS_MAX_PACKET_SIZE.toNat 0
    output_ring_left := List.replicate (c.frame_size * 4).toNat 0
    output_ring_right := List.replicate (c.frame_size * 4).toNat 0
    buffer_pos := 0
    output_pos := 0
    output_available := 0 }

/-- The function `opus_codec_create`, lines 13-92. `calloc_ok k` tells whether
the `k`-th `calloc` of the call succeeds (`0` for the instance, `1` to `9` for
the buffers in source order); `none` is the `NULL` result. -/
def opus_codec_create (E : Engine) (host_sample_rate : Int) (calloc_ok : Nat → Bool) :
    Option (t_opus_codec E) :=
  if calloc_ok 0 = false then none
  else
    let sample_rate := get_opus_sample_rate host_sample_rate
    match E.opus_encoder_create sample_rate OPUS_CHANNELS E.OPUS_APPLICATION_AUDIO with
    | (_, none) => none
    | (error, some encoder) =>
      if error ≠ E.OPUS_OK then none
      else
        match E.opus_decoder_create sample_rate OPUS_CHANNELS with
        | (_, none) => none
        | (error, some decoder) =>
          if error ≠ E.OPUS_OK then none
          else
            let c := apply_defaults (set_defaults (calloc_codec E sample_rate encoder decoder))
            if (List.range' 1 9).all calloc_ok then some (init_buffers c) else none

/-- The C call `memset(buf, 0, n * sizeof(float))`: the first `n` floats of the
buffer become zero. -/
def memset_zero (buf : List Sample) (n : Int) : List Sample :=
  List.replicate (min n.toNat buf.length) 0 ++ buf.drop n.toNat

/-- The function `opus_codec_reset`, lines 267-288. -/
def opus_codec_reset (codec : Option (t_opus_codec E)) : Option (t_opus_codec E) × Int :=
  match codec with
  | none => (none, OPUS_CODEC_ERROR)
  | some c =>
    let e := encoder_ctl c CtlRequest.OPUS_RESET_STATE
    let d := decoder_ctl e.1 CtlRequest.OPUS_RESET_STATE
    let c1 : t_opus_codec E :=
      { d.1 with
        input_buffer_left := memset_zero d.1.input_buffer_left OPUS_MAX_FRAME_SIZE
        input_buffer_right := memset_zero d.1.input_buffer_right OPUS_MAX_FRAME_SIZE
        output_buffer_left := memset_zero d.1.output_buffer_left OPUS_MAX_FRAME_SIZE
        output_buffer_right := memset_zero d.1.output_buffer_right OPUS_MAX_FRAME_SIZE
        interleaved_input :=
          memset_zero d.1.interleaved_input (OPUS_MAX_FRAME_SIZE * OPUS_CHANNELS)
        interleaved_output :=
          memset_zero d.1.interleaved_output (OPUS_MAX_FRAME_SIZE * OPUS_CHANNELS)
        buffer_pos := 0
        output_pos := 0
        output_available := 0 }
    (some c1, if e.2 = E.OPUS_OK ∧ d.2 = E.OPUS_OK then OPUS_CODEC_OK else OPUS_CODEC_ERROR)

/-- The function `opus_codec_get_latency`, lines 290-300. The decoder delay
`(int)(sample_rate * 6.5 / 1000.0)` is `ms_to_samples sample_rate 13 2`. -/
def opus_codec_get_latency (codec : Option (t_opus_codec E)) : Option (t_opus_codec E) × Int :=
  match codec with
  | none => (none, -1)
  | some c =>
    let lookahead := E.lookahead c.encoder
    let c1 := (encoder_ctl c CtlRequest.OPUS_GET_LOOKAHEAD).1
    let decoder_delay := ms_to_samples c1.sample_rate 13 2
    (some c1, lookahead + c1.frame_size + decoder_delay)

/-! ## Sequences of operations -/

/-- One call of the core on an existing instance. -/
inductive Operation where
  | process_sample (in_left in_right : Sample)
  | set_bitrate (bitrate : Int)
  | set_complexity (complexity : Int)
  | set_vbr_mode (mode : Int)
  | set_signal_type (type : Int)
  | set_packet_loss (percentage : Int)
  | set_dtx (enable : Int)
  | set_fec (enable : Int)
  | set_frame_size_ms (ms : CFloat)
  | reset
  | get_latency

/-- The instance after one operation; a `process_sample` is called with valid
output pointers. -/
def Operation.run (op : Operation) (codec : Option (t_opus_codec E)) : Option (t_opus_codec E) :=
  match op with
  | Operation.process_sample l r => (opus_codec_process_sample codec l r (some 0) (some 0)).codec
  | Operation.set_bitrate b => (opus_codec_set_bitrate codec b).1
  | Operation.set_complexity x => (opus_codec_set_complexity codec x).1
  | Operation.set_vbr_mode m => (opus_codec_set_vbr_mode codec m).1
  | Operation.set_signal_type t => (opus_codec_set_signal_type codec t).1
  | Operation.set_packet_loss p => (opus_codec_set_packet_loss codec p).1
  | Operation.set_dtx e => (opus_codec_set_dtx codec e).1
  | Operation.set_fec e => (opus_codec_set_fec codec e).1
  | Operation.set_frame_size_ms ms => (opus_codec_set_frame_size_ms codec ms).1
  | Operation.reset => (opus_codec_reset codec).1
  | Operation.get_latency => (opus_codec_get_latency codec).1

/-- The instance after `opus_codec_create` and a sequence of operations. -/
def run_operations (E : Engine) (host_sample_rate : Int) (calloc_ok : Nat → Bool)
    (ops : List Operation) : Option (t_opus_codec E) :=
  ops.foldl (fun codec op => op.run codec) (opus_codec_create E host_sample_rate calloc_ok)

/-- The frame durations of `opus_codec_set_frame_size_ms` as fractions
`(num, den)` of a millisecond count, in source order. -/
def duration_fractions : List (Int × Int) := [(5, 2), (5, 1), (10, 1), (20, 1), (40, 1), (60, 1)]

/-- What holds of an instance between calls, from `opus_codec_create` on: the
rate is a supported one, the frame size is that of an accepted duration at this
rate, the ring was sized for four frames of 20 ms and its arrays have that
length, the cursors are inside their buffers, and the frame buffers have the
lengths `opus_codec_create` allocates. -/
structure WellFormed (c : t_opus_codec E) : Prop where
  rate_supported : c.sample_rate ∈ supported_rates
  frame_of_duration :
    ∃ d ∈ duration_fractions, c.frame_size = ms_to_samples c.sample_rate d.1 d.2
  ring_capacity : c.ring_size = ms_to_samples c.sample_rate OPUS_FRAME_SIZE_MS 1 * 4
  ring_left_length : c.output_ring_left.length = c.ring_size.toNat
  ring_right_length : c.output_ring_right.length = c.ring_size.toNat
  write_in_ring : 0 ≤ c.ring_write_pos ∧ c.ring_write_pos < c.ring_size
  read_in_ring : 0 ≤ c.ring_read_pos ∧ c.ring_read_pos < c.ring_size
  cursor_in_frame : 0 ≤ c.buffer_pos ∧ c.buffer_pos < c.frame_size
  input_left_length : c.input_buffer_left.length = OPUS_MAX_FRAME_SIZE.toNat
  input_right_length : c.input_buffer_right.length = OPUS_MAX_FRAME_SIZE.toNat
  interleaved_length :
    c.interleaved_input.length = (OPUS_MAX_FRAME_SIZE * OPUS_CHANNELS).toNat

/-! ## Drivers and observers used by the theorems -/

/-- Consecutive calls of `opus_codec_process_sample`, one per input pair, each
with valid output pointers; returns the instance after the last call. -/
def process_samples (codec : Option (t_opus_codec E)) (inputs : List (Sample × Sample)) :
    Option (t_opus_codec E) :=
  inputs.foldl (fun c p => (opus_codec_process_sample c p.1 p.2 (some 0) (some 0)).codec) codec

/-- Whether an engine invocation is a call of `opus_encode_float`. -/
def EngineCall.is_encode : EngineCall → Bool
  | EngineCall.encode_float _ _ _ => true
  | _ => false

/-- The number of `opus_encode_float` calls in a trace. -/
def encode_count (trace : List EngineCall) : Nat :=
  trace.countP EngineCall.is_encode

/-- The frames handed to the encoder in a trace, oldest first: of each
`opus_encode_float(enc, pcm, frame_size, ...)` call the `2 * frame_size` floats
the encoder reads from `pcm`. -/
def encoded_frames : List EngineCall → List (List Sample)
  | [] => []
  | EngineCall.encode_float pcm frame_size _ :: rest =>
    pcm.take (2 * frame_size.toNat) :: encoded_frames rest
  | _ :: rest => encoded_frames rest

/-- The instance as it stands at line 132 of a frame-completing call: the input
pair stored, the input cursor back at 0, the frame interleaved. -/
def frame_ready (c : t_opus_codec E) (in_left in_right : Sample) : t_opus_codec E :=
  interleave { push_input c in_left in_right with buffer_pos := 0 }

/-- The engine accepts a control request sent to the encoder in state `enc`:
`opus_encoder_ctl` returns `OPUS_OK`. -/
abbrev encoder_accepts (E : Engine) (enc : E.Enc) (req : CtlRequest) : Prop :=
  (E.opus_encoder_ctl enc req).2 = E.OPUS_OK

/-- The engine accepts the controls of VBR mode `mode`, sent in order to the
encoder in state `enc`: `OPUS_SET_VBR(0)` for mode 0 (CBR); `OPUS_SET_VBR(1)`
and then `OPUS_SET_VBR_CONSTRAINT(0)` for mode 1 (VBR); `OPUS_SET_VBR(1)` and
then `OPUS_SET_VBR_CONSTRAINT(1)` for mode 2 (CVBR). -/
abbrev vbr_controls_accepted (E : Engine) (enc : E.Enc) (mode : Int) : Prop :=
  if mode = 0 then encoder_accepts E enc (CtlRequest.OPUS_SET_VBR 0)
  else if mode = 1 then
    encoder_accepts E enc (CtlRequest.OPUS_SET_VBR 1) ∧
    encoder_accepts E (E.opus_encoder_ctl enc (CtlRequest.OPUS_SET_VBR 1)).1
      (CtlRequest.OPUS_SET_VBR_CONSTRAINT 0)
  else
    encoder_accepts E enc (CtlRequest.OPUS_SET_VBR 1) ∧
    encoder_accepts E (E.opus_encoder_ctl enc (CtlRequest.OPUS_SET_VBR 1)).1
      (CtlRequest.OPUS_SET_VBR_CONSTRAINT 1)

/-- The frame durations `opus_codec_set_frame_size_ms` accepts, in
milliseconds (comment at line 306). -/
def frame_durations : List ℚ := [5 / 2, 5, 10, 20, 40, 60]

/-! ## A concrete engine and a concrete instance -/

/-- A stateless stand-in for the engine, used to evaluate the model on concrete
inputs: every `opus_encode_float` returns `enc_ret` and leaves the packet
buffer alone, every `opus_decode_float` returns `dec_ret` and leaves `decoded`
in the sample buffer, a control request `req` is answered `ctl_ret req`. The
constants are those of libopus. -/
def stub_engine (enc_ret dec_ret : Int) (ctl_ret : CtlRequest → Int) (decoded : List Sample) :
    Engine where
  Enc := Unit
  Dec := Unit
  OPUS_OK := 0
  OPUS_SIGNAL_VOICE := 3001
  OPUS_SIGNAL_MUSIC := 3002
  OPUS_APPLICATION_AUDIO := 2049
  opus_encoder_create := fun _ _ _ => (0, some ())
  opus_decoder_create := fun _ _ => (0, some ())
  opus_encode_float := fun st _ _ data _ => (st, data, enc_ret)
  opus_decode_float := fun st _ _ _ _ _ => (st, decoded, dec_ret)
  opus_encoder_ctl := fun st req => (st, ctl_ret req)
  opus_decoder_ctl := fun st req => (st, ctl_ret req)
  lookahead := fun _ => 0

/-- A small instance over an engine `E`: frames of two samples, a ring of four
frames, buffers with room for one frame, everything else as `opus_codec_create`
sets it for a host rate of 8000. -/
def small_codec (E : Engine) (enc : E.Enc) (dec : E.Dec) : t_opus_codec E where
  encoder := enc
  decoder := dec
  sample_rate := 8000
  bitrate := 6000
  complexity := 0
  vbr_mode := 0
  signal_type := E.OPUS_SIGNAL_MUSIC
  application := E.OPUS_APPLICATION_AUDIO
  packet_loss_perc := 0
  use_dtx := 0
  use_fec := 0
  input_buffer_left := [0, 0]
  input_buffer_right := [0, 0]
  output_buffer_left := [0, 0]
  output_buffer_right := [0, 0]
  interleaved_input := [0, 0, 0, 0]
  interleaved_output := [0, 0, 0, 0]
  opus_packet := []
  buffer_pos := 0
  frame_size := 2
  output_pos := 0
  output_available := 0
  silence_threshold := 1 / 1000
  silent_frames_count := 0
  output_ring_left := [0, 0, 0, 0, 0, 0, 0, 0]
  output_ring_right := [0, 0, 0, 0, 0, 0, 0, 0]
  ring_write_pos := 0
  ring_read_pos := 0
  ring_size := 8
  trace := []

/-- The stand-in engine whose every call succeeds: packets of one byte, two
decoded samples per frame (the pairs `(11, 12)` and `(21, 22)`). -/
def ok_engine : Engine := stub_engine 1 2 (fun _ => 0) [11, 12, 21, 22]

/-- The stand-in engine whose every call fails with `-1`. -/
def failing_engine : Engine := stub_engine (-1) (-1) (fun _ => -1) []

/-- The stand-in engine whose encoder succeeds and whose decoder fails. -/
def decode_failing_engine : Engine := stub_engine 1 (-1) (fun _ => 0) []

/-- The small instance over `ok_engine`. -/
def ok_codec : t_opus_codec ok_engine := small_codec ok_engine () ()

/-- The small instance over `failing_engine`. -/
def failing_codec : t_opus_codec failing_engine := small_codec failing_engine () ()

/-- The small instance over `decode_failing_engine`. -/
def decode_failing_codec : t_opus_codec decode_failing_engine :=
  small_codec decode_failing_engine () ()

/-! ## The host object (`opuscodec~.c`) -/

/-- A sample of the host's signal vectors, a `double`. The perform routine only
copies and converts host samples, so a value is an opaque token; the literal
`0.0` is the token `0`. -/
abbrev HostSample := Int

/-- The two C conversions of the perform routine: `(float)x` of a host sample
and `(double)y` of a codec sample. -/
structure Conversions where
  to_float : HostSample → Sample
  to_double : Sample → HostSample

/-- The fields of the host object `t_opuscodec` that `opuscodec_perform64`
reads: the instance pointer and the bypass flag. -/
structure t_opuscodec (E : Engine) where
  codec : Option (t_opus_codec E)
  bypass : Int

/-- The body of the bypass loop of `opuscodec_perform64` (lines 194-197) for
index `i`, on the pair of output vectors. -/
def perform_bypass_body (in_left in_right : List HostSample)
    (outs : List HostSample × List HostSample) (i : Nat) :
    List HostSample × List HostSample :=
  (outs.1.set i (in_left.getD i 0), outs.2.set i (in_right.getD i 0))

/-- The body of the processing loop of `opuscodec_perform64` (lines 202-220)
for index `i`, on the instance pointer and the pair of output vectors; the
locals `opus_out_left` and `opus_out_right` are valid objects. -/
def perform_codec_body (K : Conversions) (in_left in_right : List HostSample)
    (st : Option (t_opus_codec E) × List HostSample × List HostSample) (i : Nat) :
    Option (t_opus_codec E) × List HostSample × List HostSample :=
  let r := opus_codec_process_sample st.1 (K.to_float (in_left.getD i 0))
    (K.to_float (in_right.getD i 0)) (some 0) (some 0)
  if r.ret = OPUS_CODEC_OK then
    (r.codec, st.2.1.set i (K.to_double (r.out_left.getD 0)),
      st.2.2.set i (K.to_double (r.out_right.getD 0)))
  else (r.codec, st.2.1.set i 0, st.2.2.set i 0)

/-- The function `opuscodec_perform64` of `opuscodec~.c`, lines 186-221, on the
four signal vectors `ins[0]`, `ins[1]`, `outs[0]`, `outs[1]` (taken not to
overlap); returns the host object and the two output vectors. -/
def opuscodec_perform64 (K : Conversions) (x : t_opuscodec E)
    (in_left in_right out_left out_right : List HostSample) (sampleframes : Int) :
    t_opuscodec E × List HostSample × List HostSample :=
  if x.bypass ≠ 0 ∨ x.codec.isNone then
    let outs := (List.range sampleframes.toNat).foldl (perform_bypass_body in_left in_right)
      (out_left, out_right)
    (x, outs.1, outs.2)
  else
    let st := (List.range sampleframes.toNat).foldl (perform_codec_body K in_left in_right)
      (x.codec, out_left, out_right)
    ({ x with codec := st.1 }, st.2.1, st.2.2)

/-- The two conversions as identities, for concrete evaluations. -/
def plain_conversions : Conversions where
  to_float := fun v => v
  to_double := fun v => v

/-! ## Runs of `opus_codec_process_sample` -/

/-- What holds between calls on an instance with frames of `F` samples and a
ring of four frames, over an engine that decodes at most `F` samples a frame:
the cursors are inside their buffers and the available count leaves the next
burst its room (`buffer_pos + 1` read attempts have been made since the last
burst). -/
structure Headroom (F : Int) (s : t_opus_codec E) : Prop where
  frame : s.frame_size = F
  capacity : s.ring_size = 4 * F
  write_in_ring : 0 ≤ s.ring_write_pos ∧ s.ring_write_pos < s.ring_size
  read_in_ring : 0 ≤ s.ring_read_pos ∧ s.ring_read_pos < s.ring_size
  cursor_in_frame : 0 ≤ s.buffer_pos ∧ s.buffer_pos < F
  bound : available s ≤ 2 * F - 1 - s.buffer_pos

/-- The decoded pairs a call of `opus_codec_process_sample` pushes to the ring
(lines 148-157): none unless the call completes a frame and both engine calls
return a positive value. -/
def decoded_burst (c : t_opus_codec E) (in_left in_right : Sample) : List (Sample × Sample) :=
  if c.buffer_pos + 1 ≥ c.frame_size then
    let e := encode_frame (frame_ready c in_left in_right)
    if e.2 > 0 then
      let d := decode_packet e.1 e.2
      if d.2 > 0 then
        (List.range d.2.toNat).map
          (fun i => (d.1.interleaved_output.getD (i * 2) 0,
            d.1.interleaved_output.getD (i * 2 + 1) 0))
      else []
    else []
  else []

/-- The concatenated decoded stream of a run: the pairs pushed to the ring by
consecutive calls, one per input pair, in order. -/
def decoded_stream (codec : Option (t_opus_codec E)) :
    List (Sample × Sample) → List (Sample × Sample)
  | [] => []
  | x :: rest =>
    (match codec with
      | none => []
      | some c => decoded_burst c x.1 x.2) ++
    decoded_stream (opus_codec_process_sample codec x.1 x.2 (some 0) (some 0)).codec rest

/-- What one call of `opus_codec_process_sample` shows: the two floats it
leaves in `*out_left` and `*out_right`, and whether its output half took the
silence branch of line 178 (an underrun). -/
structure CallView where
  out_left : Option Sample
  out_right : Option Sample
  underrun : Bool

/-- The view of one call with valid output pointers. -/
def call_view (codec : Option (t_opus_codec E)) (x : Sample × Sample) : CallView where
  out_left := (opus_codec_process_sample codec x.1 x.2 (some 0) (some 0)).out_left
  out_right := (opus_codec_process_sample codec x.1 x.2 (some 0) (some 0)).out_right
  underrun :=
    match codec with
    | none => false
    | some c =>
      decide (¬ available (frame_step c x.1 x.2) > (frame_step c x.1 x.2).frame_size)

/-- The views of consecutive calls, one per input pair. -/
def process_views (codec : Option (t_opus_codec E)) : List (Sample × Sample) → List CallView
  | [] => []
  | x :: rest =>
    call_view codec x ::
      process_views (opus_codec_process_sample codec x.1 x.2 (some 0) (some 0)).codec rest

/-- An identity pass-through engine for frames of `F` samples: whatever the
states of its encoder and decoder, decoding the packet of a frame gives back
the `2 * F` floats of the frame. -/
def Loopback (E : Engine) (F : Int) : Prop :=
  ∀ (enc : E.Enc) (dec : E.Dec) (pcm : List Sample) (data : List Nat) (out : List Sample)
    (j : Nat), (2 * F).toNat ≤ pcm.length → (j : Int) < 2 * F →
    (E.opus_decode_float dec
      (E.opus_encode_float enc pcm F data OPUS_MAX_PACKET_SIZE).2.1
      (E.opus_encode_float enc pcm F data OPUS_MAX_PACKET_SIZE).2.2 out F 0).2.1.getD j 0 =
      pcm.getD j 0

/-- The state of the ring of an instance with frames of `F` samples and a ring
of at least four frames, when `k` pairs have been pushed, `stream` has been
decoded and `reads` pairs have been emitted: the pairs of `stream` from index
`reads` on are the available ones, in ring order from the read cursor. -/
structure Steady (F k reads : Nat) (stream : List (Sample × Sample)) (s : t_opus_codec E) :
    Prop where
  frame : s.frame_size = F
  capacity : 4 * F ≤ s.ring_size
  left_length : s.ring_size.toNat ≤ s.output_ring_left.length
  right_length : s.ring_size.toNat ≤ s.output_ring_right.length
  write_in_ring : 0 ≤ s.ring_write_pos ∧ s.ring_write_pos < s.ring_size
  read_in_ring : 0 ≤ s.ring_read_pos ∧ s.ring_read_pos < s.ring_size
  cursor_in_frame : 0 ≤ s.buffer_pos ∧ s.buffer_pos < F
  pushed : (stream.length : Int) + s.buffer_pos = k
  whole_frames : stream.length = 0 ∨ stream.length = F ∨ 2 * F ≤ stream.length
  avail : available s + reads = stream.length
  slots : ∀ j : Nat, (j : Int) < available s →
    ∃ p : Sample × Sample, stream[reads + j]? = some p ∧
      s.output_ring_left[(if s.ring_read_pos + j < s.ring_size then s.ring_read_pos + j
        else s.ring_read_pos + j - s.ring_size).toNat]? = some p.1 ∧
      s.output_ring_right[(if s.ring_read_pos + j < s.ring_size then s.ring_read_pos + j
        else s.ring_read_pos + j - s.ring_size).toNat]? = some p.2

/-- The pairs of the frame being assembled: the first `n` slots of the two
input frame buffers. -/
def pending_pairs (s : t_opus_codec E) (n : Nat) : List (Sample × Sample) :=
  (List.range n).map (fun i => (s.input_buffer_left.getD i 0, s.input_buffer_right.getD i 0))

/-- The zigzag code of an integer, a natural number. -/
def zigzag (x : Int) : Nat :=
  if 0 ≤ x then (2 * x).toNat else (-2 * x - 1).toNat

/-- The integer of a zigzag code. -/
def unzigzag (n : Nat) : Int :=
  if n % 2 = 0 then ((n / 2 : Nat) : Int) else -(((n + 1) / 2 : Nat) : Int)

/-- A stateless identity pass-through engine: the packet of a frame is the
list of the zigzag codes of its `2 * frame_size` floats, and decoding a packet
writes the floats back at the start of the sample buffer and returns
`frame_size`. -/
def loopback_engine : Engine where
  Enc := Unit
  Dec := Unit
  OPUS_OK := 0
  OPUS_SIGNAL_VOICE := 3001
  OPUS_SIGNAL_MUSIC := 3002
  OPUS_APPLICATION_AUDIO := 2049
  opus_encoder_create := fun _ _ _ => (0, some ())
  opus_decoder_create := fun _ _ => (0, some ())
  opus_encode_float := fun st pcm frame_size _ _ =>
    (st, (pcm.take (2 * frame_size).toNat).map zigzag, 2 * frame_size)
  opus_decode_float := fun st data len pcm frame_size _ =>
    (st, (data.take len.toNat).map unzigzag ++ pcm.drop len.toNat, frame_size)
  opus_encoder_ctl := fun st _ => (st, 0)
  opus_decoder_ctl := fun st _ => (st, 0)
  lookahead := fun _ => 0

/-- The small instance over `loopback_engine`. -/
def loopback_codec : t_opus_codec loopback_engine := small_codec loopback_engine () ()

/-- The stored configuration of an instance, the fields the parameter setters
write: bitrate, complexity, VBR mode, signal type, packet loss percentage, DTX
and FEC. -/
def stored_config (c : t_opus_codec E) : Int × Int × Int × Int × Int × Int × Int :=
  (c.bitrate, c.complexity, c.vbr_mode, c.signal_type, c.packet_loss_perc, c.use_dtx,
    c.use_fec)

/-- The documented ranges of the stored configuration. -/
structure ConfigInRange (c : t_opus_codec E) : Prop where
  bitrate_range : 6000 ≤ c.bitrate ∧ c.bitrate ≤ 510000
  complexity_range : 0 ≤ c.complexity ∧ c.complexity ≤ 10
  vbr_mode_range : c.vbr_mode = 0 ∨ c.vbr_mode = 1 ∨ c.vbr_mode = 2
  signal_type_range :
    c.signal_type = E.OPUS_SIGNAL_VOICE ∨ c.signal_type = E.OPUS_SIGNAL_MUSIC
  packet_loss_range : 0 ≤ c.packet_loss_perc ∧ c.packet_loss_perc ≤ 100
  use_dtx_range : c.use_dtx = 0 ∨ c.use_dtx = 1
  use_fec_range : c.use_fec = 0 ∨ c.use_fec = 1

/-- The state of the ring of an instance with frames of `F` samples and a ring
of `4 * g` slots, `F` being `2 * g` or `3 * g`, while nothing has been emitted:
the read cursor is at 0 and the write cursor is a multiple of `F` modulo the
capacity, which is never more than `F`. -/
structure Starved (g F : Nat) (s : t_opus_codec E) : Prop where
  unit : 1 ≤ g
  frame : s.frame_size = F
  capacity : s.ring_size = 4 * g
  read_at_start : s.ring_read_pos = 0
  cursor_in_frame : 0 ≤ s.buffer_pos ∧ s.buffer_pos < F
  write_on_grid :
    (F = 2 * g ∧ (s.ring_write_pos = 0 ∨ s.ring_write_pos = 2 * g)) ∨
    (F = 3 * g ∧ (s.ring_write_pos = 0 ∨ s.ring_write_pos = g ∨ s.ring_write_pos = 2 * g ∨
      s.ring_write_pos = 3 * g))

/-! ## Rate negotiation: theorems -/

/-- C1. For every integer host rate `r`, `get_opus_sample_rate r` is the
smallest supported rate that is at least `r` whenever a supported rate at least
`r` exists, and it is 48000 for every `r` above 24000 (also above 48000). -/
theorem get_opus_sample_rate_smallest (r : Int) :
    ((∃ m ∈ supported_rates, r ≤ m) →
      get_opus_sample_rate r ∈ supported_rates ∧ r ≤ get_opus_sample_rate r ∧
        ∀ m ∈ supported_rates, r ≤ m → get_opus_sample_rate r ≤ m) ∧
    (24000 < r → get_opus_sample_rate r = 48000) := by
  refine ⟨?_, ?_⟩
  · rintro ⟨m, hm, hrm⟩
    simp only [supported_rates, List.mem_cons, List.mem_singleton, List.not_mem_nil,
      or_false] at hm ⊢
    unfold get_opus_sample_rate
    refine ⟨?_, ?_, ?_⟩
    · split_ifs <;> simp
    · split_ifs <;> omega
    · intro m' hm' hr'
      split_ifs <;> omega
  · intro h
    unfold get_opus_sample_rate
    split_ifs <;> omega

/-- C2. The rate negotiator always returns a supported rate, maps every rate up
to 8000 (zero and negative rates too) to 8000 and every rate above 24000 to
48000, and is monotone. -/
theorem get_opus_sample_rate_range_monotone (r s : Int) :
    get_opus_sample_rate r ∈ supported_rates ∧
    (r ≤ 8000 → get_opus_sample_rate r = 8000) ∧
    (24000 < r → get_opus_sample_rate r = 48000) ∧
    (r ≤ s → get_opus_sample_rate r ≤ get_opus_sample_rate s) := by
  refine ⟨?_, ?_, ?_, ?_⟩
  · unfold get_opus_sample_rate supported_rates
    split_ifs <;> simp
  · intro h
    simp [get_opus_sample_rate, h]
  · intro h
    unfold get_opus_sample_rate
    split_ifs <;> omega
  · intro h
    unfold get_opus_sample_rate
    split_ifs <;> omega

/-! ## Frame lemmas for `opus_codec_process_sample` -/

/-- The ring write loop changes only the two ring arrays and the write cursor. -/
theorem ring_write_frame (c : t_opus_codec E) (n : Int) :
    ∃ (l r : List Sample) (w : Int),
      ring_write c n =
        { c with output_ring_left := l, output_ring_right := r, ring_write_pos := w } := by
  unfold ring_write
  generalize n.toNat = k
  induction k with
  | zero => exact ⟨c.output_ring_left, c.output_ring_right, c.ring_write_pos, rfl⟩
  | succ k ih =>
    obtain ⟨l, r, w, h⟩ := ih
    rw [List.range_succ, List.foldl_append, h]
    simp only [List.foldl_cons, List.foldl_nil, ring_write_body]
    split_ifs
    · exact ⟨_, _, _, rfl⟩
    · exact ⟨_, _, _, rfl⟩

/-- The round trip leaves the read cursor, the ring capacity and the frame size
as they were. -/
theorem round_trip_frame (c : t_opus_codec E) :
    (round_trip c).ring_read_pos = c.ring_read_pos ∧
    (round_trip c).ring_size = c.ring_size ∧
    (round_trip c).frame_size = c.frame_size := by
  unfold round_trip
  simp only []
  split_ifs
  · obtain ⟨l, r, w, h⟩ := ring_write_frame
      (decode_packet (encode_frame (interleave { c with buffer_pos := 0 })).1
        (encode_frame (interleave { c with buffer_pos := 0 })).2).1
      (decode_packet (encode_frame (interleave { c with buffer_pos := 0 })).1
        (encode_frame (interleave { c with buffer_pos := 0 })).2).2
    rw [h]
    simp [decode_packet, encode_frame, interleave]
  · simp [decode_packet, encode_frame, interleave]
  · simp [encode_frame, interleave]

/-- The input half of a call leaves the read cursor, the ring capacity and the
frame size as they were. -/
theorem frame_step_frame (c : t_opus_codec E) (in_left in_right : Sample) :
    (frame_step c in_left in_right).ring_read_pos = c.ring_read_pos ∧
    (frame_step c in_left in_right).ring_size = c.ring_size ∧
    (frame_step c in_left in_right).frame_size = c.frame_size := by
  unfold frame_step
  simp only []
  split_ifs
  · have h := round_trip_frame (push_input c in_left in_right)
    simpa [push_input] using h
  · simp [push_input]

/-- C3. In a call of `opus_codec_process_sample` on an instance whose read
cursor lies in `[0, ring_size)`, with `s` the state after the input half of the
same call: if the available count of `s` exceeds `frame_size`, the call emits
the pair stored at the read cursor and advances the read cursor by one modulo
`ring_size`; otherwise it emits `(0, 0)` and leaves the instance as `s`. -/
theorem process_sample_output_policy (c : t_opus_codec E) (in_left in_right out_left out_right : Sample)
    (hread : 0 ≤ c.ring_read_pos ∧ c.ring_read_pos < c.ring_size) :
    (available (frame_step c in_left in_right) > (frame_step c in_left in_right).frame_size →
      opus_codec_process_sample (some c) in_left in_right (some out_left) (some out_right) =
        { codec := some { frame_step c in_left in_right with
                          ring_read_pos := (c.ring_read_pos + 1) % c.ring_size }
          out_left := some ((frame_step c in_left in_right).output_ring_left.getD
            c.ring_read_pos.toNat 0)
          out_right := some ((frame_step c in_left in_right).output_ring_right.getD
            c.ring_read_pos.toNat 0)
          ret := OPUS_CODEC_OK }) ∧
    (¬ available (frame_step c in_left in_right) > (frame_step c in_left in_right).frame_size →
      opus_codec_process_sample (some c) in_left in_right (some out_left) (some out_right) =
        { codec := some (frame_step c in_left in_right)
          out_left := some 0
          out_right := some 0
          ret := OPUS_CODEC_OK }) := by
  obtain ⟨hr, hs, -⟩ := frame_step_frame c in_left in_right
  constructor
  · intro h
    simp only [opus_codec_process_sample, output_step, if_pos h, hr, hs]
    have hwrap : (if c.ring_read_pos + 1 ≥ c.ring_size then (0 : Int) else c.ring_read_pos + 1) =
        (c.ring_read_pos + 1) % c.ring_size := by
      split_ifs with hge
      · have : c.ring_read_pos + 1 = c.ring_size := by omega
        simp [this]
      · rw [Int.emod_eq_of_lt] <;> omega
    rw [← hwrap]
    split_ifs <;> rfl
  · intro h
    simp only [opus_codec_process_sample, output_step, if_neg h]

/-- The output half of a call touches nothing but the read cursor. -/
theorem output_step_frame (c : t_opus_codec E) :
    ∃ r : Int, (output_step c).1 = { c with ring_read_pos := r } := by
  unfold output_step
  simp only []
  split_ifs
  · exact ⟨_, rfl⟩
  · exact ⟨_, rfl⟩
  · exact ⟨c.ring_read_pos, rfl⟩

/-- A round trip resets the input cursor and calls the encoder exactly once. -/
theorem round_trip_cursor_count (c : t_opus_codec E) :
    (round_trip c).buffer_pos = 0 ∧
    encode_count (round_trip c).trace = encode_count c.trace + 1 := by
  unfold round_trip
  simp only []
  split_ifs
  · obtain ⟨l, r, w, h⟩ := ring_write_frame
      (decode_packet (encode_frame (interleave { c with buffer_pos := 0 })).1
        (encode_frame (interleave { c with buffer_pos := 0 })).2).1
      (decode_packet (encode_frame (interleave { c with buffer_pos := 0 })).1
        (encode_frame (interleave { c with buffer_pos := 0 })).2).2
    rw [h]
    simp [decode_packet, encode_frame, interleave, encode_count, EngineCall.is_encode]
  · simp [decode_packet, encode_frame, interleave, encode_count, EngineCall.is_encode]
  · simp [encode_frame, interleave, encode_count, EngineCall.is_encode]

/-- One call with valid pointers, seen through the input cursor and the number
of encoder calls: the cursor advances, and on reaching `frame_size` it returns
to 0 and the encoder is called once. -/
theorem process_sample_cursor_count (c : t_opus_codec E) (in_left in_right : Sample) :
    ∃ c1 : t_opus_codec E,
      (opus_codec_process_sample (some c) in_left in_right (some 0) (some 0)).codec = some c1 ∧
      c1.frame_size = c.frame_size ∧
      (c.buffer_pos + 1 ≥ c.frame_size →
        c1.buffer_pos = 0 ∧ encode_count c1.trace = encode_count c.trace + 1) ∧
      (¬ c.buffer_pos + 1 ≥ c.frame_size →
        c1.buffer_pos = c.buffer_pos + 1 ∧ encode_count c1.trace = encode_count c.trace) := by
  obtain ⟨r, hr⟩ := output_step_frame (frame_step c in_left in_right)
  refine ⟨(output_step (frame_step c in_left in_right)).1, rfl, ?_, ?_, ?_⟩
  · rw [hr]
    exact (frame_step_frame c in_left in_right).2.2
  · intro h
    rw [hr]
    have hc := round_trip_cursor_count (push_input c in_left in_right)
    have hstep : frame_step c in_left in_right = round_trip (push_input c in_left in_right) := by
      unfold frame_step
      simp only []
      rw [if_pos]
      simpa [push_input] using h
    simp only [hstep]
    simpa [push_input] using hc
  · intro h
    rw [hr]
    have hstep : frame_step c in_left in_right = push_input c in_left in_right := by
      unfold frame_step
      simp only []
      rw [if_neg]
      simpa [push_input] using h
    simp [hstep, push_input]

/-- Consecutive calls from an input cursor `p` with `0 ≤ p < frame_size`: after
`n` calls the encoder has been called `(p + n) / frame_size` more times and the
cursor is `(p + n) % frame_size`. -/
theorem process_samples_from_cursor (inputs : List (Sample × Sample)) :
    ∀ (c : t_opus_codec E) (F p : Nat), c.frame_size = (F : Int) → c.buffer_pos = (p : Int) →
      p < F →
      ∃ c1 : t_opus_codec E, process_samples (some c) inputs = some c1 ∧
        c1.frame_size = c.frame_size ∧
        encode_count c1.trace = encode_count c.trace + (p + inputs.length) / F ∧
        c1.buffer_pos = (((p + inputs.length) % F : Nat) : Int) := by
  induction inputs with
  | nil =>
    intro c F p hF hp hlt
    refine ⟨c, rfl, rfl, ?_, ?_⟩
    · simp [Nat.div_eq_of_lt hlt]
    · simp [Nat.mod_eq_of_lt hlt, hp]
  | cons x rest ih =>
    intro c F p hF hp hlt
    obtain ⟨c1, h1, hfs, hfull, hpart⟩ := process_sample_cursor_count c x.1 x.2
    have hrun : process_samples (some c) (x :: rest) = process_samples (some c1) rest := by
      simp only [process_samples, List.foldl_cons, h1]
    by_cases hc : c.buffer_pos + 1 ≥ c.frame_size
    · obtain ⟨hb, hcount⟩ := hfull hc
      have hpF : p + 1 = F := by omega
      obtain ⟨c2, h2, hfs2, hcount2, hb2⟩ := ih c1 F 0 (by rw [hfs, hF]) (by simp [hb]) (by omega)
      refine ⟨c2, by rw [hrun, h2], by rw [hfs2, hfs], ?_, ?_⟩
      · rw [hcount2, hcount]
        have : p + (rest.length + 1) = F + rest.length := by omega
        simp only [List.length_cons, this, Nat.zero_add]
        rw [Nat.add_div_left _ (by omega : 0 < F)]
        omega
      · rw [hb2]
        have : p + (rest.length + 1) = F + rest.length := by omega
        simp only [List.length_cons, this, Nat.zero_add, Nat.add_mod_left]
    · obtain ⟨hb, hcount⟩ := hpart hc
      obtain ⟨c2, h2, hfs2, hcount2, hb2⟩ :=
        ih c1 F (p + 1) (by rw [hfs, hF]) (by rw [hb, hp]; push_cast; rfl) (by omega)
      refine ⟨c2, by rw [hrun, h2], by rw [hfs2, hfs], ?_, ?_⟩
      · rw [hcount2, hcount]
        have : p + 1 + rest.length = p + (rest.length + 1) := by omega
        simp only [List.length_cons, this]
      · rw [hb2]
        have : p + 1 + rest.length = p + (rest.length + 1) := by omega
        simp only [List.length_cons, this]

/-- The interleaving loop on a buffer with room for `n` pairs: the length is
kept, and slots `2 * i` and `2 * i + 1` hold the `i`-th left and right value. -/
theorem interleave_loop_spec (left right : List Sample) (n : Nat) :
    ∀ buf : List Sample, 2 * n ≤ buf.length →
      ((List.range n).foldl (interleave_body left right) buf).length = buf.length ∧
      ∀ i, i < n →
        ((List.range n).foldl (interleave_body left right) buf)[2 * i]? = some (left.getD i 0) ∧
        ((List.range n).foldl (interleave_body left right) buf)[2 * i + 1]? =
          some (right.getD i 0) := by
  induction n with
  | zero =>
    intro buf _
    exact ⟨rfl, fun i hi => absurd hi (Nat.not_lt_zero i)⟩
  | succ n ih =>
    intro buf hlen
    obtain ⟨hl, hslots⟩ := ih buf (by omega)
    rw [List.range_succ, List.foldl_append]
    simp only [List.foldl_cons, List.foldl_nil, interleave_body]
    refine ⟨by simp [hl], ?_⟩
    intro i hi
    by_cases hin : i = n
    · subst hin
      constructor
      · rw [List.getElem?_set, if_neg (by omega), List.getElem?_set, if_pos (by omega),
          if_pos (by omega)]
      · rw [List.getElem?_set, if_pos (by omega), if_pos (by simp; omega)]
    · have hi' : i < n := by omega
      obtain ⟨h0, h1⟩ := hslots i hi'
      constructor
      · rw [List.getElem?_set, if_neg (by omega), List.getElem?_set, if_neg (by omega), h0]
      · rw [List.getElem?_set, if_neg (by omega), List.getElem?_set, if_neg (by omega), h1]

/-- The frames handed to the encoder, over a concatenation of traces. -/
theorem encoded_frames_append (a b : List EngineCall) :
    encoded_frames (a ++ b) = encoded_frames a ++ encoded_frames b := by
  induction a with
  | nil => rfl
  | cons x rest ih =>
    cases x <;> simp [encoded_frames, ih]

/-- A round trip hands exactly one frame to the encoder: the first
`2 * frame_size` slots of the interleaved input buffer. -/
theorem round_trip_encoded_frames (c : t_opus_codec E) :
    encoded_frames (round_trip c).trace =
      encoded_frames c.trace ++
        [(interleave { c with buffer_pos := 0 }).interleaved_input.take (2 * c.frame_size.toNat)] := by
  unfold round_trip
  simp only []
  split_ifs
  · obtain ⟨l, r, w, h⟩ := ring_write_frame
      (decode_packet (encode_frame (interleave { c with buffer_pos := 0 })).1
        (encode_frame (interleave { c with buffer_pos := 0 })).2).1
      (decode_packet (encode_frame (interleave { c with buffer_pos := 0 })).1
        (encode_frame (interleave { c with buffer_pos := 0 })).2).2
    rw [h]
    simp [decode_packet, encode_frame, interleave, encoded_frames_append, encoded_frames]
  · simp [decode_packet, encode_frame, interleave, encoded_frames_append, encoded_frames]
  · simp [encode_frame, interleave, encoded_frames_append, encoded_frames]

/-- Writing slot `k` of a buffer whose first `k` slots are `a`. -/
theorem set_append_drop (a buf : List Sample) (k : Nat) (v : Sample) (hk : a.length = k)
    (hlt : k < buf.length) :
    (a ++ buf.drop k).set k v = (a ++ [v]) ++ buf.drop (k + 1) := by
  subst hk
  rw [List.set_append_right _ _ (le_refl _), Nat.sub_self, List.drop_eq_getElem_cons hlt,
    List.set_cons_zero, List.append_assoc]
  rfl

/-- A call that does not complete a frame only stores the input pair, advances
the input cursor and moves the read cursor. -/
theorem process_sample_incomplete (c : t_opus_codec E) (in_left in_right : Sample)
    (h : c.buffer_pos + 1 < c.frame_size) :
    ∃ rp : Int,
      (opus_codec_process_sample (some c) in_left in_right (some 0) (some 0)).codec =
        some { push_input c in_left in_right with ring_read_pos := rp } := by
  have hstep : frame_step c in_left in_right = push_input c in_left in_right := by
    unfold frame_step
    simp only []
    rw [if_neg]
    simp only [push_input]
    omega
  obtain ⟨rp, hrp⟩ := output_step_frame (push_input c in_left in_right)
  refine ⟨rp, ?_⟩
  simp only [opus_codec_process_sample, hstep, hrp]

/-- Fewer pushes than a frame, from input cursor 0: the pairs are stored in
push order at the start of the two input buffers, no engine call is made. -/
theorem process_samples_incomplete (c : t_opus_codec E) (hpos : c.buffer_pos = 0)
    (xs : List (Sample × Sample)) :
    (xs.length : Int) < c.frame_size → xs.length ≤ c.input_buffer_left.length →
      xs.length ≤ c.input_buffer_right.length →
      ∃ rp : Int, process_samples (some c) xs =
        some { c with
                input_buffer_left := xs.map Prod.fst ++ c.input_buffer_left.drop xs.length
                input_buffer_right := xs.map Prod.snd ++ c.input_buffer_right.drop xs.length
                buffer_pos := (xs.length : Int)
                ring_read_pos := rp } := by
  induction xs using List.reverseRecOn with
  | nil =>
    intro _ _ _
    refine ⟨c.ring_read_pos, ?_⟩
    simp [process_samples, ← hpos]
  | append_singleton xs x ih =>
    intro hF hL hR
    simp only [List.length_append, List.length_singleton] at hF hL hR
    obtain ⟨rp, hrun⟩ := ih (by push_cast at hF; omega) (by omega) (by omega)
    have happ : process_samples (some c) (xs ++ [x]) =
        (opus_codec_process_sample (process_samples (some c) xs) x.1 x.2 (some 0) (some 0)).codec := by
      simp [process_samples, List.foldl_append]
    rw [happ, hrun]
    obtain ⟨rp1, h1⟩ := process_sample_incomplete
      ({ c with
          input_buffer_left := xs.map Prod.fst ++ c.input_buffer_left.drop xs.length
          input_buffer_right := xs.map Prod.snd ++ c.input_buffer_right.drop xs.length
          buffer_pos := (xs.length : Int)
          ring_read_pos := rp } : t_opus_codec E) x.1 x.2 (by push_cast at hF; simpa using hF)
    refine ⟨rp1, ?_⟩
    rw [h1]
    simp only [push_input, Int.toNat_ofNat, List.length_append, List.length_singleton,
      List.map_append, List.map_cons, List.map_nil]
    rw [set_append_drop _ _ _ _ (by simp) (by omega), set_append_drop _ _ _ _ (by simp) (by omega)]
    push_cast
    rfl

/-- C3, at a concrete instance: the first call on the small instance has nothing
available and emits silence. -/
theorem process_sample_output_policy_witness :
    (0 ≤ ok_codec.ring_read_pos ∧ ok_codec.ring_read_pos < ok_codec.ring_size) ∧
    opus_codec_process_sample (some ok_codec) 5 7 (some 0) (some 0) =
      { codec := some (frame_step ok_codec 5 7)
        out_left := some 0
        out_right := some 0
        ret := OPUS_CODEC_OK } :=
  ⟨by decide, (process_sample_output_policy ok_codec 5 7 0 0 (by decide)).2 (by decide)⟩

/-- C4. From input cursor 0 and a frame size `F ≥ 1`, `n` consecutive calls of
`opus_codec_process_sample` call the encoder exactly `n / F` times (rounded
down) and leave the input cursor at `n mod F`; in particular exactly `F` calls
make one round-trip attempt and leave the cursor at 0, fewer than `F` make
none. -/
theorem process_samples_round_trip_count (c : t_opus_codec E) (inputs : List (Sample × Sample))
    (hpos : c.buffer_pos = 0) (hF : 1 ≤ c.frame_size) :
    ∃ c1 : t_opus_codec E, process_samples (some c) inputs = some c1 ∧
      (encode_count c1.trace : Int) = encode_count c.trace + (inputs.length : Int) / c.frame_size ∧
      c1.buffer_pos = (inputs.length : Int) % c.frame_size ∧
      ((inputs.length : Int) = c.frame_size →
        encode_count c1.trace = encode_count c.trace + 1 ∧ c1.buffer_pos = 0) ∧
      ((inputs.length : Int) < c.frame_size → encode_count c1.trace = encode_count c.trace) := by
  obtain ⟨F, hFn⟩ : ∃ F : Nat, c.frame_size = (F : Int) := ⟨c.frame_size.toNat, by omega⟩
  have hFpos : 0 < F := by omega
  obtain ⟨c1, hrun, -, hcount, hcur⟩ :=
    process_samples_from_cursor inputs c F 0 hFn (by simp [hpos]) hFpos
  simp only [Nat.zero_add] at hcount hcur
  refine ⟨c1, hrun, ?_, ?_, ?_, ?_⟩
  · rw [hcount, hFn]
    push_cast
    rfl
  · rw [hcur, hFn]
    push_cast
    rfl
  · intro hlen
    have hl : inputs.length = F := by omega
    rw [hcount, hcur, hl, Nat.div_self hFpos, Nat.mod_self]
    exact ⟨rfl, rfl⟩
  · intro hlen
    have hl : inputs.length < F := by omega
    rw [hcount, Nat.div_eq_of_lt hl]
    rfl

/-- C4, at a concrete instance: five pushes with frames of two samples. -/
theorem process_samples_round_trip_count_witness :
    (ok_codec.buffer_pos = 0 ∧ 1 ≤ ok_codec.frame_size) ∧
    ∃ c1 : t_opus_codec ok_engine,
      process_samples (some ok_codec) [(1, 2), (3, 4), (5, 6), (7, 8), (9, 10)] = some c1 ∧
      (encode_count c1.trace : Int) = encode_count ok_codec.trace +
        (([(1, 2), (3, 4), (5, 6), (7, 8), (9, 10)] : List (Sample × Sample)).length : Int) /
          ok_codec.frame_size ∧
      c1.buffer_pos =
        (([(1, 2), (3, 4), (5, 6), (7, 8), (9, 10)] : List (Sample × Sample)).length : Int) %
          ok_codec.frame_size ∧
      ((([(1, 2), (3, 4), (5, 6), (7, 8), (9, 10)] : List (Sample × Sample)).length : Int) =
          ok_codec.frame_size →
        encode_count c1.trace = encode_count ok_codec.trace + 1 ∧ c1.buffer_pos = 0) ∧
      ((([(1, 2), (3, 4), (5, 6), (7, 8), (9, 10)] : List (Sample × Sample)).length : Int) <
          ok_codec.frame_size →
        encode_count c1.trace = encode_count ok_codec.trace) :=
  ⟨by decide,
   process_samples_round_trip_count ok_codec [(1, 2), (3, 4), (5, 6), (7, 8), (9, 10)]
     (by decide) (by decide)⟩

/-- C5. From input cursor 0, pushing the `F` pairs of a frame (`F` the frame
size, the buffers long enough for a frame) hands the encoder exactly one more
frame: it has length `2 * F`, and for every `i < F` its element `2 * i` is the
left value and its element `2 * i + 1` the right value of the `i`-th pushed
pair. -/
theorem process_samples_interleaves_frame (c : t_opus_codec E) (inputs : List (Sample × Sample))
    (hpos : c.buffer_pos = 0) (hF : 1 ≤ c.frame_size)
    (hlen : (inputs.length : Int) = c.frame_size)
    (hleft : inputs.length ≤ c.input_buffer_left.length)
    (hright : inputs.length ≤ c.input_buffer_right.length)
    (hbuf : 2 * inputs.length ≤ c.interleaved_input.length) :
    ∃ (c1 : t_opus_codec E) (frame : List Sample),
      process_samples (some c) inputs = some c1 ∧
      encoded_frames c1.trace = encoded_frames c.trace ++ [frame] ∧
      frame.length = 2 * inputs.length ∧
      ∀ (i : Nat) (h : i < inputs.length),
        frame[2 * i]? = some (inputs.get ⟨i, h⟩).1 ∧
        frame[2 * i + 1]? = some (inputs.get ⟨i, h⟩).2 := by
  rcases List.eq_nil_or_concat inputs with hnil | ⟨xs, x, hcat⟩
  · subst hnil
    simp at hlen
    omega
  rw [List.concat_eq_append] at hcat
  subst hcat
  simp only [List.length_append, List.length_singleton] at hlen hleft hright hbuf
  obtain ⟨rp, hrun⟩ := process_samples_incomplete c hpos xs (by push_cast at hlen; omega)
    (by omega) (by omega)
  have happ : process_samples (some c) (xs ++ [x]) =
      (opus_codec_process_sample (process_samples (some c) xs) x.1 x.2 (some 0) (some 0)).codec := by
    simp [process_samples, List.foldl_append]
  rw [happ, hrun]
  generalize hc0 : ({ c with
      input_buffer_left := xs.map Prod.fst ++ c.input_buffer_left.drop xs.length
      input_buffer_right := xs.map Prod.snd ++ c.input_buffer_right.drop xs.length
      buffer_pos := (xs.length : Int)
      ring_read_pos := rp } : t_opus_codec E) = c0
  have hc0_fs : c0.frame_size = c.frame_size := by rw [← hc0]
  have hc0_pos : c0.buffer_pos = (xs.length : Int) := by rw [← hc0]
  have hc0_tr : c0.trace = c.trace := by rw [← hc0]
  have hc0_ii : c0.interleaved_input = c.interleaved_input := by rw [← hc0]
  have hc0_l : c0.input_buffer_left = xs.map Prod.fst ++ c.input_buffer_left.drop xs.length := by
    rw [← hc0]
  have hc0_r : c0.input_buffer_right = xs.map Prod.snd ++ c.input_buffer_right.drop xs.length := by
    rw [← hc0]
  have hstep : frame_step c0 x.1 x.2 = round_trip (push_input c0 x.1 x.2) := by
    unfold frame_step
    simp only []
    rw [if_pos]
    simp only [push_input, hc0_fs, hc0_pos]
    push_cast at hlen
    omega
  obtain ⟨rp1, hout⟩ := output_step_frame (frame_step c0 x.1 x.2)
  have hn : c.frame_size.toNat = xs.length + 1 := by
    rw [← hlen]
    simp
  have hpl : (push_input c0 x.1 x.2).input_buffer_left =
      (xs ++ [x]).map Prod.fst ++ c.input_buffer_left.drop (xs.length + 1) := by
    simp only [push_input, hc0_l, hc0_pos, Int.toNat_ofNat, List.map_append, List.map_cons,
      List.map_nil]
    exact set_append_drop _ _ _ _ (by simp) (by omega)
  have hpr : (push_input c0 x.1 x.2).input_buffer_right =
      (xs ++ [x]).map Prod.snd ++ c.input_buffer_right.drop (xs.length + 1) := by
    simp only [push_input, hc0_r, hc0_pos, Int.toNat_ofNat, List.map_append, List.map_cons,
      List.map_nil]
    exact set_append_drop _ _ _ _ (by simp) (by omega)
  obtain ⟨hlen', hslots⟩ := interleave_loop_spec
    ((xs ++ [x]).map Prod.fst ++ c.input_buffer_left.drop (xs.length + 1))
    ((xs ++ [x]).map Prod.snd ++ c.input_buffer_right.drop (xs.length + 1))
    (xs.length + 1) c.interleaved_input (by omega)
  have hframes := round_trip_encoded_frames (push_input c0 x.1 x.2)
  have hii : (interleave { push_input c0 x.1 x.2 with buffer_pos := 0 }).interleaved_input =
      (List.range (xs.length + 1)).foldl
        (interleave_body ((xs ++ [x]).map Prod.fst ++ c.input_buffer_left.drop (xs.length + 1))
          ((xs ++ [x]).map Prod.snd ++ c.input_buffer_right.drop (xs.length + 1)))
        c.interleaved_input := by
    simp only [interleave]
    rw [hpl, hpr]
    simp only [push_input, hc0_fs, hc0_ii, hn]
  have hfs : (push_input c0 x.1 x.2).frame_size.toNat = xs.length + 1 := by
    simp only [push_input, hc0_fs, hn]
  refine ⟨(output_step (frame_step c0 x.1 x.2)).1,
    (interleave { push_input c0 x.1 x.2 with buffer_pos := 0 }).interleaved_input.take
      (2 * (push_input c0 x.1 x.2).frame_size.toNat), rfl, ?_, ?_, ?_⟩
  · rw [hout, hstep]
    simp only []
    rw [hframes]
    simp only [push_input, hc0_tr]
  · rw [hii, hfs]
    simp only [List.length_take, hlen', List.length_append, List.length_singleton]
    omega
  · intro i hi
    have hi' : i < xs.length + 1 := by simpa using hi
    obtain ⟨h0, h1⟩ := hslots i hi'
    have hfst : ((xs ++ [x]).map Prod.fst ++ c.input_buffer_left.drop (xs.length + 1)).getD i 0 =
        ((xs ++ [x]).get ⟨i, hi⟩).1 := by
      rw [List.getD_eq_getElem?_getD, List.getElem?_append_left (by simpa using hi'),
        List.getElem?_map, List.getElem?_eq_getElem hi]
      rfl
    have hsnd : ((xs ++ [x]).map Prod.snd ++ c.input_buffer_right.drop (xs.length + 1)).getD i 0 =
        ((xs ++ [x]).get ⟨i, hi⟩).2 := by
      rw [List.getD_eq_getElem?_getD, List.getElem?_append_left (by simpa using hi'),
        List.getElem?_map, List.getElem?_eq_getElem hi]
      rfl
    rw [hii, hfs]
    constructor
    · rw [List.getElem?_take_of_lt (by omega), h0, hfst]
    · rw [List.getElem?_take_of_lt (by omega), h1, hsnd]

/-- C5, at a concrete instance: the two pairs of a two-sample frame. -/
theorem process_samples_interleaves_frame_witness :
    (ok_codec.buffer_pos = 0 ∧ 1 ≤ ok_codec.frame_size ∧
      (([(1, 2), (3, 4)] : List (Sample × Sample)).length : Int) = ok_codec.frame_size ∧
      ([(1, 2), (3, 4)] : List (Sample × Sample)).length ≤ ok_codec.input_buffer_left.length ∧
      ([(1, 2), (3, 4)] : List (Sample × Sample)).length ≤ ok_codec.input_buffer_right.length ∧
      2 * ([(1, 2), (3, 4)] : List (Sample × Sample)).length ≤
        ok_codec.interleaved_input.length) ∧
    ∃ (c1 : t_opus_codec ok_engine) (frame : List Sample),
      process_samples (some ok_codec) [(1, 2), (3, 4)] = some c1 ∧
      encoded_frames c1.trace = encoded_frames ok_codec.trace ++ [frame] ∧
      frame.length = 2 * ([(1, 2), (3, 4)] : List (Sample × Sample)).length ∧
      ∀ (i : Nat) (h : i < ([(1, 2), (3, 4)] : List (Sample × Sample)).length),
        frame[2 * i]? = some (([(1, 2), (3, 4)] : List (Sample × Sample)).get ⟨i, h⟩).1 ∧
        frame[2 * i + 1]? = some (([(1, 2), (3, 4)] : List (Sample × Sample)).get ⟨i, h⟩).2 :=
  ⟨by decide,
   process_samples_interleaves_frame ok_codec [(1, 2), (3, 4)] (by decide) (by decide) (by decide)
     (by decide) (by decide) (by decide)⟩

/-! ## The round trip -/

/-- The ring write loop, `k` iterations from a write cursor `w` inside a ring
of capacity at least `k`: the cursor ends at `w + k` wrapped once, the decoded
buffer and the capacity are untouched, and slot `w + i` (wrapped) holds the
`i`-th decoded pair. -/
theorem ring_write_loop_spec (c : t_opus_codec E)
    (hw : 0 ≤ c.ring_write_pos ∧ c.ring_write_pos < c.ring_size)
    (hl : c.ring_size.toNat ≤ c.output_ring_left.length)
    (hr : c.ring_size.toNat ≤ c.output_ring_right.length) (k : Nat) :
    (k : Int) ≤ c.ring_size →
      ((List.range k).foldl ring_write_body c).ring_write_pos =
        (if c.ring_write_pos + k < c.ring_size then c.ring_write_pos + k
         else c.ring_write_pos + k - c.ring_size) ∧
      ((List.range k).foldl ring_write_body c).output_ring_left.length =
        c.output_ring_left.length ∧
      ((List.range k).foldl ring_write_body c).output_ring_right.length =
        c.output_ring_right.length ∧
      ∀ i : Nat, i < k →
        ((List.range k).foldl ring_write_body c).output_ring_left[
            (if c.ring_write_pos + i < c.ring_size then c.ring_write_pos + i
             else c.ring_write_pos + i - c.ring_size).toNat]? =
          some (c.interleaved_output.getD (i * 2) 0) ∧
        ((List.range k).foldl ring_write_body c).output_ring_right[
            (if c.ring_write_pos + i < c.ring_size then c.ring_write_pos + i
             else c.ring_write_pos + i - c.ring_size).toNat]? =
          some (c.interleaved_output.getD (i * 2 + 1) 0) := by
  induction k with
  | zero =>
    intro _
    refine ⟨?_, rfl, rfl, fun i hi => absurd hi (Nat.not_lt_zero i)⟩
    simp only [List.range_zero, List.foldl_nil, Nat.cast_zero, add_zero]
    rw [if_pos hw.2]
  | succ k ih =>
    intro hk
    obtain ⟨hpos, hlenl, hlenr, hslots⟩ := ih (by push_cast at hk; omega)
    obtain ⟨l, r, w, hfr⟩ := ring_write_frame c (k : Int)
    simp only [ring_write, Int.toNat_ofNat] at hfr
    have hio : ((List.range k).foldl ring_write_body c).interleaved_output =
        c.interleaved_output := by rw [hfr]
    have hrs : ((List.range k).foldl ring_write_body c).ring_size = c.ring_size := by rw [hfr]
    rw [List.range_succ, List.foldl_append]
    simp only [List.foldl_cons, List.foldl_nil]
    generalize (List.range k).foldl ring_write_body c = ck at hpos hlenl hlenr hslots hio hrs
    push_cast at hk
    have hck : 0 ≤ ck.ring_write_pos ∧ ck.ring_write_pos < c.ring_size := by
      rw [hpos]
      split_ifs <;> omega
    have hidx : ck.ring_write_pos.toNat < ck.output_ring_left.length ∧
        ck.ring_write_pos.toNat < ck.output_ring_right.length := by
      constructor <;> omega
    have hbody_l : (ring_write_body ck k).output_ring_left =
        ck.output_ring_left.set ck.ring_write_pos.toNat (c.interleaved_output.getD (k * 2) 0) := by
      simp only [ring_write_body, hio]
      split_ifs <;> rfl
    have hbody_r : (ring_write_body ck k).output_ring_right =
        ck.output_ring_right.set ck.ring_write_pos.toNat
          (c.interleaved_output.getD (k * 2 + 1) 0) := by
      simp only [ring_write_body, hio]
      split_ifs <;> rfl
    have hbody_w : (ring_write_body ck k).ring_write_pos =
        (if ck.ring_write_pos + 1 ≥ c.ring_size then 0 else ck.ring_write_pos + 1) := by
      simp only [ring_write_body, hrs]
      split_ifs <;> rfl
    refine ⟨?_, ?_, ?_, ?_⟩
    · rw [hbody_w, hpos]
      push_cast
      split_ifs <;> omega
    · rw [hbody_l, List.length_set, hlenl]
    · rw [hbody_r, List.length_set, hlenr]
    · intro i hi
      rw [hbody_l, hbody_r]
      by_cases hik : i = k
      · subst hik
        rw [← hpos]
        constructor
        · rw [List.getElem?_set, if_pos rfl, if_pos hidx.1]
        · rw [List.getElem?_set, if_pos rfl, if_pos hidx.2]
      · obtain ⟨h0, h1⟩ := hslots i (by omega)
        have hne : ck.ring_write_pos.toNat ≠
            (if c.ring_write_pos + i < c.ring_size then c.ring_write_pos + i
             else c.ring_write_pos + i - c.ring_size).toNat := by
          rw [hpos]
          split_ifs <;> omega
        constructor
        · rw [List.getElem?_set, if_neg hne, h0]
        · rw [List.getElem?_set, if_neg hne, h1]

/-- For `0 ≤ x < 2 * m`, `x % m` is `x` wrapped once. -/
theorem emod_eq_wrap_once (x m : Int) (h0 : 0 ≤ x) (h1 : x < 2 * m) :
    x % m = if x < m then x else x - m := by
  split_ifs with h
  · exact Int.emod_eq_of_lt h0 h
  · rw [Int.emod_eq_sub_self_emod]
    exact Int.emod_eq_of_lt (by omega) (by omega)

/-- A frame-completing call runs the round trip on the interleaved frame. -/
theorem frame_step_full (c : t_opus_codec E) (in_left in_right : Sample)
    (hfull : c.buffer_pos + 1 ≥ c.frame_size) :
    frame_step c in_left in_right =
      if (encode_frame (frame_ready c in_left in_right)).2 > 0 then
        if (decode_packet (encode_frame (frame_ready c in_left in_right)).1
            (encode_frame (frame_ready c in_left in_right)).2).2 > 0 then
          ring_write
            (decode_packet (encode_frame (frame_ready c in_left in_right)).1
              (encode_frame (frame_ready c in_left in_right)).2).1
            (decode_packet (encode_frame (frame_ready c in_left in_right)).1
              (encode_frame (frame_ready c in_left in_right)).2).2
        else
          (decode_packet (encode_frame (frame_ready c in_left in_right)).1
            (encode_frame (frame_ready c in_left in_right)).2).1
      else (encode_frame (frame_ready c in_left in_right)).1 := by
  unfold frame_step
  simp only []
  rw [if_pos (by simpa [push_input] using hfull)]
  rfl

/-- C6. In a frame-completing call of `opus_codec_process_sample` in which the
encoder returns a value `≤ 0`, or the encoder succeeds and the decoder returns a
value `≤ 0`: the ring arrays and the ring write cursor are unchanged, the input
cursor is back at 0, the call returns `OPUS_CODEC_OK`, and the engine has been
called once (the encoder only) in the first case and twice (the encoder, then
the decoder) in the second. -/
theorem process_sample_drops_failed_frame (c : t_opus_codec E)
    (in_left in_right out_left out_right : Sample)
    (hfull : c.buffer_pos + 1 ≥ c.frame_size)
    (hfail : (encode_frame (frame_ready c in_left in_right)).2 ≤ 0 ∨
      (0 < (encode_frame (frame_ready c in_left in_right)).2 ∧
        (decode_packet (encode_frame (frame_ready c in_left in_right)).1
          (encode_frame (frame_ready c in_left in_right)).2).2 ≤ 0)) :
    ∃ c1 : t_opus_codec E,
      (opus_codec_process_sample (some c) in_left in_right (some out_left)
        (some out_right)).codec = some c1 ∧
      (opus_codec_process_sample (some c) in_left in_right (some out_left)
        (some out_right)).ret = OPUS_CODEC_OK ∧
      c1.output_ring_left = c.output_ring_left ∧
      c1.output_ring_right = c.output_ring_right ∧
      c1.ring_write_pos = c.ring_write_pos ∧
      c1.buffer_pos = 0 ∧
      ((encode_frame (frame_ready c in_left in_right)).2 ≤ 0 →
        c1.trace = c.trace ++
          [EngineCall.encode_float (frame_ready c in_left in_right).interleaved_input
            c.frame_size OPUS_MAX_PACKET_SIZE]) ∧
      (0 < (encode_frame (frame_ready c in_left in_right)).2 →
        c1.trace = c.trace ++
          [EngineCall.encode_float (frame_ready c in_left in_right).interleaved_input
            c.frame_size OPUS_MAX_PACKET_SIZE,
           EngineCall.decode_float (encode_frame (frame_ready c in_left in_right)).1.opus_packet
            (encode_frame (frame_ready c in_left in_right)).2 c.frame_size 0]) := by
  obtain ⟨rp, hout⟩ := output_step_frame (frame_step c in_left in_right)
  refine ⟨(output_step (frame_step c in_left in_right)).1, rfl, rfl, ?_⟩
  rw [hout, frame_step_full c in_left in_right hfull]
  rcases hfail with henc | ⟨henc, hdec⟩
  · rw [if_neg (by omega)]
    refine ⟨rfl, rfl, rfl, rfl, fun _ => rfl, fun h => absurd h (by omega)⟩
  · rw [if_pos (by omega), if_neg (by omega)]
    refine ⟨rfl, rfl, rfl, rfl, fun h => absurd h (by omega), fun _ => ?_⟩
    simp [decode_packet, encode_frame, frame_ready, interleave, push_input]

/-- C6, at concrete instances: a frame-completing call over an engine whose
encoder fails, and one over an engine whose decoder fails. -/
theorem process_sample_drops_failed_frame_witness :
    (∃ c1 : t_opus_codec failing_engine,
      (opus_codec_process_sample (some { failing_codec with buffer_pos := 1 }) 5 7 (some 0)
        (some 0)).codec = some c1 ∧
      c1.ring_write_pos = 0 ∧ c1.buffer_pos = 0 ∧
      c1.trace = [EngineCall.encode_float [0, 0, 5, 7] 2 4000]) ∧
    (∃ c1 : t_opus_codec decode_failing_engine,
      (opus_codec_process_sample (some { decode_failing_codec with buffer_pos := 1 }) 5 7 (some 0)
        (some 0)).codec = some c1 ∧
      c1.ring_write_pos = 0 ∧ c1.buffer_pos = 0 ∧
      c1.trace = [EngineCall.encode_float [0, 0, 5, 7] 2 4000,
        EngineCall.decode_float [] 1 2 0]) := by
  constructor
  · obtain ⟨c1, h1, -, -, -, hw, hb, ht, -⟩ :=
      process_sample_drops_failed_frame { failing_codec with buffer_pos := 1 } 5 7 0 0
        (by decide) (Or.inl (by decide))
    exact ⟨c1, h1, hw, hb, ht (by decide)⟩
  · obtain ⟨c1, h1, -, -, -, hw, hb, -, ht⟩ :=
      process_sample_drops_failed_frame { decode_failing_codec with buffer_pos := 1 } 5 7 0 0
        (by decide) (Or.inr (by decide))
    exact ⟨c1, h1, hw, hb, ht (by decide)⟩

/-- C7. In a frame-completing call of `opus_codec_process_sample` whose encoder
returns a positive packet size and whose decoder returns a count `n > 0`, on an
instance whose write cursor `w` lies in `[0, ring_size)` and whose ring has room
for the `n` samples: the engine has been called exactly twice, the encoder and
then the decoder, both with the instance's `frame_size`; the write cursor ends
at `(w + n) mod ring_size`; and for every `i < n` ring slot
`(w + i) mod ring_size` holds the decoded pair
`(interleaved_output[2 i], interleaved_output[2 i + 1])`. -/
theorem process_sample_round_trip_success (c : t_opus_codec E)
    (in_left in_right out_left out_right : Sample)
    (hfull : c.buffer_pos + 1 ≥ c.frame_size)
    (henc : 0 < (encode_frame (frame_ready c in_left in_right)).2)
    (hdec : 0 < (decode_packet (encode_frame (frame_ready c in_left in_right)).1
      (encode_frame (frame_ready c in_left in_right)).2).2)
    (hw : 0 ≤ c.ring_write_pos ∧ c.ring_write_pos < c.ring_size)
    (hroom : (decode_packet (encode_frame (frame_ready c in_left in_right)).1
      (encode_frame (frame_ready c in_left in_right)).2).2 ≤ c.ring_size)
    (hl : c.ring_size.toNat ≤ c.output_ring_left.length)
    (hr : c.ring_size.toNat ≤ c.output_ring_right.length) :
    ∃ c1 : t_opus_codec E,
      (opus_codec_process_sample (some c) in_left in_right (some out_left)
        (some out_right)).codec = some c1 ∧
      c1.trace = c.trace ++
        [EngineCall.encode_float (frame_ready c in_left in_right).interleaved_input
          c.frame_size OPUS_MAX_PACKET_SIZE,
         EngineCall.decode_float (encode_frame (frame_ready c in_left in_right)).1.opus_packet
          (encode_frame (frame_ready c in_left in_right)).2 c.frame_size 0] ∧
      c1.ring_write_pos =
        (c.ring_write_pos +
          (decode_packet (encode_frame (frame_ready c in_left in_right)).1
            (encode_frame (frame_ready c in_left in_right)).2).2) % c.ring_size ∧
      ∀ i : Nat,
        (i : Int) < (decode_packet (encode_frame (frame_ready c in_left in_right)).1
          (encode_frame (frame_ready c in_left in_right)).2).2 →
        c1.output_ring_left[((c.ring_write_pos + i) % c.ring_size).toNat]? =
          some ((decode_packet (encode_frame (frame_ready c in_left in_right)).1
            (encode_frame (frame_ready c in_left in_right)).2).1.interleaved_output.getD
              (2 * i) 0) ∧
        c1.output_ring_right[((c.ring_write_pos + i) % c.ring_size).toNat]? =
          some ((decode_packet (encode_frame (frame_ready c in_left in_right)).1
            (encode_frame (frame_ready c in_left in_right)).2).1.interleaved_output.getD
              (2 * i + 1) 0) := by
  obtain ⟨rp, hout⟩ := output_step_frame (frame_step c in_left in_right)
  refine ⟨(output_step (frame_step c in_left in_right)).1, rfl, ?_⟩
  rw [hout, frame_step_full c in_left in_right hfull, if_pos henc, if_pos hdec]
  generalize hd : decode_packet (encode_frame (frame_ready c in_left in_right)).1
    (encode_frame (frame_ready c in_left in_right)).2 = d at hdec hroom ⊢
  have hd_w : d.1.ring_write_pos = c.ring_write_pos := by rw [← hd]; rfl
  have hd_s : d.1.ring_size = c.ring_size := by rw [← hd]; rfl
  have hd_l : d.1.output_ring_left = c.output_ring_left := by rw [← hd]; rfl
  have hd_r : d.1.output_ring_right = c.output_ring_right := by rw [← hd]; rfl
  have hd_t : d.1.trace = c.trace ++
      [EngineCall.encode_float (frame_ready c in_left in_right).interleaved_input
        c.frame_size OPUS_MAX_PACKET_SIZE,
       EngineCall.decode_float (encode_frame (frame_ready c in_left in_right)).1.opus_packet
        (encode_frame (frame_ready c in_left in_right)).2 c.frame_size 0] := by
    rw [← hd]
    simp [decode_packet, encode_frame, frame_ready, interleave, push_input]
  obtain ⟨n, hn⟩ : ∃ n : Nat, d.2 = (n : Int) := ⟨d.2.toNat, by omega⟩
  obtain ⟨l, r, w, hfr⟩ := ring_write_frame d.1 d.2
  obtain ⟨hpos, -, -, hslots⟩ := ring_write_loop_spec d.1 (by rw [hd_w, hd_s]; exact hw)
    (by rw [hd_s, hd_l]; exact hl) (by rw [hd_s, hd_r]; exact hr) n (by rw [hd_s]; omega)
  have hrw : ring_write d.1 d.2 = (List.range n).foldl ring_write_body d.1 := by
    simp only [ring_write, hn, Int.toNat_ofNat]
  rw [hd_w, hd_s] at hpos
  refine ⟨?_, ?_, ?_⟩
  · show (ring_write d.1 d.2).trace = _
    rw [hfr]
    exact hd_t
  · show (ring_write d.1 d.2).ring_write_pos = _
    rw [hrw, hpos, hn, emod_eq_wrap_once _ _ (by omega) (by omega)]
  · intro i hi
    obtain ⟨h0, h1⟩ := hslots i (by omega)
    rw [hd_w, hd_s] at h0 h1
    rw [emod_eq_wrap_once _ _ (by omega) (by omega), Nat.mul_comm 2 i]
    show (ring_write d.1 d.2).output_ring_left[_]? = _ ∧ (ring_write d.1 d.2).output_ring_right[_]? = _
    rw [hrw]
    exact ⟨h0, h1⟩

/-- C7, at a concrete instance: the call that completes a two-sample frame over
the engine that decodes the pairs `(11, 12)` and `(21, 22)`. -/
theorem process_sample_round_trip_success_witness :
    ∃ c1 : t_opus_codec ok_engine,
      (opus_codec_process_sample (some { ok_codec with buffer_pos := 1 }) 5 7 (some 0)
        (some 0)).codec = some c1 ∧
      c1.trace = [EngineCall.encode_float [0, 0, 5, 7] 2 4000, EngineCall.decode_float [] 1 2 0] ∧
      c1.ring_write_pos = 2 ∧
      (c1.output_ring_left[0]? = some 11 ∧ c1.output_ring_right[0]? = some 12) ∧
      (c1.output_ring_left[1]? = some 21 ∧ c1.output_ring_right[1]? = some 22) := by
  obtain ⟨c1, h1, ht, hw, hs⟩ :=
    process_sample_round_trip_success { ok_codec with buffer_pos := 1 } 5 7 0 0
      (by decide) (by decide) (by decide) (by decide) (by decide) (by decide) (by decide)
  exact ⟨c1, h1, ht, hw, hs 0 (by decide), hs 1 (by decide)⟩

/-! ## Parameter setters: theorems -/

/-- The status of a control result is `OPUS_CODEC_OK` exactly when the result
is `OPUS_OK`. -/
theorem ctl_status_ok_iff (E : Engine) (r : Int) :
    ctl_status E r = OPUS_CODEC_OK ↔ r = E.OPUS_OK := by
  unfold ctl_status
  split_ifs with h
  · simp [h]
  · simp [h, OPUS_CODEC_OK, OPUS_CODEC_ERROR]

/-- The status of a rejected control is `OPUS_CODEC_ERROR`. -/
theorem ctl_status_error (E : Engine) (r : Int) (h : r ≠ E.OPUS_OK) :
    ctl_status E r = OPUS_CODEC_ERROR := by
  unfold ctl_status
  rw [if_neg h]

/-- C8. Every setter called with an argument outside its documented range
returns `OPUS_CODEC_ERROR` and leaves the instance exactly as it was, the
engine objects and the trace of engine calls included (no control is sent):
`opus_codec_set_bitrate` outside `[6000, 510000]`, `opus_codec_set_complexity`
outside `[0, 10]`, `opus_codec_set_vbr_mode` outside `{0, 1, 2}`,
`opus_codec_set_packet_loss` outside `[0, 100]`, `opus_codec_set_signal_type`
with a type that is neither voice nor music, `opus_codec_set_frame_size_ms`
with a value that is none of 2.5, 5, 10, 20, 40, 60. -/
theorem setters_reject_out_of_range (c : t_opus_codec E) :
    (∀ b : Int, b < 6000 ∨ b > 510000 →
      opus_codec_set_bitrate (some c) b = (some c, OPUS_CODEC_ERROR)) ∧
    (∀ x : Int, x < 0 ∨ x > 10 →
      opus_codec_set_complexity (some c) x = (some c, OPUS_CODEC_ERROR)) ∧
    (∀ m : Int, m ∉ ([0, 1, 2] : List Int) →
      opus_codec_set_vbr_mode (some c) m = (some c, OPUS_CODEC_ERROR)) ∧
    (∀ p : Int, p < 0 ∨ p > 100 →
      opus_codec_set_packet_loss (some c) p = (some c, OPUS_CODEC_ERROR)) ∧
    (∀ t : Int, t ≠ E.OPUS_SIGNAL_VOICE ∧ t ≠ E.OPUS_SIGNAL_MUSIC →
      opus_codec_set_signal_type (some c) t = (some c, OPUS_CODEC_ERROR)) ∧
    (∀ ms : CFloat, (∀ q ∈ frame_durations, ms ≠ CFloat.finite q) →
      opus_codec_set_frame_size_ms (some c) ms = (some c, OPUS_CODEC_ERROR)) := by
  refine ⟨?_, ?_, ?_, ?_, ?_, ?_⟩
  · intro b hb
    simp only [opus_codec_set_bitrate, if_pos hb]
  · intro x hx
    simp only [opus_codec_set_complexity, if_pos hx]
  · intro m hm
    have hm' : m < 0 ∨ m > 2 := by
      simp only [List.mem_cons, List.mem_singleton, List.not_mem_nil, or_false, not_or] at hm
      omega
    simp only [opus_codec_set_vbr_mode, if_pos hm']
  · intro p hp
    simp only [opus_codec_set_packet_loss, if_pos hp]
  · intro t ht
    simp only [opus_codec_set_signal_type, if_pos ht]
  · intro ms hms
    have hlit : ∀ q ∈ frame_durations, ms.eq_lit q = false := by
      intro q hq
      cases ms with
      | finite x =>
        have := hms q hq
        simp only [CFloat.eq_lit, decide_eq_false_iff_not]
        intro hx
        exact this (by rw [hx])
      | pos_inf => rfl
      | neg_inf => rfl
      | nan => rfl
    simp only [opus_codec_set_frame_size_ms,
      hlit (5 / 2) (by simp [frame_durations]), hlit 5 (by simp [frame_durations]),
      hlit 10 (by simp [frame_durations]), hlit 20 (by simp [frame_durations]),
      hlit 40 (by simp [frame_durations]), hlit 60 (by simp [frame_durations])]
    rfl

/-- The VBR arms of `opus_codec_set_vbr_mode` return `OPUS_OK` exactly when the
engine accepts both controls, and change nothing of the instance but the
encoder object and the trace. -/
theorem vbr_with_constraint_spec (c : t_opus_codec E) (k : Int) :
    ((vbr_with_constraint c k).2 = E.OPUS_OK ↔
      encoder_accepts E c.encoder (CtlRequest.OPUS_SET_VBR 1) ∧
      encoder_accepts E (E.opus_encoder_ctl c.encoder (CtlRequest.OPUS_SET_VBR 1)).1
        (CtlRequest.OPUS_SET_VBR_CONSTRAINT k)) ∧
    (vbr_with_constraint c k).1.vbr_mode = c.vbr_mode := by
  unfold vbr_with_constraint
  simp only []
  split_ifs with h
  · simp only [encoder_ctl, encoder_accepts] at h ⊢
    simp [h]
  · simp only [encoder_ctl, encoder_accepts] at h ⊢
    simp [h]

/-- C9. On a non-null instance, `opus_codec_set_bitrate` returns
`OPUS_CODEC_OK` if and only if the bitrate lies in `[6000, 510000]` and the
engine accepts the control, and then the stored bitrate is the argument; the
bounds 6000 and 510000 are in range. The same holds of
`opus_codec_set_complexity` with `[0, 10]`, `opus_codec_set_vbr_mode` with
`{0, 1, 2}` and `opus_codec_set_packet_loss` with `[0, 100]`. -/
theorem setters_ok_iff_in_range_and_accepted (c : t_opus_codec E) :
    (∀ b : Int,
      ((opus_codec_set_bitrate (some c) b).2 = OPUS_CODEC_OK ↔
        (6000 ≤ b ∧ b ≤ 510000) ∧ encoder_accepts E c.encoder (CtlRequest.OPUS_SET_BITRATE b)) ∧
      ((opus_codec_set_bitrate (some c) b).2 = OPUS_CODEC_OK →
        (opus_codec_set_bitrate (some c) b).1.map (fun c1 => c1.bitrate) = some b)) ∧
    ((opus_codec_set_bitrate (some c) 6000).2 = OPUS_CODEC_OK ↔
      encoder_accepts E c.encoder (CtlRequest.OPUS_SET_BITRATE 6000)) ∧
    ((opus_codec_set_bitrate (some c) 510000).2 = OPUS_CODEC_OK ↔
      encoder_accepts E c.encoder (CtlRequest.OPUS_SET_BITRATE 510000)) ∧
    (∀ x : Int,
      ((opus_codec_set_complexity (some c) x).2 = OPUS_CODEC_OK ↔
        (0 ≤ x ∧ x ≤ 10) ∧ encoder_accepts E c.encoder (CtlRequest.OPUS_SET_COMPLEXITY x)) ∧
      ((opus_codec_set_complexity (some c) x).2 = OPUS_CODEC_OK →
        (opus_codec_set_complexity (some c) x).1.map (fun c1 => c1.complexity) = some x)) ∧
    (∀ m : Int,
      ((opus_codec_set_vbr_mode (some c) m).2 = OPUS_CODEC_OK ↔
        m ∈ ([0, 1, 2] : List Int) ∧ vbr_controls_accepted E c.encoder m) ∧
      ((opus_codec_set_vbr_mode (some c) m).2 = OPUS_CODEC_OK →
        (opus_codec_set_vbr_mode (some c) m).1.map (fun c1 => c1.vbr_mode) = some m)) ∧
    (∀ p : Int,
      ((opus_codec_set_packet_loss (some c) p).2 = OPUS_CODEC_OK ↔
        (0 ≤ p ∧ p ≤ 100) ∧
          encoder_accepts E c.encoder (CtlRequest.OPUS_SET_PACKET_LOSS_PERC p)) ∧
      ((opus_codec_set_packet_loss (some c) p).2 = OPUS_CODEC_OK →
        (opus_codec_set_packet_loss (some c) p).1.map (fun c1 => c1.packet_loss_perc) =
          some p)) := by
  have hne : OPUS_CODEC_ERROR ≠ OPUS_CODEC_OK := by decide
  have hbit : ∀ b : Int,
      ((opus_codec_set_bitrate (some c) b).2 = OPUS_CODEC_OK ↔
        (6000 ≤ b ∧ b ≤ 510000) ∧ encoder_accepts E c.encoder (CtlRequest.OPUS_SET_BITRATE b)) ∧
      ((opus_codec_set_bitrate (some c) b).2 = OPUS_CODEC_OK →
        (opus_codec_set_bitrate (some c) b).1.map (fun c1 => c1.bitrate) = some b) := by
    intro b
    by_cases hb : b < 6000 ∨ b > 510000
    · simp only [opus_codec_set_bitrate, if_pos hb]
      exact ⟨⟨fun h => absurd h hne, fun h => by omega⟩, fun h => absurd h hne⟩
    · simp only [opus_codec_set_bitrate, if_neg hb, encoder_ctl, ctl_status_ok_iff,
        encoder_accepts, Option.map_some']
      exact ⟨⟨fun h => ⟨by omega, h⟩, fun h => h.2⟩, fun _ => trivial⟩
  refine ⟨hbit, ?_, ?_, ?_, ?_, ?_⟩
  · rw [(hbit 6000).1]
    exact ⟨fun h => h.2, fun h => ⟨by decide, h⟩⟩
  · rw [(hbit 510000).1]
    exact ⟨fun h => h.2, fun h => ⟨by decide, h⟩⟩
  · intro x
    by_cases hx : x < 0 ∨ x > 10
    · simp only [opus_codec_set_complexity, if_pos hx]
      exact ⟨⟨fun h => absurd h hne, fun h => by omega⟩, fun h => absurd h hne⟩
    · simp only [opus_codec_set_complexity, if_neg hx, encoder_ctl, ctl_status_ok_iff,
        encoder_accepts, Option.map_some']
      exact ⟨⟨fun h => ⟨by omega, h⟩, fun h => h.2⟩, fun _ => trivial⟩
  · intro m
    by_cases hm : m < 0 ∨ m > 2
    · simp only [opus_codec_set_vbr_mode, if_pos hm]
      refine ⟨⟨fun h => absurd h hne, fun h => ?_⟩, fun h => absurd h hne⟩
      have hmem := h.1
      simp only [List.mem_cons, List.mem_singleton, List.not_mem_nil, or_false] at hmem
      omega
    · have hcases : m = 0 ∨ m = 1 ∨ m = 2 := by omega
      rcases hcases with h0 | h1 | h2
      · subst h0
        simp only [opus_codec_set_vbr_mode, if_neg hm, if_pos, encoder_ctl, ctl_status_ok_iff,
          vbr_controls_accepted, encoder_accepts, Option.map_some']
        exact ⟨⟨fun h => ⟨by decide, h⟩, fun h => h.2⟩, fun _ => trivial⟩
      · subst h1
        obtain ⟨hiff, hmode⟩ := vbr_with_constraint_spec ({ c with vbr_mode := 1 }) 0
        have hrun : opus_codec_set_vbr_mode (some c) 1 =
            (some (vbr_with_constraint ({ c with vbr_mode := 1 }) 0).1,
             ctl_status E (vbr_with_constraint ({ c with vbr_mode := 1 }) 0).2) := by
          simp [opus_codec_set_vbr_mode]
        rw [hrun]
        refine ⟨?_, fun _ => congrArg some hmode⟩
        show ctl_status E _ = OPUS_CODEC_OK ↔ _
        rw [ctl_status_ok_iff, hiff]
        simp [vbr_controls_accepted]
      · subst h2
        obtain ⟨hiff, hmode⟩ := vbr_with_constraint_spec ({ c with vbr_mode := 2 }) 1
        have hrun : opus_codec_set_vbr_mode (some c) 2 =
            (some (vbr_with_constraint ({ c with vbr_mode := 2 }) 1).1,
             ctl_status E (vbr_with_constraint ({ c with vbr_mode := 2 }) 1).2) := by
          simp [opus_codec_set_vbr_mode]
        rw [hrun]
        refine ⟨?_, fun _ => congrArg some hmode⟩
        show ctl_status E _ = OPUS_CODEC_OK ↔ _
        rw [ctl_status_ok_iff, hiff]
        simp [vbr_controls_accepted]
  · intro p
    by_cases hp : p < 0 ∨ p > 100
    · simp only [opus_codec_set_packet_loss, if_pos hp]
      exact ⟨⟨fun h => absurd h hne, fun h => by omega⟩, fun h => absurd h hne⟩
    · simp only [opus_codec_set_packet_loss, if_neg hp, encoder_ctl, ctl_status_ok_iff,
        encoder_accepts, Option.map_some']
      exact ⟨⟨fun h => ⟨by omega, h⟩, fun h => h.2⟩, fun _ => trivial⟩

/-- When the engine rejects one of the two controls of a VBR arm, the arm
returns a result other than `OPUS_OK`. -/
theorem vbr_with_constraint_rejected (c : t_opus_codec E) (k : Int)
    (h : ¬ (encoder_accepts E c.encoder (CtlRequest.OPUS_SET_VBR 1) ∧
      encoder_accepts E (E.opus_encoder_ctl c.encoder (CtlRequest.OPUS_SET_VBR 1)).1
        (CtlRequest.OPUS_SET_VBR_CONSTRAINT k))) :
    (vbr_with_constraint c k).2 ≠ E.OPUS_OK := fun hok =>
  h ((vbr_with_constraint_spec c k).1.1 hok)

/-- The status of a control the engine rejects is `OPUS_CODEC_ERROR`. -/
theorem encoder_ctl_rejected (c : t_opus_codec E) (req : CtlRequest)
    (h : ¬ encoder_accepts E c.encoder req) :
    ctl_status E (encoder_ctl c req).2 = OPUS_CODEC_ERROR :=
  ctl_status_error E _ h

/-- C10. When a setter is called with an in-range argument and the engine
rejects the forwarded control, the setter returns `OPUS_CODEC_ERROR` and the
stored attribute is the new value all the same: bitrate, complexity, VBR mode,
signal type, packet loss, and DTX and FEC (whose new value is 1 for a non-zero
argument and 0 for zero). -/
theorem setters_keep_value_when_engine_rejects (c : t_opus_codec E) :
    (∀ b : Int, 6000 ≤ b ∧ b ≤ 510000 →
      ¬ encoder_accepts E c.encoder (CtlRequest.OPUS_SET_BITRATE b) →
      ∃ c1 : t_opus_codec E,
        opus_codec_set_bitrate (some c) b = (some c1, OPUS_CODEC_ERROR) ∧ c1.bitrate = b) ∧
    (∀ x : Int, 0 ≤ x ∧ x ≤ 10 →
      ¬ encoder_accepts E c.encoder (CtlRequest.OPUS_SET_COMPLEXITY x) →
      ∃ c1 : t_opus_codec E,
        opus_codec_set_complexity (some c) x = (some c1, OPUS_CODEC_ERROR) ∧
        c1.complexity = x) ∧
    (∀ m : Int, m ∈ ([0, 1, 2] : List Int) → ¬ vbr_controls_accepted E c.encoder m →
      ∃ c1 : t_opus_codec E,
        opus_codec_set_vbr_mode (some c) m = (some c1, OPUS_CODEC_ERROR) ∧ c1.vbr_mode = m) ∧
    (∀ t : Int, t = E.OPUS_SIGNAL_VOICE ∨ t = E.OPUS_SIGNAL_MUSIC →
      ¬ encoder_accepts E c.encoder (CtlRequest.OPUS_SET_SIGNAL t) →
      ∃ c1 : t_opus_codec E,
        opus_codec_set_signal_type (some c) t = (some c1, OPUS_CODEC_ERROR) ∧
        c1.signal_type = t) ∧
    (∀ p : Int, 0 ≤ p ∧ p ≤ 100 →
      ¬ encoder_accepts E c.encoder (CtlRequest.OPUS_SET_PACKET_LOSS_PERC p) →
      ∃ c1 : t_opus_codec E,
        opus_codec_set_packet_loss (some c) p = (some c1, OPUS_CODEC_ERROR) ∧
        c1.packet_loss_perc = p) ∧
    (∀ enable : Int,
      ¬ encoder_accepts E c.encoder (CtlRequest.OPUS_SET_DTX (if enable ≠ 0 then 1 else 0)) →
      ∃ c1 : t_opus_codec E,
        opus_codec_set_dtx (some c) enable = (some c1, OPUS_CODEC_ERROR) ∧
        c1.use_dtx = if enable ≠ 0 then 1 else 0) ∧
    (∀ enable : Int,
      ¬ encoder_accepts E c.encoder
        (CtlRequest.OPUS_SET_INBAND_FEC (if enable ≠ 0 then 1 else 0)) →
      ∃ c1 : t_opus_codec E,
        opus_codec_set_fec (some c) enable = (some c1, OPUS_CODEC_ERROR) ∧
        c1.use_fec = if enable ≠ 0 then 1 else 0) := by
  refine ⟨?_, ?_, ?_, ?_, ?_, ?_, ?_⟩
  · intro b hb hrej
    refine ⟨(encoder_ctl { c with bitrate := b } (CtlRequest.OPUS_SET_BITRATE b)).1, ?_, rfl⟩
    simp only [opus_codec_set_bitrate, if_neg (by omega : ¬ (b < 6000 ∨ b > 510000))]
    rw [encoder_ctl_rejected { c with bitrate := b } _ hrej]
  · intro x hx hrej
    refine ⟨(encoder_ctl { c with complexity := x } (CtlRequest.OPUS_SET_COMPLEXITY x)).1, ?_,
      rfl⟩
    simp only [opus_codec_set_complexity, if_neg (by omega : ¬ (x < 0 ∨ x > 10))]
    rw [encoder_ctl_rejected { c with complexity := x } _ hrej]
  · intro m hm hrej
    simp only [List.mem_cons, List.mem_singleton, List.not_mem_nil, or_false] at hm
    rcases hm with h0 | h1 | h2
    · subst h0
      refine ⟨(encoder_ctl { c with vbr_mode := 0 } (CtlRequest.OPUS_SET_VBR 0)).1, ?_, rfl⟩
      have hrej' : (encoder_ctl { c with vbr_mode := 0 } (CtlRequest.OPUS_SET_VBR 0)).2 ≠
          E.OPUS_OK := by
        simpa [vbr_controls_accepted, encoder_accepts, encoder_ctl] using hrej
      simp [opus_codec_set_vbr_mode, ctl_status_error E _ hrej']
    · subst h1
      have hrej' := vbr_with_constraint_rejected ({ c with vbr_mode := 1 }) 0
        (by simpa [vbr_controls_accepted] using hrej)
      refine ⟨(vbr_with_constraint ({ c with vbr_mode := 1 }) 0).1, ?_,
        (vbr_with_constraint_spec ({ c with vbr_mode := 1 }) 0).2⟩
      simp [opus_codec_set_vbr_mode, ctl_status_error E _ hrej']
    · subst h2
      have hrej' := vbr_with_constraint_rejected ({ c with vbr_mode := 2 }) 1
        (by simpa [vbr_controls_accepted] using hrej)
      refine ⟨(vbr_with_constraint ({ c with vbr_mode := 2 }) 1).1, ?_,
        (vbr_with_constraint_spec ({ c with vbr_mode := 2 }) 1).2⟩
      simp [opus_codec_set_vbr_mode, ctl_status_error E _ hrej']
  · intro t ht hrej
    refine ⟨(encoder_ctl { c with signal_type := t } (CtlRequest.OPUS_SET_SIGNAL t)).1, ?_, rfl⟩
    have hin : ¬ (t ≠ E.OPUS_SIGNAL_VOICE ∧ t ≠ E.OPUS_SIGNAL_MUSIC) := by
      rintro ⟨hv, hm⟩
      rcases ht with h | h
      · exact hv h
      · exact hm h
    simp only [opus_codec_set_signal_type, if_neg hin]
    rw [encoder_ctl_rejected { c with signal_type := t } _ hrej]
  · intro p hp hrej
    refine ⟨(encoder_ctl { c with packet_loss_perc := p }
      (CtlRequest.OPUS_SET_PACKET_LOSS_PERC p)).1, ?_, rfl⟩
    simp only [opus_codec_set_packet_loss, if_neg (by omega : ¬ (p < 0 ∨ p > 100))]
    rw [encoder_ctl_rejected { c with packet_loss_perc := p } _ hrej]
  · intro enable hrej
    refine ⟨(encoder_ctl { c with use_dtx := if enable ≠ 0 then 1 else 0 }
      (CtlRequest.OPUS_SET_DTX (if enable ≠ 0 then 1 else 0))).1, ?_, rfl⟩
    simp only [opus_codec_set_dtx]
    rw [encoder_ctl_rejected { c with use_dtx := if enable ≠ 0 then 1 else 0 } _ hrej]
  · intro enable hrej
    refine ⟨(encoder_ctl { c with use_fec := if enable ≠ 0 then 1 else 0 }
      (CtlRequest.OPUS_SET_INBAND_FEC (if enable ≠ 0 then 1 else 0))).1, ?_, rfl⟩
    simp only [opus_codec_set_fec]
    rw [encoder_ctl_rejected { c with use_fec := if enable ≠ 0 then 1 else 0 } _ hrej]

/-- C8, at a concrete instance: `opus_codec_set_bitrate` with 5999 and with
510001, and `opus_codec_set_frame_size_ms` with 15 ms and with a NaN. -/
theorem setters_reject_out_of_range_witness :
    opus_codec_set_bitrate (some ok_codec) 5999 = (some ok_codec, OPUS_CODEC_ERROR) ∧
    opus_codec_set_bitrate (some ok_codec) 510001 = (some ok_codec, OPUS_CODEC_ERROR) ∧
    opus_codec_set_frame_size_ms (some ok_codec) (CFloat.finite 15) =
      (some ok_codec, OPUS_CODEC_ERROR) ∧
    opus_codec_set_frame_size_ms (some ok_codec) CFloat.nan = (some ok_codec, OPUS_CODEC_ERROR) :=
  ⟨(setters_reject_out_of_range ok_codec).1 5999 (by decide),
   (setters_reject_out_of_range ok_codec).1 510001 (by decide),
   (setters_reject_out_of_range ok_codec).2.2.2.2.2 (CFloat.finite 15)
     (by intro q hq; simp only [frame_durations, List.mem_cons, List.mem_singleton,
           List.not_mem_nil, or_false] at hq
         rcases hq with h | h | h | h | h | h <;> subst h <;> intro hc <;>
           exact absurd (CFloat.finite.inj hc) (by norm_num)),
   (setters_reject_out_of_range ok_codec).2.2.2.2.2 CFloat.nan
     (by intro q _ hc; cases hc)⟩

/-- C9, at concrete instances: the two bounds of the bitrate are accepted over
the engine that accepts every control, and refused over the engine that
rejects every control. -/
theorem setters_ok_iff_in_range_and_accepted_witness :
    (opus_codec_set_bitrate (some ok_codec) 6000).2 = OPUS_CODEC_OK ∧
    (opus_codec_set_bitrate (some ok_codec) 510000).2 = OPUS_CODEC_OK ∧
    ¬ (opus_codec_set_bitrate (some failing_codec) 6000).2 = OPUS_CODEC_OK :=
  ⟨(setters_ok_iff_in_range_and_accepted ok_codec).2.1.2 (by decide),
   (setters_ok_iff_in_range_and_accepted ok_codec).2.2.1.2 (by decide),
   fun h => absurd ((setters_ok_iff_in_range_and_accepted failing_codec).2.1.1 h) (by decide)⟩

/-- C10, at a concrete instance: over the engine that rejects every control, a
bitrate of 64000 and a DTX argument of 5 are stored although the calls fail. -/
theorem setters_keep_value_when_engine_rejects_witness :
    (∃ c1 : t_opus_codec failing_engine,
      opus_codec_set_bitrate (some failing_codec) 64000 = (some c1, OPUS_CODEC_ERROR) ∧
      c1.bitrate = 64000) ∧
    (∃ c1 : t_opus_codec failing_engine,
      opus_codec_set_dtx (some failing_codec) 5 = (some c1, OPUS_CODEC_ERROR) ∧
      c1.use_dtx = if (5 : Int) ≠ 0 then 1 else 0) :=
  ⟨(setters_keep_value_when_engine_rejects failing_codec).1 64000 (by decide) (by decide),
   (setters_keep_value_when_engine_rejects failing_codec).2.2.2.2.2.1 5 (by decide)⟩

/-! ## Instances reachable from `opus_codec_create` -/

/-- The sizes of a well-formed instance: a frame has at least one sample, fits
the frame buffers, and is smaller than the ring. -/
theorem WellFormed.sizes {c : t_opus_codec E} (h : WellFormed c) :
    1 ≤ c.frame_size ∧ c.frame_size ≤ OPUS_MAX_FRAME_SIZE ∧ c.frame_size ≤ c.ring_size ∧
    0 < c.ring_size := by
  obtain ⟨d, hd, hfs⟩ := h.frame_of_duration
  have hr := h.rate_supported
  have hc := h.ring_capacity
  rw [hfs, hc]
  simp only [supported_rates, List.mem_cons, List.mem_singleton, List.not_mem_nil,
    or_false] at hr
  simp only [duration_fractions, List.mem_cons, List.mem_singleton, List.not_mem_nil,
    or_false] at hd
  rcases hr with hr | hr | hr | hr | hr <;> rw [hr] <;>
    rcases hd with hd | hd | hd | hd | hd | hd <;> subst hd <;> decide

/-- The rate negotiator returns a supported rate. -/
theorem get_opus_sample_rate_mem (r : Int) : get_opus_sample_rate r ∈ supported_rates := by
  unfold get_opus_sample_rate supported_rates
  split_ifs <;> simp

/-- Well-formedness depends only on the rate, the sizes, the cursors and the
lengths of the frame and ring buffers. -/
theorem WellFormed.congr {c c1 : t_opus_codec E} (h : WellFormed c)
    (h1 : c1.sample_rate = c.sample_rate) (h2 : c1.frame_size = c.frame_size)
    (h3 : c1.ring_size = c.ring_size)
    (h4 : c1.output_ring_left.length = c.output_ring_left.length)
    (h5 : c1.output_ring_right.length = c.output_ring_right.length)
    (h6 : c1.ring_write_pos = c.ring_write_pos) (h7 : c1.ring_read_pos = c.ring_read_pos)
    (h8 : c1.buffer_pos = c.buffer_pos)
    (h9 : c1.input_buffer_left.length = c.input_buffer_left.length)
    (h10 : c1.input_buffer_right.length = c.input_buffer_right.length)
    (h11 : c1.interleaved_input.length = c.interleaved_input.length) : WellFormed c1 where
  rate_supported := by rw [h1]; exact h.rate_supported
  frame_of_duration := by rw [h1, h2]; exact h.frame_of_duration
  ring_capacity := by rw [h1, h3]; exact h.ring_capacity
  ring_left_length := by rw [h3, h4]; exact h.ring_left_length
  ring_right_length := by rw [h3, h5]; exact h.ring_right_length
  write_in_ring := by rw [h3, h6]; exact h.write_in_ring
  read_in_ring := by rw [h3, h7]; exact h.read_in_ring
  cursor_in_frame := by rw [h2, h8]; exact h.cursor_in_frame
  input_left_length := by rw [h9]; exact h.input_left_length
  input_right_length := by rw [h10]; exact h.input_right_length
  interleaved_length := by rw [h11]; exact h.interleaved_length

/-- A control sent to the encoder keeps an instance well-formed. -/
theorem WellFormed.encoder_ctl {c : t_opus_codec E} (h : WellFormed c) (req : CtlRequest) :
    WellFormed (OpusCodec.encoder_ctl c req).1 :=
  h.congr rfl rfl rfl rfl rfl rfl rfl rfl rfl rfl rfl

/-- A control sent to the decoder keeps an instance well-formed. -/
theorem WellFormed.decoder_ctl {c : t_opus_codec E} (h : WellFormed c) (req : CtlRequest) :
    WellFormed (OpusCodec.decoder_ctl c req).1 :=
  h.congr rfl rfl rfl rfl rfl rfl rfl rfl rfl rfl rfl

/-- The instance `opus_codec_create` returns is well-formed. -/
theorem opus_codec_create_well_formed (host_sample_rate : Int) (calloc_ok : Nat → Bool)
    (c : t_opus_codec E) (h : opus_codec_create E host_sample_rate calloc_ok = some c) :
    WellFormed c := by
  unfold opus_codec_create at h
  by_cases h0 : calloc_ok 0 = false
  · rw [if_pos h0] at h
    exact absurd h (by simp)
  rw [if_neg h0] at h
  simp only [] at h
  generalize E.opus_encoder_create (get_opus_sample_rate host_sample_rate) OPUS_CHANNELS
    E.OPUS_APPLICATION_AUDIO = re at h
  obtain ⟨e1, enc⟩ := re
  cases enc with
  | none => exact absurd h (by simp)
  | some encoder =>
    simp only [] at h
    by_cases h1 : e1 ≠ E.OPUS_OK
    · rw [if_pos h1] at h
      exact absurd h (by simp)
    rw [if_neg h1] at h
    generalize E.opus_decoder_create (get_opus_sample_rate host_sample_rate) OPUS_CHANNELS =
      rd at h
    obtain ⟨e2, dec⟩ := rd
    cases dec with
    | none => exact absurd h (by simp)
    | some decoder =>
      simp only [] at h
      by_cases h2 : e2 ≠ E.OPUS_OK
      · rw [if_pos h2] at h
        exact absurd h (by simp)
      rw [if_neg h2] at h
      by_cases h3 : (List.range' 1 9).all calloc_ok = true
      swap
      · rw [if_neg h3] at h
        exact absurd h (by simp)
      rw [if_pos h3, Option.some.injEq] at h
      subst h
      have hmem := get_opus_sample_rate_mem host_sample_rate
      have hpos : 0 < ms_to_samples (get_opus_sample_rate host_sample_rate) OPUS_FRAME_SIZE_MS 1 := by
        generalize get_opus_sample_rate host_sample_rate = r at hmem
        simp only [supported_rates, List.mem_cons, List.mem_singleton, List.not_mem_nil,
          or_false] at hmem
        rcases hmem with hr | hr | hr | hr | hr <;> rw [hr] <;> decide
      refine ⟨hmem, ⟨(20, 1), by simp [duration_fractions], rfl⟩, rfl, ?_, ?_, ?_, ?_, ?_, ?_, ?_,
        ?_⟩
      · simp [init_buffers, apply_defaults, set_defaults, calloc_codec, encoder_ctl]
      · simp [init_buffers, apply_defaults, set_defaults, calloc_codec, encoder_ctl]
      · simp only [init_buffers, apply_defaults, set_defaults, calloc_codec, OpusCodec.encoder_ctl]
        omega
      · simp only [init_buffers, apply_defaults, set_defaults, calloc_codec, OpusCodec.encoder_ctl]
        omega
      · simp only [init_buffers, apply_defaults, set_defaults, calloc_codec, OpusCodec.encoder_ctl]
        omega
      · simp [init_buffers]
      · simp [init_buffers]
      · simp [init_buffers]

/-- The interleaving loop keeps the length of the buffer it writes. -/
theorem interleave_loop_length (left right : List Sample) (n : Nat) (buf : List Sample) :
    ((List.range n).foldl (interleave_body left right) buf).length = buf.length := by
  induction n with
  | zero => rfl
  | succ n ih =>
    rw [List.range_succ, List.foldl_append]
    simp only [List.foldl_cons, List.foldl_nil, interleave_body, List.length_set, ih]

/-- The ring write loop, whatever the number of iterations, keeps the write
cursor inside the ring and the lengths of the ring arrays. -/
theorem ring_write_in_ring (c : t_opus_codec E)
    (hw : 0 ≤ c.ring_write_pos ∧ c.ring_write_pos < c.ring_size) (n : Int) :
    (0 ≤ (ring_write c n).ring_write_pos ∧ (ring_write c n).ring_write_pos < c.ring_size) ∧
    (ring_write c n).output_ring_left.length = c.output_ring_left.length ∧
    (ring_write c n).output_ring_right.length = c.output_ring_right.length := by
  unfold ring_write
  generalize n.toNat = k
  induction k with
  | zero => exact ⟨hw, rfl, rfl⟩
  | succ k ih =>
    obtain ⟨hpos, hl, hr⟩ := ih
    obtain ⟨l, r, w, hfr⟩ := ring_write_frame c (k : Int)
    simp only [ring_write, Int.toNat_ofNat] at hfr
    have hrs : ((List.range k).foldl ring_write_body c).ring_size = c.ring_size := by rw [hfr]
    rw [List.range_succ, List.foldl_append]
    simp only [List.foldl_cons, List.foldl_nil]
    generalize (List.range k).foldl ring_write_body c = ck at hpos hl hr hrs
    simp only [ring_write_body, hrs]
    split_ifs with hge
    · refine ⟨⟨le_refl 0, ?_⟩, by simp [hl], by simp [hr]⟩
      show (0 : Int) < c.ring_size
      omega
    · refine ⟨?_, by simp [hl], by simp [hr]⟩
      show 0 ≤ ck.ring_write_pos + 1 ∧ ck.ring_write_pos + 1 < c.ring_size
      have hlt : ¬ ck.ring_write_pos + 1 ≥ c.ring_size := hge
      omega

/-- A round trip keeps an instance well-formed, whatever the engine answers,
provided the input cursor was in the frame buffers. -/
theorem WellFormed.round_trip {c : t_opus_codec E} (h : WellFormed { c with buffer_pos := 0 }) :
    WellFormed (OpusCodec.round_trip c) := by
  have hw : 0 ≤ c.ring_write_pos ∧ c.ring_write_pos < c.ring_size := h.write_in_ring
  have hii : (interleave { c with buffer_pos := 0 }).interleaved_input.length =
      c.interleaved_input.length := by
    simp only [interleave]
    exact interleave_loop_length _ _ _ _
  unfold OpusCodec.round_trip
  simp only []
  split_ifs
  · generalize hd : decode_packet (encode_frame (interleave { c with buffer_pos := 0 })).1
      (encode_frame (interleave { c with buffer_pos := 0 })).2 = d
    have hd_w : d.1.ring_write_pos = c.ring_write_pos := by rw [← hd]; rfl
    have hd_s : d.1.ring_size = c.ring_size := by rw [← hd]; rfl
    have hd_l : d.1.output_ring_left = c.output_ring_left := by rw [← hd]; rfl
    have hd_r : d.1.output_ring_right = c.output_ring_right := by rw [← hd]; rfl
    obtain ⟨hpos, hl, hr⟩ := ring_write_in_ring d.1 (by rw [hd_w, hd_s]; exact hw) d.2
    obtain ⟨l, r, w, hfr⟩ := ring_write_frame d.1 d.2
    rw [hd_s] at hpos
    rw [hd_l] at hl
    rw [hd_r] at hr
    refine ⟨?_, ?_, ?_, ?_, ?_, ?_, ?_, ?_, ?_, ?_, ?_⟩
    · rw [hfr, ← hd]; exact h.rate_supported
    · rw [hfr, ← hd]; exact h.frame_of_duration
    · rw [hfr, ← hd]; exact h.ring_capacity
    · rw [hl]
      rw [hfr, ← hd]
      exact h.ring_left_length
    · rw [hr]
      rw [hfr, ← hd]
      exact h.ring_right_length
    · have hs : (ring_write d.1 d.2).ring_size = c.ring_size := by rw [hfr, ← hd]; rfl
      rw [hs]
      exact hpos
    · rw [hfr, ← hd]; exact h.read_in_ring
    · rw [hfr, ← hd]; exact h.cursor_in_frame
    · rw [hfr, ← hd]; exact h.input_left_length
    · rw [hfr, ← hd]; exact h.input_right_length
    · rw [hfr, ← hd]
      show (interleave { c with buffer_pos := 0 }).interleaved_input.length = _
      rw [hii]
      exact h.interleaved_length
  · exact h.congr rfl rfl rfl rfl rfl rfl rfl rfl rfl rfl hii
  · exact h.congr rfl rfl rfl rfl rfl rfl rfl rfl rfl rfl hii

/-- The output half of a call keeps an instance well-formed. -/
theorem WellFormed.output_step {c : t_opus_codec E} (h : WellFormed c) :
    WellFormed (OpusCodec.output_step c).1 := by
  have hr := h.read_in_ring
  unfold OpusCodec.output_step
  simp only []
  split_ifs with ha hge
  · have hin : (0 : Int) ≤ 0 ∧ (0 : Int) < c.ring_size := ⟨le_refl 0, by omega⟩
    exact { h with read_in_ring := hin }
  · have hlt : ¬ c.ring_read_pos + 1 ≥ c.ring_size := hge
    have hin : 0 ≤ c.ring_read_pos + 1 ∧ c.ring_read_pos + 1 < c.ring_size := by omega
    exact { h with read_in_ring := hin }
  · exact h

/-- A call of `opus_codec_process_sample` keeps an instance well-formed. -/
theorem WellFormed.process_sample {c : t_opus_codec E} (h : WellFormed c)
    (in_left in_right : Sample) :
    ∃ c1 : t_opus_codec E,
      (opus_codec_process_sample (some c) in_left in_right (some 0) (some 0)).codec = some c1 ∧
      WellFormed c1 := by
  refine ⟨(OpusCodec.output_step (frame_step c in_left in_right)).1, rfl, ?_⟩
  apply WellFormed.output_step
  have hsz := h.sizes
  have hcur := h.cursor_in_frame
  have hpush : ∀ p : Int, 0 ≤ p ∧ p < c.frame_size →
      WellFormed { push_input c in_left in_right with buffer_pos := p } := by
    intro p hp
    exact { h with
      cursor_in_frame := hp
      input_left_length := by simp [push_input, h.input_left_length]
      input_right_length := by simp [push_input, h.input_right_length] }
  unfold frame_step
  simp only []
  split_ifs with hfull
  · exact WellFormed.round_trip (hpush 0 ⟨le_refl 0, by omega⟩)
  · have := hpush (c.buffer_pos + 1) ⟨by omega, by simpa [push_input] using hfull⟩
    exact this

/-- The two VBR arms keep an instance well-formed. -/
theorem WellFormed.vbr_with_constraint {c : t_opus_codec E} (h : WellFormed c) (k : Int) :
    WellFormed (OpusCodec.vbr_with_constraint c k).1 := by
  unfold OpusCodec.vbr_with_constraint
  simp only []
  split_ifs
  · exact (h.encoder_ctl _).encoder_ctl _
  · exact h.encoder_ctl _

/-- The length of a buffer after `memset`. -/
theorem memset_zero_length (buf : List Sample) (n : Int) :
    (memset_zero buf n).length = buf.length := by
  simp only [memset_zero, List.length_append, List.length_replicate, List.length_drop]
  omega

/-- A frame size computed from an accepted duration at a supported rate is
positive. -/
theorem ms_to_samples_pos (rate : Int) (hr : rate ∈ supported_rates) (d : Int × Int)
    (hd : d ∈ duration_fractions) : 0 < ms_to_samples rate d.1 d.2 := by
  simp only [supported_rates, List.mem_cons, List.mem_singleton, List.not_mem_nil,
    or_false] at hr
  simp only [duration_fractions, List.mem_cons, List.mem_singleton, List.not_mem_nil,
    or_false] at hd
  rcases hr with hr | hr | hr | hr | hr <;> rw [hr] <;>
    rcases hd with hd | hd | hd | hd | hd | hd <;> subst hd <;> decide

/-- Every operation on a well-formed instance returns a well-formed instance. -/
theorem WellFormed.run {c : t_opus_codec E} (h : WellFormed c) (op : Operation) :
    ∃ c1 : t_opus_codec E, op.run (some c) = some c1 ∧ WellFormed c1 := by
  cases op with
  | process_sample l r => exact h.process_sample l r
  | set_bitrate b =>
    simp only [Operation.run, opus_codec_set_bitrate]
    split_ifs
    · exact ⟨c, rfl, h⟩
    · exact ⟨_, rfl, h.congr rfl rfl rfl rfl rfl rfl rfl rfl rfl rfl rfl⟩
  | set_complexity x =>
    simp only [Operation.run, opus_codec_set_complexity]
    split_ifs
    · exact ⟨c, rfl, h⟩
    · exact ⟨_, rfl, h.congr rfl rfl rfl rfl rfl rfl rfl rfl rfl rfl rfl⟩
  | set_vbr_mode m =>
    have hm : WellFormed ({ c with vbr_mode := m } : t_opus_codec E) :=
      h.congr rfl rfl rfl rfl rfl rfl rfl rfl rfl rfl rfl
    simp only [Operation.run, opus_codec_set_vbr_mode]
    split_ifs
    · exact ⟨c, rfl, h⟩
    · exact ⟨_, rfl, hm.encoder_ctl _⟩
    · exact ⟨_, rfl, hm.vbr_with_constraint _⟩
    · exact ⟨_, rfl, hm.vbr_with_constraint _⟩
    · exact ⟨_, rfl, hm⟩
  | set_signal_type t =>
    simp only [Operation.run, opus_codec_set_signal_type]
    split_ifs
    · exact ⟨c, rfl, h⟩
    · exact ⟨_, rfl, h.congr rfl rfl rfl rfl rfl rfl rfl rfl rfl rfl rfl⟩
  | set_packet_loss p =>
    simp only [Operation.run, opus_codec_set_packet_loss]
    split_ifs
    · exact ⟨c, rfl, h⟩
    · exact ⟨_, rfl, h.congr rfl rfl rfl rfl rfl rfl rfl rfl rfl rfl rfl⟩
  | set_dtx e =>
    exact ⟨_, rfl, h.congr rfl rfl rfl rfl rfl rfl rfl rfl rfl rfl rfl⟩
  | set_fec e =>
    exact ⟨_, rfl, h.congr rfl rfl rfl rfl rfl rfl rfl rfl rfl rfl rfl⟩
  | set_frame_size_ms ms =>
    have hnew : ∀ d ∈ duration_fractions,
        WellFormed ({ c with
          frame_size := ms_to_samples c.sample_rate d.1 d.2
          buffer_pos := 0, output_pos := 0, output_available := 0 } : t_opus_codec E) := by
      intro d hd
      exact { h with
        frame_of_duration := ⟨d, hd, rfl⟩
        cursor_in_frame := ⟨le_refl 0, ms_to_samples_pos c.sample_rate h.rate_supported d hd⟩ }
    simp only [Operation.run, opus_codec_set_frame_size_ms]
    split_ifs
    · exact ⟨_, rfl, hnew (5, 2) (by simp [duration_fractions])⟩
    · exact ⟨_, rfl, hnew (5, 1) (by simp [duration_fractions])⟩
    · exact ⟨_, rfl, hnew (10, 1) (by simp [duration_fractions])⟩
    · exact ⟨_, rfl, hnew (20, 1) (by simp [duration_fractions])⟩
    · exact ⟨_, rfl, hnew (40, 1) (by simp [duration_fractions])⟩
    · exact ⟨_, rfl, hnew (60, 1) (by simp [duration_fractions])⟩
    · exact ⟨c, rfl, h⟩
  | reset =>
    have hsz := h.sizes
    refine ⟨_, rfl, ?_⟩
    exact { h with
      cursor_in_frame := ⟨le_refl 0, by show (0 : Int) < c.frame_size; omega⟩
      input_left_length := by
        show (memset_zero c.input_buffer_left OPUS_MAX_FRAME_SIZE).length = _
        rw [memset_zero_length]
        exact h.input_left_length
      input_right_length := by
        show (memset_zero c.input_buffer_right OPUS_MAX_FRAME_SIZE).length = _
        rw [memset_zero_length]
        exact h.input_right_length
      interleaved_length := by
        show (memset_zero c.interleaved_input (OPUS_MAX_FRAME_SIZE * OPUS_CHANNELS)).length = _
        rw [memset_zero_length]
        exact h.interleaved_length }
  | get_latency => exact ⟨_, rfl, h.encoder_ctl _⟩

/-- Operations on no instance return no instance. -/
theorem run_operations_none (ops : List Operation) :
    ops.foldl (fun codec op => op.run codec) (none : Option (t_opus_codec E)) = none := by
  induction ops with
  | nil => rfl
  | cons op rest ih =>
    have h : op.run (none : Option (t_opus_codec E)) = none := by cases op <;> rfl
    simp only [List.foldl_cons, h, ih]

/-- A sequence of operations on a well-formed instance ends in a well-formed
instance. -/
theorem WellFormed.run_all (ops : List Operation) :
    ∀ c : t_opus_codec E, WellFormed c →
      ∃ c1 : t_opus_codec E,
        ops.foldl (fun codec op => op.run codec) (some c) = some c1 ∧ WellFormed c1 := by
  induction ops with
  | nil => exact fun c h => ⟨c, rfl, h⟩
  | cons op rest ih =>
    intro c h
    obtain ⟨c1, h1, hwf⟩ := h.run op
    obtain ⟨c2, h2, hwf2⟩ := ih c1 hwf
    exact ⟨c2, by simp only [List.foldl_cons, h1, h2], hwf2⟩

/-- Every instance reached from `opus_codec_create` by a sequence of operations
is well-formed, whatever the engine answers: in particular its frame has at
least one sample and fits the frame buffers, its cursors are inside their
buffers, and its ring arrays have `ring_size` slots, more than a frame. -/
theorem run_operations_well_formed (host_sample_rate : Int) (calloc_ok : Nat → Bool)
    (ops : List Operation) (c : t_opus_codec E)
    (h : run_operations E host_sample_rate calloc_ok ops = some c) : WellFormed c := by
  unfold run_operations at h
  cases hc : opus_codec_create E host_sample_rate calloc_ok with
  | none =>
    rw [hc, run_operations_none] at h
    exact absurd h (by simp)
  | some c0 =>
    rw [hc] at h
    obtain ⟨c1, h1, hwf⟩ :=
      WellFormed.run_all ops c0 (opus_codec_create_well_formed host_sample_rate calloc_ok c0 hc)
    rw [h1, Option.some.injEq] at h
    rw [← h]
    exact hwf

/-- On a well-formed instance the buffers fit what a frame-completing call
touches: the frame buffers hold a frame, the interleaved buffer holds its
`2 * frame_size` samples, the ring arrays have `ring_size` slots, the write
cursor is in the ring, and a decoded count of at most `frame_size` (the most
the decoder is asked for) is at most `ring_size`. -/
theorem WellFormed.buffers_fit {c : t_opus_codec E} (h : WellFormed c) (n : Int)
    (hn : n ≤ c.frame_size) :
    c.frame_size.toNat ≤ c.input_buffer_left.length ∧
    c.frame_size.toNat ≤ c.input_buffer_right.length ∧
    2 * c.frame_size.toNat ≤ c.interleaved_input.length ∧
    (0 ≤ c.ring_write_pos ∧ c.ring_write_pos < c.ring_size) ∧
    n ≤ c.ring_size ∧
    c.ring_size.toNat ≤ c.output_ring_left.length ∧
    c.ring_size.toNat ≤ c.output_ring_right.length := by
  obtain ⟨h1, h2, h3, -⟩ := h.sizes
  have hmax : OPUS_MAX_FRAME_SIZE = 2880 := by decide
  have hch : OPUS_CHANNELS = 2 := rfl
  refine ⟨?_, ?_, ?_, h.write_in_ring, by omega, ?_, ?_⟩
  · rw [h.input_left_length]
    omega
  · rw [h.input_right_length]
    omega
  · rw [h.interleaved_length, hmax, hch]
    omega
  · rw [h.ring_left_length]
  · rw [h.ring_right_length]

/-! ## Frame size, creation, reset and latency: theorems -/

/-- What `opus_codec_set_frame_size_ms` does with an accepted duration
`num / den`: the frame size is recomputed and three cursors are zeroed. -/
theorem set_frame_size_ms_accepted (c : t_opus_codec E) (d : Int × Int)
    (hd : d ∈ duration_fractions) :
    opus_codec_set_frame_size_ms (some c) (CFloat.finite ((d.1 : ℚ) / (d.2 : ℚ))) =
      (some { c with
              frame_size := ms_to_samples c.sample_rate d.1 d.2
              buffer_pos := 0, output_pos := 0, output_available := 0 },
       OPUS_CODEC_OK) := by
  simp only [duration_fractions, List.mem_cons, List.mem_singleton, List.not_mem_nil,
    or_false] at hd
  rcases hd with hd | hd | hd | hd | hd | hd <;> subst hd <;>
    simp only [opus_codec_set_frame_size_ms, CFloat.eq_lit] <;> norm_num

/-- At a supported rate the frame size of an accepted duration is an exact
quotient: nothing is lost by the truncation. -/
theorem ms_to_samples_exact (rate : Int) (hr : rate ∈ supported_rates) (d : Int × Int)
    (hd : d ∈ duration_fractions) :
    ms_to_samples rate d.1 d.2 * (d.2 * 1000) = rate * d.1 := by
  simp only [supported_rates, List.mem_cons, List.mem_singleton, List.not_mem_nil,
    or_false] at hr
  simp only [duration_fractions, List.mem_cons, List.mem_singleton, List.not_mem_nil,
    or_false] at hd
  rcases hr with hr | hr | hr | hr | hr <;> rw [hr] <;>
    rcases hd with hd | hd | hd | hd | hd | hd <;> subst hd <;> decide

/-- Every accepted duration is the quotient of one of the fractions. -/
theorem frame_durations_fraction (q : ℚ) (hq : q ∈ frame_durations) :
    ∃ d ∈ duration_fractions, q = (d.1 : ℚ) / (d.2 : ℚ) ∧ 0 < d.2 := by
  simp only [frame_durations, List.mem_cons, List.mem_singleton, List.not_mem_nil,
    or_false] at hq
  rcases hq with h | h | h | h | h | h <;> subst h
  · exact ⟨(5, 2), by simp [duration_fractions], by norm_num, by norm_num⟩
  · exact ⟨(5, 1), by simp [duration_fractions], by norm_num, by norm_num⟩
  · exact ⟨(10, 1), by simp [duration_fractions], by norm_num, by norm_num⟩
  · exact ⟨(20, 1), by simp [duration_fractions], by norm_num, by norm_num⟩
  · exact ⟨(40, 1), by simp [duration_fractions], by norm_num, by norm_num⟩
  · exact ⟨(60, 1), by simp [duration_fractions], by norm_num, by norm_num⟩

/-- When `opus_codec_create` returns an instance, the engine created both
objects with `OPUS_OK` and the instance is the default one built on them. -/
theorem opus_codec_create_some (host_sample_rate : Int) (calloc_ok : Nat → Bool)
    (c : t_opus_codec E) (h : opus_codec_create E host_sample_rate calloc_ok = some c) :
    ∃ (encoder : E.Enc) (decoder : E.Dec),
      E.opus_encoder_create (get_opus_sample_rate host_sample_rate) OPUS_CHANNELS
        E.OPUS_APPLICATION_AUDIO = (E.OPUS_OK, some encoder) ∧
      E.opus_decoder_create (get_opus_sample_rate host_sample_rate) OPUS_CHANNELS =
        (E.OPUS_OK, some decoder) ∧
      c = init_buffers (apply_defaults (set_defaults
        (calloc_codec E (get_opus_sample_rate host_sample_rate) encoder decoder))) := by
  unfold opus_codec_create at h
  by_cases h0 : calloc_ok 0 = false
  · rw [if_pos h0] at h
    exact absurd h (by simp)
  rw [if_neg h0] at h
  simp only [] at h
  generalize hre : E.opus_encoder_create (get_opus_sample_rate host_sample_rate) OPUS_CHANNELS
    E.OPUS_APPLICATION_AUDIO = re at h
  obtain ⟨e1, enc⟩ := re
  cases enc with
  | none => exact absurd h (by simp)
  | some encoder =>
    simp only [] at h
    by_cases h1 : e1 ≠ E.OPUS_OK
    · rw [if_pos h1] at h
      exact absurd h (by simp)
    rw [if_neg h1] at h
    generalize hrd : E.opus_decoder_create (get_opus_sample_rate host_sample_rate)
      OPUS_CHANNELS = rd at h
    obtain ⟨e2, dec⟩ := rd
    cases dec with
    | none => exact absurd h (by simp)
    | some decoder =>
      simp only [] at h
      by_cases h2 : e2 ≠ E.OPUS_OK
      · rw [if_pos h2] at h
        exact absurd h (by simp)
      rw [if_neg h2] at h
      by_cases h3 : (List.range' 1 9).all calloc_ok = true
      swap
      · rw [if_neg h3] at h
        exact absurd h (by simp)
      rw [if_pos h3, Option.some.injEq] at h
      have e1ok : e1 = E.OPUS_OK := not_not.mp h1
      have e2ok : e2 = E.OPUS_OK := not_not.mp h2
      exact ⟨encoder, decoder, by rw [e1ok], by rw [e2ok], h.symm⟩

/-- When the engine creates both objects with `OPUS_OK` and every allocation
succeeds, `opus_codec_create` returns the default instance built on them. -/
theorem opus_codec_create_accepted (host_sample_rate : Int) (calloc_ok : Nat → Bool)
    (encoder : E.Enc) (decoder : E.Dec)
    (henc : E.opus_encoder_create (get_opus_sample_rate host_sample_rate) OPUS_CHANNELS
      E.OPUS_APPLICATION_AUDIO = (E.OPUS_OK, some encoder))
    (hdec : E.opus_decoder_create (get_opus_sample_rate host_sample_rate) OPUS_CHANNELS =
      (E.OPUS_OK, some decoder))
    (hmem : ∀ k, calloc_ok k = true) :
    opus_codec_create E host_sample_rate calloc_ok =
      some (init_buffers (apply_defaults (set_defaults
        (calloc_codec E (get_opus_sample_rate host_sample_rate) encoder decoder)))) := by
  have hall : (List.range' 1 9).all calloc_ok = true := by
    rw [List.all_eq_true]
    exact fun k _ => hmem k
  unfold opus_codec_create
  rw [if_neg (by rw [hmem 0]; exact Bool.noConfusion)]
  simp only [henc, hdec, ne_eq, not_true_eq_false, if_false, hall, if_true]

/-- When the engine rejects the creation of the encoder or of the decoder (an
error code other than `OPUS_OK`, or no object), `opus_codec_create` returns no
instance. -/
theorem opus_codec_create_rejected (host_sample_rate : Int) (calloc_ok : Nat → Bool)
    (hrej :
      (E.opus_encoder_create (get_opus_sample_rate host_sample_rate) OPUS_CHANNELS
          E.OPUS_APPLICATION_AUDIO).1 ≠ E.OPUS_OK ∨
      (E.opus_encoder_create (get_opus_sample_rate host_sample_rate) OPUS_CHANNELS
          E.OPUS_APPLICATION_AUDIO).2 = none ∨
      (E.opus_decoder_create (get_opus_sample_rate host_sample_rate) OPUS_CHANNELS).1 ≠
        E.OPUS_OK ∨
      (E.opus_decoder_create (get_opus_sample_rate host_sample_rate) OPUS_CHANNELS).2 = none) :
    opus_codec_create E host_sample_rate calloc_ok = none := by
  cases hc : opus_codec_create E host_sample_rate calloc_ok with
  | none => rfl
  | some c =>
    obtain ⟨encoder, decoder, he, hd, -⟩ := opus_codec_create_some host_sample_rate calloc_ok c hc
    rw [he, hd] at hrej
    simp at hrej

/-- C11. At a supported rate `R` and for a duration `d` of 2.5, 5, 10, 20, 40 or
60 ms, `opus_codec_set_frame_size_ms` returns `OPUS_CODEC_OK` and sets
`frame_size` to `round (R * d / 1000)`, which is the exact value of
`R * d / 1000`; and an instance returned by `opus_codec_create` has
`frame_size = R * 20 / 1000` for its (supported) rate `R`. -/
theorem set_frame_size_ms_exact (c : t_opus_codec E) (d : ℚ)
    (hR : c.sample_rate ∈ supported_rates) (hd : d ∈ frame_durations) :
    (∃ c1 : t_opus_codec E,
      opus_codec_set_frame_size_ms (some c) (CFloat.finite d) = (some c1, OPUS_CODEC_OK) ∧
      c1.sample_rate = c.sample_rate ∧
      (c1.frame_size : ℚ) = (c.sample_rate : ℚ) * d / 1000 ∧
      c1.frame_size = round ((c.sample_rate : ℚ) * d / 1000)) ∧
    (∀ (host_sample_rate : Int) (calloc_ok : Nat → Bool) (c0 : t_opus_codec E),
      opus_codec_create E host_sample_rate calloc_ok = some c0 →
      c0.sample_rate ∈ supported_rates ∧
      (c0.frame_size : ℚ) = (c0.sample_rate : ℚ) * 20 / 1000) := by
  constructor
  · obtain ⟨f, hf, hq, hden⟩ := frame_durations_fraction d hd
    have hexact := ms_to_samples_exact c.sample_rate hR f hf
    have hval : ((ms_to_samples c.sample_rate f.1 f.2 : Int) : ℚ) =
        (c.sample_rate : ℚ) * d / 1000 := by
      have hq' : ((ms_to_samples c.sample_rate f.1 f.2 : Int) : ℚ) * ((f.2 : ℚ) * 1000) =
          (c.sample_rate : ℚ) * (f.1 : ℚ) := by exact_mod_cast hexact
      have hden' : (f.2 : ℚ) ≠ 0 := by
        have : (0 : ℚ) < (f.2 : ℚ) := by exact_mod_cast hden
        exact ne_of_gt this
      rw [hq]
      field_simp
      linarith
    refine ⟨{ c with
        frame_size := ms_to_samples c.sample_rate f.1 f.2
        buffer_pos := 0, output_pos := 0, output_available := 0 },
      by rw [hq]; exact set_frame_size_ms_accepted c f hf, rfl, hval, ?_⟩
    show ms_to_samples c.sample_rate f.1 f.2 = _
    rw [← hval, round_intCast]
  · intro host_sample_rate calloc_ok c0 h0
    obtain ⟨encoder, decoder, -, -, hc0⟩ :=
      opus_codec_create_some host_sample_rate calloc_ok c0 h0
    have hrate : c0.sample_rate = get_opus_sample_rate host_sample_rate := by rw [hc0]; rfl
    have hfs : c0.frame_size = ms_to_samples c0.sample_rate 20 1 := by rw [hc0]; rfl
    have hmem : c0.sample_rate ∈ supported_rates := by
      rw [hrate]
      exact get_opus_sample_rate_mem host_sample_rate
    have hexact := ms_to_samples_exact c0.sample_rate hmem (20, 1) (by simp [duration_fractions])
    refine ⟨hmem, ?_⟩
    rw [hfs]
    have hq' : ((ms_to_samples c0.sample_rate 20 1 : Int) : ℚ) * ((1 : ℚ) * 1000) =
        (c0.sample_rate : ℚ) * 20 := by exact_mod_cast hexact
    linarith

/-- C11, at a concrete instance: 2.5 ms at 8000 Hz is 20 samples. -/
theorem set_frame_size_ms_exact_witness :
    (ok_codec.sample_rate ∈ supported_rates ∧ (5 / 2 : ℚ) ∈ frame_durations) ∧
    ∃ c1 : t_opus_codec ok_engine,
      opus_codec_set_frame_size_ms (some ok_codec) (CFloat.finite (5 / 2)) =
        (some c1, OPUS_CODEC_OK) ∧
      c1.sample_rate = ok_codec.sample_rate ∧
      (c1.frame_size : ℚ) = (ok_codec.sample_rate : ℚ) * (5 / 2) / 1000 ∧
      c1.frame_size = round ((ok_codec.sample_rate : ℚ) * (5 / 2) / 1000) :=
  ⟨⟨by decide, by simp [frame_durations]⟩,
   (set_frame_size_ms_exact ok_codec (5 / 2) (by decide) (by simp [frame_durations])).1⟩

/-- C16. If the engine rejects the creation of the encoder or of the decoder,
`opus_codec_create` returns no instance. Every instance it returns has the
negotiated rate, bitrate 6000, complexity 0, VBR mode 0, signal type music,
packet loss 0, DTX 0, FEC 0, `frame_size = sample_rate * 20 / 1000` (an exact
quotient), `ring_size = 4 * frame_size`, and the input cursor and both ring
cursors at 0; and it does return an instance when the engine creates both
objects and every allocation succeeds. -/
theorem opus_codec_create_defaults (host_sample_rate : Int) (calloc_ok : Nat → Bool) :
    (((E.opus_encoder_create (get_opus_sample_rate host_sample_rate) OPUS_CHANNELS
          E.OPUS_APPLICATION_AUDIO).1 ≠ E.OPUS_OK ∨
      (E.opus_encoder_create (get_opus_sample_rate host_sample_rate) OPUS_CHANNELS
          E.OPUS_APPLICATION_AUDIO).2 = none ∨
      (E.opus_decoder_create (get_opus_sample_rate host_sample_rate) OPUS_CHANNELS).1 ≠
        E.OPUS_OK ∨
      (E.opus_decoder_create (get_opus_sample_rate host_sample_rate) OPUS_CHANNELS).2 = none) →
      opus_codec_create E host_sample_rate calloc_ok = none) ∧
    (∀ c : t_opus_codec E, opus_codec_create E host_sample_rate calloc_ok = some c →
      c.sample_rate = get_opus_sample_rate host_sample_rate ∧
      c.bitrate = 6000 ∧ c.complexity = 0 ∧ c.vbr_mode = 0 ∧
      c.signal_type = E.OPUS_SIGNAL_MUSIC ∧ c.packet_loss_perc = 0 ∧
      c.use_dtx = 0 ∧ c.use_fec = 0 ∧
      c.frame_size = c.sample_rate * 20 / 1000 ∧ c.frame_size * 1000 = c.sample_rate * 20 ∧
      c.ring_size = 4 * c.frame_size ∧
      c.buffer_pos = 0 ∧ c.ring_read_pos = 0 ∧ c.ring_write_pos = 0) ∧
    (∀ (encoder : E.Enc) (decoder : E.Dec),
      E.opus_encoder_create (get_opus_sample_rate host_sample_rate) OPUS_CHANNELS
        E.OPUS_APPLICATION_AUDIO = (E.OPUS_OK, some encoder) →
      E.opus_decoder_create (get_opus_sample_rate host_sample_rate) OPUS_CHANNELS =
        (E.OPUS_OK, some decoder) →
      (∀ k, calloc_ok k = true) →
      ∃ c : t_opus_codec E, opus_codec_create E host_sample_rate calloc_ok = some c) := by
  refine ⟨opus_codec_create_rejected host_sample_rate calloc_ok, ?_, ?_⟩
  · intro c hc
    obtain ⟨encoder, decoder, -, -, h⟩ := opus_codec_create_some host_sample_rate calloc_ok c hc
    have hrate : c.sample_rate = get_opus_sample_rate host_sample_rate := by rw [h]; rfl
    have hfs : c.frame_size = ms_to_samples c.sample_rate 20 1 := by rw [h]; rfl
    have hmem : c.sample_rate ∈ supported_rates := by
      rw [hrate]
      exact get_opus_sample_rate_mem host_sample_rate
    have hexact := ms_to_samples_exact c.sample_rate hmem (20, 1) (by simp [duration_fractions])
    have hexact' : c.frame_size * 1000 = c.sample_rate * 20 := by
      rw [hfs]
      simpa using hexact
    have hring : c.ring_size = c.frame_size * 4 := by rw [h]; rfl
    refine ⟨hrate, by rw [h]; rfl, by rw [h]; rfl, by rw [h]; rfl, by rw [h]; rfl,
      by rw [h]; rfl, by rw [h]; rfl, by rw [h]; rfl, by omega, hexact', by omega,
      by rw [h]; rfl, by rw [h]; rfl, by rw [h]; rfl⟩
  · intro encoder decoder henc hdec hmem
    exact ⟨_, opus_codec_create_accepted host_sample_rate calloc_ok encoder decoder henc hdec hmem⟩

/-- C16, at a concrete engine: a host rate of 44100 over the engine that
accepts everything gives an instance at 48000 Hz with frames of 960 samples and
a ring of 3840. -/
theorem opus_codec_create_defaults_witness :
    ∃ c : t_opus_codec ok_engine,
      opus_codec_create ok_engine 44100 (fun _ => true) = some c ∧
      c.sample_rate = 48000 ∧ c.bitrate = 6000 ∧ c.frame_size * 1000 = 48000 * 20 ∧
      c.ring_size = 4 * c.frame_size ∧ c.buffer_pos = 0 := by
  obtain ⟨c, hc⟩ := (opus_codec_create_defaults (E := ok_engine) 44100 (fun _ => true)).2.2
    () () rfl rfl (fun _ => rfl)
  obtain ⟨h1, h2, -, -, -, -, -, -, -, h3, h4, h5, -, -⟩ :=
    (opus_codec_create_defaults (E := ok_engine) 44100 (fun _ => true)).2.1 c hc
  have hrate : c.sample_rate = 48000 := by rw [h1]; decide
  exact ⟨c, hc, hrate, h2, by rw [h3, hrate], h4, h5⟩

/-- Whatever its argument, `opus_codec_set_frame_size_ms` leaves the ring as it
was: the capacity, both cursors and both arrays. -/
theorem set_frame_size_ms_ring_untouched (c : t_opus_codec E) (ms : CFloat) :
    ∃ c1 : t_opus_codec E, (opus_codec_set_frame_size_ms (some c) ms).1 = some c1 ∧
      c1.ring_size = c.ring_size ∧ c1.ring_write_pos = c.ring_write_pos ∧
      c1.ring_read_pos = c.ring_read_pos ∧ c1.output_ring_left = c.output_ring_left ∧
      c1.output_ring_right = c.output_ring_right := by
  simp only [opus_codec_set_frame_size_ms]
  split_ifs <;> exact ⟨_, rfl, rfl, rfl, rfl, rfl, rfl⟩

/-- C12, on the code: after `opus_codec_create` at 48000 Hz and
`opus_codec_set_frame_size_ms` with 60 ms the frame size is 2880 and the ring
capacity is still the 3840 of creation, not `4 * 2880`. -/
theorem frame_size_change_keeps_ring_capacity :
    ∃ c : t_opus_codec ok_engine,
      run_operations ok_engine 48000 (fun _ => true)
        [Operation.set_frame_size_ms (CFloat.finite 60)] = some c ∧
      c.frame_size = 2880 ∧ c.ring_size = 3840 ∧ c.ring_size ≠ 4 * c.frame_size := by
  have hcreate := opus_codec_create_accepted (E := ok_engine) 48000 (fun _ => true) () ()
    rfl rfl (fun _ => rfl)
  have hrate : (init_buffers (apply_defaults (set_defaults
      (calloc_codec ok_engine (get_opus_sample_rate 48000) () ())))).sample_rate = 48000 := by
    decide
  have hring : (init_buffers (apply_defaults (set_defaults
      (calloc_codec ok_engine (get_opus_sample_rate 48000) () ())))).ring_size = 3840 := by
    decide
  generalize init_buffers (apply_defaults (set_defaults
    (calloc_codec ok_engine (get_opus_sample_rate 48000) () ()))) = c0 at hcreate hrate hring
  have hlit : CFloat.finite 60 =
      CFloat.finite ((((60, 1) : Int × Int).1 : ℚ) / ((((60, 1) : Int × Int).2 : Int) : ℚ)) := by
    norm_num
  have hset := set_frame_size_ms_accepted c0 (60, 1) (by simp [duration_fractions])
  rw [← hlit] at hset
  have hfs : ms_to_samples c0.sample_rate 60 1 = 2880 := by
    rw [hrate]
    decide
  refine ⟨{ c0 with
      frame_size := ms_to_samples c0.sample_rate 60 1
      buffer_pos := 0, output_pos := 0, output_available := 0 }, ?_, hfs, hring, ?_⟩
  · simp only [run_operations, hcreate, List.foldl_cons, List.foldl_nil, Operation.run, hset]
  · show c0.ring_size ≠ 4 * ms_to_samples c0.sample_rate 60 1
    rw [hring, hfs]
    decide

/-- C13, on the code: a successful `opus_codec_set_frame_size_ms` zeroes the
input cursor (and the fields `output_pos` and `output_available`) and leaves
the ring read and write cursors where they were. -/
theorem frame_size_change_keeps_ring_cursors (c : t_opus_codec E) (d : Int × Int)
    (hd : d ∈ duration_fractions) :
    ∃ c1 : t_opus_codec E,
      opus_codec_set_frame_size_ms (some c) (CFloat.finite ((d.1 : ℚ) / (d.2 : ℚ))) =
        (some c1, OPUS_CODEC_OK) ∧
      c1.buffer_pos = 0 ∧ c1.output_pos = 0 ∧ c1.output_available = 0 ∧
      c1.ring_read_pos = c.ring_read_pos ∧ c1.ring_write_pos = c.ring_write_pos :=
  ⟨_, set_frame_size_ms_accepted c d hd, rfl, rfl, rfl, rfl, rfl⟩

/-- C13, at a concrete instance: after four calls with frames of two samples
the ring cursors are 4 and 1, and they still are after a change to 10 ms. -/
theorem frame_size_change_keeps_ring_cursors_witness :
    ∃ c c1 : t_opus_codec ok_engine,
      process_samples (some ok_codec) [(1, 2), (3, 4), (5, 6), (7, 8)] = some c ∧
      opus_codec_set_frame_size_ms (some c)
        (CFloat.finite ((((10, 1) : Int × Int).1 : ℚ) / ((((10, 1) : Int × Int).2 : Int) : ℚ))) =
        (some c1, OPUS_CODEC_OK) ∧
      c1.buffer_pos = 0 ∧ c1.ring_write_pos = 4 ∧ c1.ring_read_pos = 1 := by
  have hrun : (process_samples (some ok_codec) [(1, 2), (3, 4), (5, 6), (7, 8)]).map
      (fun c => (c.ring_write_pos, c.ring_read_pos)) = some (4, 1) := by decide
  cases hc : process_samples (some ok_codec) [(1, 2), (3, 4), (5, 6), (7, 8)] with
  | none =>
    rw [hc] at hrun
    exact absurd hrun (by simp)
  | some c =>
    rw [hc] at hrun
    simp only [Option.map_some', Option.some.injEq, Prod.mk.injEq] at hrun
    obtain ⟨c1, h1, hb, -, -, hr, hw⟩ :=
      frame_size_change_keeps_ring_cursors c (10, 1) (by simp [duration_fractions])
    exact ⟨c, c1, rfl, h1, hb, by rw [hw, hrun.1], by rw [hr, hrun.2]⟩

/-- A buffer no longer than `n` floats is all zero after `memset`. -/
theorem memset_zero_all (buf : List Sample) (n : Int) (h : buf.length ≤ n.toNat) :
    memset_zero buf n = List.replicate buf.length 0 := by
  simp only [memset_zero, List.drop_eq_nil_of_le h, List.append_nil, Nat.min_eq_right h]

/-- C14. On a non-null instance whose input frame buffers have at most the
`OPUS_MAX_FRAME_SIZE` floats `opus_codec_create` allocates, `opus_codec_reset`
zeroes every element of both input frame buffers and the input cursor, leaves
the rate, the sizes and the seven parameters unchanged, sends exactly one
`OPUS_RESET_STATE` to the encoder and then one to the decoder, and returns
`OPUS_CODEC_OK` if and only if the engine accepts both. -/
theorem opus_codec_reset_effect (c : t_opus_codec E)
    (hleft : c.input_buffer_left.length ≤ OPUS_MAX_FRAME_SIZE.toNat)
    (hright : c.input_buffer_right.length ≤ OPUS_MAX_FRAME_SIZE.toNat) :
    ∃ c1 : t_opus_codec E,
      (opus_codec_reset (some c)).1 = some c1 ∧
      c1.input_buffer_left = List.replicate c.input_buffer_left.length 0 ∧
      c1.input_buffer_right = List.replicate c.input_buffer_right.length 0 ∧
      c1.buffer_pos = 0 ∧
      (c1.sample_rate = c.sample_rate ∧ c1.frame_size = c.frame_size ∧
        c1.ring_size = c.ring_size ∧ c1.bitrate = c.bitrate ∧ c1.complexity = c.complexity ∧
        c1.vbr_mode = c.vbr_mode ∧ c1.signal_type = c.signal_type ∧
        c1.packet_loss_perc = c.packet_loss_perc ∧ c1.use_dtx = c.use_dtx ∧
        c1.use_fec = c.use_fec) ∧
      c1.trace = c.trace ++
        [EngineCall.encoder_ctl CtlRequest.OPUS_RESET_STATE,
         EngineCall.decoder_ctl CtlRequest.OPUS_RESET_STATE] ∧
      ((opus_codec_reset (some c)).2 = OPUS_CODEC_OK ↔
        (E.opus_encoder_ctl c.encoder CtlRequest.OPUS_RESET_STATE).2 = E.OPUS_OK ∧
        (E.opus_decoder_ctl c.decoder CtlRequest.OPUS_RESET_STATE).2 = E.OPUS_OK) := by
  refine ⟨_, rfl, ?_, ?_, rfl, ⟨rfl, rfl, rfl, rfl, rfl, rfl, rfl, rfl, rfl, rfl⟩, ?_, ?_⟩
  · exact memset_zero_all _ _ hleft
  · exact memset_zero_all _ _ hright
  · simp [encoder_ctl, decoder_ctl]
  · simp only [opus_codec_reset, encoder_ctl, decoder_ctl]
    split_ifs with h
    · exact ⟨fun _ => h, fun _ => rfl⟩
    · exact ⟨fun hc => absurd hc (by decide), fun hc => absurd hc h⟩

/-- C14, at a concrete instance: a reset after one push, over the engine that
accepts every control. -/
theorem opus_codec_reset_effect_witness :
    ∃ c1 : t_opus_codec ok_engine,
      (opus_codec_reset (some (push_input ok_codec 5 7))).1 = some c1 ∧
      c1.input_buffer_left = [0, 0] ∧ c1.input_buffer_right = [0, 0] ∧ c1.buffer_pos = 0 ∧
      c1.trace = [EngineCall.encoder_ctl CtlRequest.OPUS_RESET_STATE,
        EngineCall.decoder_ctl CtlRequest.OPUS_RESET_STATE] ∧
      (opus_codec_reset (some (push_input ok_codec 5 7))).2 = OPUS_CODEC_OK := by
  obtain ⟨c1, h1, hl, hr, hb, -, ht, hok⟩ :=
    opus_codec_reset_effect (push_input ok_codec 5 7) (by decide) (by decide)
  exact ⟨c1, h1, hl, hr, hb, ht, hok.2 (by decide)⟩

/-- The decoder delay `(int)(sample_rate * 6.5 / 1000.0)` at the supported
rates. -/
theorem decoder_delay_values (rate : Int) (hr : rate ∈ supported_rates) :
    ms_to_samples rate 13 2 * 2000 = 13 * rate ∧
    (rate = 8000 → ms_to_samples rate 13 2 = 52) ∧
    (rate = 12000 → ms_to_samples rate 13 2 = 78) ∧
    (rate = 16000 → ms_to_samples rate 13 2 = 104) ∧
    (rate = 24000 → ms_to_samples rate 13 2 = 156) ∧
    (rate = 48000 → ms_to_samples rate 13 2 = 312) := by
  simp only [supported_rates, List.mem_cons, List.mem_singleton, List.not_mem_nil,
    or_false] at hr
  rcases hr with hr | hr | hr | hr | hr <;> subst hr <;> decide

/-- C15. On an instance with a supported rate `R`, frame size `F` and lookahead
`L` (what the engine stores for `OPUS_GET_LOOKAHEAD`), `opus_codec_get_latency`
returns `L + F + 6.5 * R / 1000`, the last term being the exact integer
`13 * R / 2000`: 52, 78, 104, 156 and 312 at the five rates. On no instance it
returns `-1`. -/
theorem opus_codec_get_latency_value (c : t_opus_codec E)
    (hR : c.sample_rate ∈ supported_rates) :
    (((opus_codec_get_latency (some c)).2 : Int) : ℚ) =
      (E.lookahead c.encoder : ℚ) + (c.frame_size : ℚ) + (13 / 2 : ℚ) * (c.sample_rate : ℚ) / 1000 ∧
    (opus_codec_get_latency (some c)).2 =
      E.lookahead c.encoder + c.frame_size + 13 * c.sample_rate / 2000 ∧
    (13 * c.sample_rate) % 2000 = 0 ∧
    (c.sample_rate = 8000 → 13 * c.sample_rate / 2000 = 52) ∧
    (c.sample_rate = 12000 → 13 * c.sample_rate / 2000 = 78) ∧
    (c.sample_rate = 16000 → 13 * c.sample_rate / 2000 = 104) ∧
    (c.sample_rate = 24000 → 13 * c.sample_rate / 2000 = 156) ∧
    (c.sample_rate = 48000 → 13 * c.sample_rate / 2000 = 312) ∧
    (opus_codec_get_latency (none : Option (t_opus_codec E))).2 = -1 := by
  obtain ⟨hexact, -⟩ := decoder_delay_values c.sample_rate hR
  have hret : (opus_codec_get_latency (some c)).2 =
      E.lookahead c.encoder + c.frame_size + ms_to_samples c.sample_rate 13 2 := rfl
  have hdiv : ms_to_samples c.sample_rate 13 2 = 13 * c.sample_rate / 2000 := by omega
  refine ⟨?_, by rw [hret, hdiv], by omega, by omega, by omega, by omega, by omega, by omega, rfl⟩
  rw [hret]
  have hq : ((ms_to_samples c.sample_rate 13 2 : Int) : ℚ) * 2000 = 13 * (c.sample_rate : ℚ) := by
    exact_mod_cast hexact
  push_cast
  linarith

/-- C15, at a concrete instance: 8000 Hz, frames of two samples, lookahead 0. -/
theorem opus_codec_get_latency_value_witness :
    ok_codec.sample_rate ∈ supported_rates ∧
    (opus_codec_get_latency (some ok_codec)).2 = 0 + 2 + 52 := by
  obtain ⟨-, h, -, h52, -⟩ := opus_codec_get_latency_value ok_codec (by decide)
  refine ⟨by decide, ?_⟩
  rw [h, h52 (by decide)]
  decide
/-! ## Ring cursors and the available count -/

/-- The input half of a call keeps an instance well-formed. -/
theorem WellFormed.frame_step {c : t_opus_codec E} (h : WellFormed c)
    (in_left in_right : Sample) : WellFormed (OpusCodec.frame_step c in_left in_right) := by
  have hsz := h.sizes
  have hcur := h.cursor_in_frame
  have hpush : ∀ p : Int, 0 ≤ p ∧ p < c.frame_size →
      WellFormed { push_input c in_left in_right with buffer_pos := p } := by
    intro p hp
    exact { h with
      cursor_in_frame := hp
      input_left_length := by simp [push_input, h.input_left_length]
      input_right_length := by simp [push_input, h.input_right_length] }
  unfold OpusCodec.frame_step
  simp only []
  split_ifs with hfull
  · exact WellFormed.round_trip (hpush 0 ⟨le_refl 0, by omega⟩)
  · have := hpush (c.buffer_pos + 1) ⟨by omega, by simpa [push_input] using hfull⟩
    exact this

/-- With both cursors inside the ring, the local `available` is the distance
from the read to the write cursor modulo the capacity, and is less than the
capacity. -/
theorem available_eq_emod (c : t_opus_codec E)
    (hw : 0 ≤ c.ring_write_pos ∧ c.ring_write_pos < c.ring_size)
    (hr : 0 ≤ c.ring_read_pos ∧ c.ring_read_pos < c.ring_size) :
    available c = (c.ring_write_pos - c.ring_read_pos) % c.ring_size ∧
    0 ≤ available c ∧ available c < c.ring_size := by
  unfold available
  split_ifs with hge
  · refine ⟨?_, by omega, by omega⟩
    rw [Int.emod_eq_of_lt (by omega) (by omega)]
  · refine ⟨?_, by omega, by omega⟩
    rw [← Int.add_emod_self, Int.emod_eq_of_lt (by omega) (by omega)]
    omega

/-- C18. In every state reached from `opus_codec_create` by a sequence of
operations the ring read and write cursors lie in `[0, ring_size)`; and the
available count, both of that state and as the next call of
`opus_codec_process_sample` computes it (after its input half), is
`(write - read) mod ring_size` and less than `ring_size`. -/
theorem reachable_ring_cursors (host_sample_rate : Int) (calloc_ok : Nat → Bool)
    (ops : List Operation) (c : t_opus_codec E)
    (h : run_operations E host_sample_rate calloc_ok ops = some c) :
    (0 ≤ c.ring_read_pos ∧ c.ring_read_pos < c.ring_size) ∧
    (0 ≤ c.ring_write_pos ∧ c.ring_write_pos < c.ring_size) ∧
    available c = (c.ring_write_pos - c.ring_read_pos) % c.ring_size ∧
    available c < c.ring_size ∧
    ∀ in_left in_right : Sample,
      available (frame_step c in_left in_right) =
        ((frame_step c in_left in_right).ring_write_pos -
          (frame_step c in_left in_right).ring_read_pos) %
          (frame_step c in_left in_right).ring_size ∧
      available (frame_step c in_left in_right) < (frame_step c in_left in_right).ring_size := by
  have hwf := run_operations_well_formed host_sample_rate calloc_ok ops c h
  obtain ⟨h1, -, h2⟩ := available_eq_emod c hwf.write_in_ring hwf.read_in_ring
  refine ⟨hwf.read_in_ring, hwf.write_in_ring, h1, h2, ?_⟩
  intro in_left in_right
  have hwf1 := hwf.frame_step in_left in_right
  obtain ⟨h3, -, h4⟩ := available_eq_emod _ hwf1.write_in_ring hwf1.read_in_ring
  exact ⟨h3, h4⟩

/-- C18, at a concrete run: creation at 8000 Hz followed by a change of frame
size and one call. -/
theorem reachable_ring_cursors_witness :
    ∃ c : t_opus_codec ok_engine,
      run_operations ok_engine 8000 (fun _ => true)
        [Operation.set_frame_size_ms (CFloat.finite 60), Operation.process_sample 1 2] =
        some c ∧
      (0 ≤ c.ring_read_pos ∧ c.ring_read_pos < c.ring_size) ∧
      (0 ≤ c.ring_write_pos ∧ c.ring_write_pos < c.ring_size) ∧
      available c = (c.ring_write_pos - c.ring_read_pos) % c.ring_size ∧
      available c < c.ring_size := by
  have hcreate := opus_codec_create_accepted (E := ok_engine) 8000 (fun _ => true) () ()
    rfl rfl (fun _ => rfl)
  have hwf0 := opus_codec_create_well_formed 8000 (fun _ => true) _ hcreate
  obtain ⟨c, hc, -⟩ := WellFormed.run_all
    [Operation.set_frame_size_ms (CFloat.finite 60), Operation.process_sample 1 2] _ hwf0
  have hrun : run_operations ok_engine 8000 (fun _ => true)
      [Operation.set_frame_size_ms (CFloat.finite 60), Operation.process_sample 1 2] =
      some c := by
    rw [run_operations, hcreate]
    exact hc
  obtain ⟨h1, h2, h3, h4, -⟩ := reachable_ring_cursors 8000 (fun _ => true) _ c hrun
  exact ⟨c, hrun, h1, h2, h3, h4⟩

/-! ## The perform routine -/

/-- The bypass loop over `n` frames, on vectors with room for them: the
lengths are kept and slot `i < n` of each output holds slot `i` of the input. -/
theorem perform_bypass_loop_spec (in_left in_right : List HostSample) (n : Nat) :
    ∀ outs : List HostSample × List HostSample, n ≤ outs.1.length → n ≤ outs.2.length →
      (((List.range n).foldl (perform_bypass_body in_left in_right) outs).1.length =
          outs.1.length ∧
        ((List.range n).foldl (perform_bypass_body in_left in_right) outs).2.length =
          outs.2.length) ∧
      ∀ i, i < n →
        ((List.range n).foldl (perform_bypass_body in_left in_right) outs).1[i]? =
          some (in_left.getD i 0) ∧
        ((List.range n).foldl (perform_bypass_body in_left in_right) outs).2[i]? =
          some (in_right.getD i 0) := by
  induction n with
  | zero =>
    intro outs _ _
    exact ⟨⟨rfl, rfl⟩, fun i hi => absurd hi (Nat.not_lt_zero i)⟩
  | succ n ih =>
    intro outs h1 h2
    obtain ⟨⟨hl1, hl2⟩, hslots⟩ := ih outs (by omega) (by omega)
    rw [List.range_succ, List.foldl_append]
    simp only [List.foldl_cons, List.foldl_nil, perform_bypass_body]
    refine ⟨⟨by simp [hl1], by simp [hl2]⟩, ?_⟩
    intro i hi
    by_cases hin : i = n
    · subst hin
      constructor
      · rw [List.getElem?_set, if_pos rfl, if_pos (by omega)]
      · rw [List.getElem?_set, if_pos rfl, if_pos (by omega)]
    · obtain ⟨h0, h1'⟩ := hslots i (by omega)
      constructor
      · rw [List.getElem?_set, if_neg (by omega), h0]
      · rw [List.getElem?_set, if_neg (by omega), h1']

/-- C17. When the bypass flag is set or there is no codec instance,
`opuscodec_perform64` on a block of `n` frames (the four vectors holding at
least `n` samples) writes `out_left[i] = in_left[i]` and
`out_right[i] = in_right[i]` for every `i < n` and returns the host object as it
was: the codec instance, with its cursors, its ring and its trace of engine
calls, is untouched. -/
theorem perform64_bypass (K : Conversions) (x : t_opuscodec E)
    (in_left in_right out_left out_right : List HostSample) (n : Nat)
    (hbypass : x.bypass ≠ 0 ∨ x.codec = none)
    (hil : n ≤ in_left.length) (hir : n ≤ in_right.length)
    (hol : n ≤ out_left.length) (hor : n ≤ out_right.length) :
    (opuscodec_perform64 K x in_left in_right out_left out_right n).1 = x ∧
    ∀ i, i < n →
      (opuscodec_perform64 K x in_left in_right out_left out_right n).2.1[i]? = in_left[i]? ∧
      (opuscodec_perform64 K x in_left in_right out_left out_right n).2.2[i]? = in_right[i]? := by
  have hcond : x.bypass ≠ 0 ∨ x.codec.isNone = true := by
    rcases hbypass with h | h
    · exact Or.inl h
    · exact Or.inr (by rw [h]; rfl)
  obtain ⟨-, hslots⟩ := perform_bypass_loop_spec in_left in_right n (out_left, out_right) hol hor
  simp only [opuscodec_perform64, if_pos hcond, Int.toNat_ofNat]
  refine ⟨trivial, fun i hi => ?_⟩
  obtain ⟨h0, h1⟩ := hslots i hi
  rw [h0, h1, List.getD_eq_getElem?_getD, List.getD_eq_getElem?_getD,
    List.getElem?_eq_getElem (by omega : i < in_left.length),
    List.getElem?_eq_getElem (by omega : i < in_right.length)]
  exact ⟨rfl, rfl⟩

/-- C17, at a concrete block: three frames through a bypassed host object that
has a codec instance. -/
theorem perform64_bypass_witness :
    (opuscodec_perform64 plain_conversions
      ({ codec := some ok_codec, bypass := 1 } : t_opuscodec ok_engine)
      [1, 2, 3] [4, 5, 6] [0, 0, 0] [0, 0, 0] (3 : Nat)).1 =
      ({ codec := some ok_codec, bypass := 1 } : t_opuscodec ok_engine) ∧
    ∀ i, i < 3 →
      (opuscodec_perform64 plain_conversions
        ({ codec := some ok_codec, bypass := 1 } : t_opuscodec ok_engine)
        [1, 2, 3] [4, 5, 6] [0, 0, 0] [0, 0, 0] (3 : Nat)).2.1[i]? =
        ([1, 2, 3] : List HostSample)[i]? ∧
      (opuscodec_perform64 plain_conversions
        ({ codec := some ok_codec, bypass := 1 } : t_opuscodec ok_engine)
        [1, 2, 3] [4, 5, 6] [0, 0, 0] [0, 0, 0] (3 : Nat)).2.2[i]? =
        ([4, 5, 6] : List HostSample)[i]? :=
  perform64_bypass plain_conversions
    ({ codec := some ok_codec, bypass := 1 } : t_opuscodec ok_engine)
    [1, 2, 3] [4, 5, 6] [0, 0, 0] [0, 0, 0] 3 (Or.inl (by decide)) (by decide) (by decide)
    (by decide) (by decide)
/-! ## The ring over a run of calls -/

/-- The ring write loop, `k` iterations from a write cursor `w` inside a ring
of capacity at least `k`, whatever the lengths of the arrays: the cursor ends
at `w + k` wrapped once, and a slot that is none of the `k` slots `w + i`
(wrapped) is untouched. -/
theorem ring_write_loop_untouched (c : t_opus_codec E)
    (hw : 0 ≤ c.ring_write_pos ∧ c.ring_write_pos < c.ring_size) (k : Nat) :
    (k : Int) ≤ c.ring_size →
      ((List.range k).foldl ring_write_body c).ring_write_pos =
        (if c.ring_write_pos + k < c.ring_size then c.ring_write_pos + k
         else c.ring_write_pos + k - c.ring_size) ∧
      ∀ idx : Nat,
        (∀ i : Nat, i < k →
          idx ≠ (if c.ring_write_pos + i < c.ring_size then c.ring_write_pos + i
                 else c.ring_write_pos + i - c.ring_size).toNat) →
        ((List.range k).foldl ring_write_body c).output_ring_left[idx]? =
          c.output_ring_left[idx]? ∧
        ((List.range k).foldl ring_write_body c).output_ring_right[idx]? =
          c.output_ring_right[idx]? := by
  induction k with
  | zero =>
    intro _
    refine ⟨?_, fun idx _ => ⟨rfl, rfl⟩⟩
    simp only [List.range_zero, List.foldl_nil, Nat.cast_zero, add_zero]
    rw [if_pos hw.2]
  | succ k ih =>
    intro hk
    obtain ⟨hpos, hslots⟩ := ih (by push_cast at hk; omega)
    obtain ⟨l, r, w, hfr⟩ := ring_write_frame c (k : Int)
    simp only [ring_write, Int.toNat_ofNat] at hfr
    have hrs : ((List.range k).foldl ring_write_body c).ring_size = c.ring_size := by rw [hfr]
    rw [List.range_succ, List.foldl_append]
    simp only [List.foldl_cons, List.foldl_nil]
    generalize (List.range k).foldl ring_write_body c = ck at hpos hslots hrs
    push_cast at hk
    have hbody_l : (ring_write_body ck k).output_ring_left =
        ck.output_ring_left.set ck.ring_write_pos.toNat (ck.interleaved_output.getD (k * 2) 0) := by
      simp only [ring_write_body]
      split_ifs <;> rfl
    have hbody_r : (ring_write_body ck k).output_ring_right =
        ck.output_ring_right.set ck.ring_write_pos.toNat
          (ck.interleaved_output.getD (k * 2 + 1) 0) := by
      simp only [ring_write_body]
      split_ifs <;> rfl
    have hbody_w : (ring_write_body ck k).ring_write_pos =
        (if ck.ring_write_pos + 1 ≥ c.ring_size then 0 else ck.ring_write_pos + 1) := by
      simp only [ring_write_body, hrs]
      split_ifs <;> rfl
    refine ⟨?_, ?_⟩
    · rw [hbody_w, hpos]
      push_cast
      split_ifs <;> omega
    · intro idx hidx
      obtain ⟨h0, h1⟩ := hslots idx (fun i hi => hidx i (by omega))
      have hne : ck.ring_write_pos.toNat ≠ idx := by
        rw [hpos]
        exact fun h => hidx k (by omega) h.symm
      rw [hbody_l, hbody_r]
      constructor
      · rw [List.getElem?_set, if_neg hne, h0]
      · rw [List.getElem?_set, if_neg hne, h1]

/-- The available count after the write cursor has moved `n` slots forward
(wrapped once), the ring having room for the `n` slots. -/
theorem available_after_write (c c1 : t_opus_codec E) (n : Int)
    (hr : 0 ≤ c.ring_read_pos ∧ c.ring_read_pos < c.ring_size)
    (hn : 0 ≤ n) (hroom : available c + n < c.ring_size)
    (h1 : c1.ring_size = c.ring_size) (h2 : c1.ring_read_pos = c.ring_read_pos)
    (h3 : c1.ring_write_pos =
      (if c.ring_write_pos + n < c.ring_size then c.ring_write_pos + n
       else c.ring_write_pos + n - c.ring_size)) :
    available c1 = available c + n := by
  unfold available at hroom ⊢
  rw [h1, h2, h3]
  split_ifs at hroom ⊢ <;> omega

/-- The available count does not depend on anything but the ring cursors and
the capacity. -/
theorem available_congr (c c1 : t_opus_codec E) (h1 : c1.ring_size = c.ring_size)
    (h2 : c1.ring_read_pos = c.ring_read_pos) (h3 : c1.ring_write_pos = c.ring_write_pos) :
    available c1 = available c := by
  unfold available
  rw [h1, h2, h3]

/-- The input half of a call on an instance with headroom, over an engine that
decodes at most `F` samples a frame: the available count is at most `2 * F`
afterwards, no slot that was available before has been written, and the count
has grown by the burst only if the call completed a frame. -/
theorem Headroom.headroom_frame_step {F : Int} {s : t_opus_codec E} (h : Headroom F s)
    (hdec : ∀ (dec : E.Dec) (data : List Nat) (len : Int) (pcm : List Sample),
      (E.opus_decode_float dec data len pcm F 0).2.2 ≤ F)
    (in_left in_right : Sample) :
    (OpusCodec.frame_step s in_left in_right).frame_size = F ∧
    (OpusCodec.frame_step s in_left in_right).ring_size = 4 * F ∧
    (OpusCodec.frame_step s in_left in_right).ring_read_pos = s.ring_read_pos ∧
    (0 ≤ (OpusCodec.frame_step s in_left in_right).ring_write_pos ∧
      (OpusCodec.frame_step s in_left in_right).ring_write_pos < 4 * F) ∧
    (0 ≤ (OpusCodec.frame_step s in_left in_right).buffer_pos ∧
      (OpusCodec.frame_step s in_left in_right).buffer_pos < F) ∧
    available (OpusCodec.frame_step s in_left in_right) ≤
      2 * F - (OpusCodec.frame_step s in_left in_right).buffer_pos ∧
    available s ≤ available (OpusCodec.frame_step s in_left in_right) ∧
    ∀ j : Nat, (j : Int) < available s →
      (OpusCodec.frame_step s in_left in_right).output_ring_left[
          ((s.ring_read_pos + j) % s.ring_size).toNat]? =
        s.output_ring_left[((s.ring_read_pos + j) % s.ring_size).toNat]? ∧
      (OpusCodec.frame_step s in_left in_right).output_ring_right[
          ((s.ring_read_pos + j) % s.ring_size).toNat]? =
        s.output_ring_right[((s.ring_read_pos + j) % s.ring_size).toNat]? := by
  have hfs := h.frame
  have hcap := h.capacity
  have hw := h.write_in_ring
  have hr := h.read_in_ring
  have hbp := h.cursor_in_frame
  have hb := h.bound
  have hav0 : 0 ≤ available s := (available_eq_emod s hw hr).2.1
  by_cases hfull : s.buffer_pos + 1 ≥ s.frame_size
  swap
  · have hstep : OpusCodec.frame_step s in_left in_right = push_input s in_left in_right := by
      unfold OpusCodec.frame_step
      simp only []
      rw [if_neg]
      simpa [push_input] using hfull
    rw [hstep]
    have hav : available (push_input s in_left in_right) = available s :=
      available_congr _ _ rfl rfl rfl
    rw [hav]
    refine ⟨hfs, hcap, rfl, by rw [← hcap]; exact hw, ?_, ?_, le_refl _, fun j _ => ⟨rfl, rfl⟩⟩
    · show 0 ≤ s.buffer_pos + 1 ∧ s.buffer_pos + 1 < F
      omega
    · show available s ≤ 2 * F - (s.buffer_pos + 1)
      omega
  · rw [frame_step_full s in_left in_right hfull]
    generalize he : encode_frame (frame_ready s in_left in_right) = e
    have he_fs : e.1.frame_size = s.frame_size := by rw [← he]; rfl
    have he_rs : e.1.ring_size = s.ring_size := by rw [← he]; rfl
    have he_r : e.1.ring_read_pos = s.ring_read_pos := by rw [← he]; rfl
    have he_w : e.1.ring_write_pos = s.ring_write_pos := by rw [← he]; rfl
    have he_b : e.1.buffer_pos = 0 := by rw [← he]; rfl
    have he_l : e.1.output_ring_left = s.output_ring_left := by rw [← he]; rfl
    have he_rt : e.1.output_ring_right = s.output_ring_right := by rw [← he]; rfl
    generalize hd : decode_packet e.1 e.2 = d
    have hd_fs : d.1.frame_size = s.frame_size := by rw [← hd]; exact he_fs
    have hd_rs : d.1.ring_size = s.ring_size := by rw [← hd]; exact he_rs
    have hd_r : d.1.ring_read_pos = s.ring_read_pos := by rw [← hd]; exact he_r
    have hd_w : d.1.ring_write_pos = s.ring_write_pos := by rw [← hd]; exact he_w
    have hd_b : d.1.buffer_pos = 0 := by rw [← hd]; exact he_b
    have hd_l : d.1.output_ring_left = s.output_ring_left := by rw [← hd]; exact he_l
    have hd_rt : d.1.output_ring_right = s.output_ring_right := by rw [← hd]; exact he_rt
    have hd_n : d.2 ≤ F := by
      rw [← hd]
      simp only [decode_packet, he_fs, hfs]
      exact hdec _ _ _ _
    split_ifs with henc hpos
    · obtain ⟨n, hn⟩ : ∃ n : Nat, d.2 = (n : Int) := ⟨d.2.toNat, by omega⟩
      obtain ⟨l, r, w, hfr⟩ := ring_write_frame d.1 d.2
      have hrw : ring_write d.1 d.2 = (List.range n).foldl ring_write_body d.1 := by
        simp only [ring_write, hn, Int.toNat_ofNat]
      obtain ⟨hpos', hun⟩ := ring_write_loop_untouched d.1 (by rw [hd_w, hd_rs]; exact hw) n
        (by rw [hd_rs]; omega)
      rw [← hrw, hd_w, hd_rs] at hpos'
      rw [← hrw, hd_w, hd_rs, hd_l, hd_rt] at hun
      have h_fs : (ring_write d.1 d.2).frame_size = s.frame_size := by rw [hfr]; exact hd_fs
      have h_rs : (ring_write d.1 d.2).ring_size = s.ring_size := by rw [hfr]; exact hd_rs
      have h_r : (ring_write d.1 d.2).ring_read_pos = s.ring_read_pos := by rw [hfr]; exact hd_r
      have h_b : (ring_write d.1 d.2).buffer_pos = 0 := by rw [hfr]; exact hd_b
      have hav : available (ring_write d.1 d.2) = available s + n :=
        available_after_write s _ n hr (by omega) (by omega) h_rs h_r hpos'
      refine ⟨by rw [h_fs, hfs], by rw [h_rs, hcap], h_r, ?_, by rw [h_b]; omega, ?_, ?_, ?_⟩
      · rw [hpos']
        split_ifs <;> omega
      · rw [hav, h_b]
        omega
      · rw [hav]
        omega
      · intro j hj
        have hjm : (s.ring_read_pos + j) % s.ring_size =
            (if s.ring_read_pos + j < s.ring_size then s.ring_read_pos + j
             else s.ring_read_pos + j - s.ring_size) :=
          emod_eq_wrap_once _ _ (by omega) (by omega)
        rw [hjm]
        apply hun
        intro i hi
        unfold available at hj hb
        split_ifs at hj hb ⊢ <;> omega
    · refine ⟨by rw [hd_fs, hfs], by rw [hd_rs, hcap], hd_r, by rw [hd_w, ← hcap]; exact hw,
        by rw [hd_b]; omega, ?_, ?_, fun j _ => ⟨by rw [hd_l], by rw [hd_rt]⟩⟩
      · rw [available_congr s d.1 hd_rs hd_r hd_w, hd_b]
        omega
      · rw [available_congr s d.1 hd_rs hd_r hd_w]
    · refine ⟨by rw [he_fs, hfs], by rw [he_rs, hcap], he_r, by rw [he_w, ← hcap]; exact hw,
        by rw [he_b]; omega, ?_, ?_, fun j _ => ⟨by rw [he_l], by rw [he_rt]⟩⟩
      · rw [available_congr s e.1 he_rs he_r he_w, he_b]
        omega
      · rw [available_congr s e.1 he_rs he_r he_w]

/-- The output half of a call that finds no more than a frame available: it
emits silence and changes nothing. -/
theorem output_step_silence (s : t_opus_codec E) (h : ¬ available s > s.frame_size) :
    output_step s = (s, 0, 0) := by
  simp only [output_step, if_neg h]

/-- The output half of a call that finds more than a frame available: it emits
the pair at the read cursor and moves the cursor one slot forward, wrapping at
the capacity. -/
theorem output_step_emit (s : t_opus_codec E) (h : available s > s.frame_size) :
    output_step s =
      ({ s with
          ring_read_pos :=
            if s.ring_read_pos + 1 ≥ s.ring_size then 0 else s.ring_read_pos + 1 },
       s.output_ring_left.getD s.ring_read_pos.toNat 0,
       s.output_ring_right.getD s.ring_read_pos.toNat 0) := by
  simp only [output_step, if_pos h]
  split_ifs <;> rfl

/-- The available count after the read cursor has moved one slot forward. -/
theorem available_after_read (s : t_opus_codec E)
    (hw : 0 ≤ s.ring_write_pos ∧ s.ring_write_pos < s.ring_size)
    (hr : 0 ≤ s.ring_read_pos ∧ s.ring_read_pos < s.ring_size) (hpos : 0 < available s) :
    available ({ s with
      ring_read_pos :=
        if s.ring_read_pos + 1 ≥ s.ring_size then 0 else s.ring_read_pos + 1 } :
        t_opus_codec E) = available s - 1 := by
  unfold available at hpos ⊢
  simp only []
  split_ifs at hpos ⊢ <;> omega

/-- One call keeps the headroom. -/
theorem Headroom.headroom_process_sample {F : Int} {s : t_opus_codec E} (h : Headroom F s)
    (hdec : ∀ (dec : E.Dec) (data : List Nat) (len : Int) (pcm : List Sample),
      (E.opus_decode_float dec data len pcm F 0).2.2 ≤ F)
    (in_left in_right : Sample) :
    Headroom F (output_step (OpusCodec.frame_step s in_left in_right)).1 := by
  obtain ⟨h1, h2, h3, h4, h5, h6, -, -⟩ := h.headroom_frame_step hdec in_left in_right
  have hr := h.read_in_ring
  have hcap := h.capacity
  generalize OpusCodec.frame_step s in_left in_right = s1 at h1 h2 h3 h4 h5 h6
  have hw1 : 0 ≤ s1.ring_write_pos ∧ s1.ring_write_pos < s1.ring_size := by rw [h2]; exact h4
  have hr1 : 0 ≤ s1.ring_read_pos ∧ s1.ring_read_pos < s1.ring_size := by
    rw [h2, h3, ← hcap]
    exact hr
  by_cases ha : available s1 > s1.frame_size
  · rw [output_step_emit s1 ha]
    have hav := available_after_read s1 hw1 hr1 (by omega)
    exact {
      frame := h1
      capacity := h2
      write_in_ring := hw1
      read_in_ring := by
        show 0 ≤ (if s1.ring_read_pos + 1 ≥ s1.ring_size then 0 else s1.ring_read_pos + 1) ∧
          (if s1.ring_read_pos + 1 ≥ s1.ring_size then 0 else s1.ring_read_pos + 1) <
            s1.ring_size
        split_ifs <;> omega
      cursor_in_frame := h5
      bound := by
        rw [hav]
        show available s1 - 1 ≤ 2 * F - 1 - s1.buffer_pos
        omega }
  · rw [output_step_silence s1 ha]
    exact {
      frame := h1
      capacity := h2
      write_in_ring := hw1
      read_in_ring := hr1
      cursor_in_frame := h5
      bound := by
        show available s1 ≤ 2 * F - 1 - s1.buffer_pos
        omega }

/-- A run of calls keeps the headroom. -/
theorem Headroom.process_samples {F : Int}
    (hdec : ∀ (dec : E.Dec) (data : List Nat) (len : Int) (pcm : List Sample),
      (E.opus_decode_float dec data len pcm F 0).2.2 ≤ F)
    (inputs : List (Sample × Sample)) :
    ∀ s : t_opus_codec E, Headroom F s →
      ∃ s1 : t_opus_codec E,
        OpusCodec.process_samples (some s) inputs = some s1 ∧ Headroom F s1 := by
  induction inputs with
  | nil => exact fun s h => ⟨s, rfl, h⟩
  | cons x rest ih =>
    intro s h
    obtain ⟨s2, h2, hh⟩ := ih _ (h.headroom_process_sample hdec x.1 x.2)
    exact ⟨s2, by simpa [OpusCodec.process_samples, opus_codec_process_sample] using h2, hh⟩

/-- C20. On an instance with frames of `F ≥ 1` samples, a ring of `4 * F`
slots and all cursors at 0, over an engine whose decoder returns at most `F`
samples a frame: after any number of calls of `opus_codec_process_sample` the
available count is at most `2 * F`, and it still is in the next call once its
burst has been written; and that burst writes over none of the slots that
were available (written and not yet read) before it. -/
theorem ring_never_overrun (c : t_opus_codec E) (F : Int) (hF : 1 ≤ F)
    (hfs : c.frame_size = F) (hrs : c.ring_size = 4 * F)
    (hcur : c.buffer_pos = 0 ∧ c.ring_read_pos = 0 ∧ c.ring_write_pos = 0)
    (hdec : ∀ (dec : E.Dec) (data : List Nat) (len : Int) (pcm : List Sample),
      (E.opus_decode_float dec data len pcm F 0).2.2 ≤ F)
    (inputs : List (Sample × Sample)) :
    ∃ s : t_opus_codec E, process_samples (some c) inputs = some s ∧
      available s ≤ 2 * F ∧
      ∀ in_left in_right : Sample,
        available (frame_step s in_left in_right) ≤ 2 * F ∧
        ∀ j : Nat, (j : Int) < available s →
          (frame_step s in_left in_right).output_ring_left[
              ((s.ring_read_pos + j) % s.ring_size).toNat]? =
            s.output_ring_left[((s.ring_read_pos + j) % s.ring_size).toNat]? ∧
          (frame_step s in_left in_right).output_ring_right[
              ((s.ring_read_pos + j) % s.ring_size).toNat]? =
            s.output_ring_right[((s.ring_read_pos + j) % s.ring_size).toNat]? := by
  have h0 : Headroom F c := {
    frame := hfs
    capacity := hrs
    write_in_ring := by rw [hcur.2.2, hrs]; omega
    read_in_ring := by rw [hcur.2.1, hrs]; omega
    cursor_in_frame := by rw [hcur.1]; omega
    bound := by
      unfold available
      rw [hcur.1, hcur.2.1, hcur.2.2]
      simp only [ge_iff_le, le_refl, if_true]
      omega }
  obtain ⟨s, hs, hh⟩ := Headroom.process_samples hdec inputs c h0
  have hbp := hh.cursor_in_frame
  have hb := hh.bound
  refine ⟨s, hs, by omega, fun in_left in_right => ?_⟩
  obtain ⟨-, -, -, -, h5, h6, -, h8⟩ := hh.headroom_frame_step hdec in_left in_right
  exact ⟨by omega, h8⟩

/-- C20, at a concrete instance: five calls over the engine that decodes two
samples a frame, with frames of two samples and a ring of eight. -/
theorem ring_never_overrun_witness :
    ∃ s : t_opus_codec ok_engine,
      process_samples (some ok_codec) [(1, 2), (3, 4), (5, 6), (7, 8), (9, 10)] = some s ∧
      available s ≤ 2 * 2 := by
  obtain ⟨s, hs, hav, -⟩ := ring_never_overrun ok_codec 2 (by decide) (by decide) (by decide)
    (by decide) (fun _ _ _ _ => (by decide : (2 : Int) ≤ 2)) [(1, 2), (3, 4), (5, 6), (7, 8), (9, 10)]
  exact ⟨s, hs, hav⟩

/-! ## The steady state of the pipeline -/

/-- A run over a concatenation is the run over the second part, from the
state the first part leaves. -/
theorem process_samples_append (codec : Option (t_opus_codec E))
    (xs ys : List (Sample × Sample)) :
    process_samples codec (xs ++ ys) = process_samples (process_samples codec xs) ys := by
  simp only [process_samples, List.foldl_append]

/-- The views of a run over a concatenation. -/
theorem process_views_append (xs ys : List (Sample × Sample)) :
    ∀ codec : Option (t_opus_codec E),
      process_views codec (xs ++ ys) =
        process_views codec xs ++ process_views (process_samples codec xs) ys := by
  induction xs with
  | nil => exact fun _ => rfl
  | cons x rest ih =>
    intro codec
    show call_view codec x :: process_views _ (rest ++ ys) =
      (call_view codec x :: process_views _ rest) ++
        process_views (process_samples codec (x :: rest)) ys
    rw [ih]
    rfl

/-- The decoded stream of a run over a concatenation. -/
theorem decoded_stream_append (xs ys : List (Sample × Sample)) :
    ∀ codec : Option (t_opus_codec E),
      decoded_stream codec (xs ++ ys) =
        decoded_stream codec xs ++ decoded_stream (process_samples codec xs) ys := by
  induction xs with
  | nil => exact fun _ => rfl
  | cons x rest ih =>
    intro codec
    show _ ++ decoded_stream _ (rest ++ ys) =
      (_ ++ decoded_stream _ rest) ++ decoded_stream (process_samples codec (x :: rest)) ys
    rw [ih, List.append_assoc]
    rfl

/-- A run has one view per input pair. -/
theorem process_views_length (xs : List (Sample × Sample)) :
    ∀ codec : Option (t_opus_codec E), (process_views codec xs).length = xs.length := by
  induction xs with
  | nil => exact fun _ => rfl
  | cons x rest ih =>
    intro codec
    simp only [process_views, List.length_cons, ih]

/-- The view of call `i` of a run is the view of one call on the state the
first `i` calls leave. -/
theorem process_views_getElem (codec : Option (t_opus_codec E)) (xs : List (Sample × Sample))
    (i : Nat) (hi : i < xs.length) :
    (process_views codec xs)[i]? =
      some (call_view (process_samples codec (xs.take i)) (xs.get ⟨i, hi⟩)) := by
  have hsplit : xs = xs.take i ++ (xs.get ⟨i, hi⟩ :: xs.drop (i + 1)) := by
    rw [List.get_eq_getElem, List.getElem_cons_drop, List.take_append_drop]
  have hlen : (process_views codec (xs.take i)).length = i := by
    rw [process_views_length, List.length_take]
    omega
  conv_lhs => rw [hsplit]
  rw [process_views_append, List.getElem?_append_right (by omega), hlen, Nat.sub_self]
  simp only [process_views, List.getElem?_cons_zero]

/-- The decoded stream of the first calls of a run is a prefix of the decoded
stream of the run. -/
theorem decoded_stream_take (codec : Option (t_opus_codec E)) (xs : List (Sample × Sample))
    (i j : Nat) (hj : j < (decoded_stream codec (xs.take i)).length) :
    (decoded_stream codec xs)[j]? = (decoded_stream codec (xs.take i))[j]? := by
  conv_lhs => rw [← List.take_append_drop i xs]
  rw [decoded_stream_append, List.getElem?_append_left hj]

/-- The slot `i` places past the write cursor is the slot `available + i`
places past the read cursor. -/
theorem slot_past_write (s : t_opus_codec E)
    (hw : 0 ≤ s.ring_write_pos ∧ s.ring_write_pos < s.ring_size)
    (hr : 0 ≤ s.ring_read_pos ∧ s.ring_read_pos < s.ring_size) (i j : Nat)
    (hj : (j : Int) = available s + i) (hroom : available s + i < s.ring_size) :
    (if s.ring_read_pos + j < s.ring_size then s.ring_read_pos + j
      else s.ring_read_pos + j - s.ring_size) =
    (if s.ring_write_pos + i < s.ring_size then s.ring_write_pos + i
      else s.ring_write_pos + i - s.ring_size) := by
  unfold available at hj hroom
  split_ifs at hj hroom ⊢ <;> omega

/-- An available slot is none of the slots past the write cursor that a burst
with room writes. -/
theorem slot_before_write (s : t_opus_codec E)
    (hw : 0 ≤ s.ring_write_pos ∧ s.ring_write_pos < s.ring_size)
    (hr : 0 ≤ s.ring_read_pos ∧ s.ring_read_pos < s.ring_size) (i j : Nat)
    (hj : (j : Int) < available s) (hroom : available s + i < s.ring_size) :
    (if s.ring_read_pos + j < s.ring_size then s.ring_read_pos + j
      else s.ring_read_pos + j - s.ring_size).toNat ≠
    (if s.ring_write_pos + i < s.ring_size then s.ring_write_pos + i
      else s.ring_write_pos + i - s.ring_size).toNat := by
  unfold available at hj hroom
  split_ifs at hj hroom ⊢ <;> omega

/-- A frame-completing call over an engine whose every round trip succeeds
with `F` decoded samples: the input half ends with the ring write loop of `F`
iterations on an instance `c` that differs from the one before the call in the
frame buffers, the engine objects and the trace only, with the input cursor at
0; the decoded burst is the `F` pairs of the decoded buffer of `c`. -/
theorem frame_step_burst (s : t_opus_codec E) (in_left in_right : Sample) (F : Nat)
    (hF : 0 < F) (hfs : s.frame_size = F) (hfull : s.buffer_pos + 1 ≥ s.frame_size)
    (henc : ∀ (enc : E.Enc) (pcm : List Sample) (data : List Nat),
      0 < (E.opus_encode_float enc pcm F data OPUS_MAX_PACKET_SIZE).2.2)
    (hdec : ∀ (dec : E.Dec) (data : List Nat) (len : Int) (pcm : List Sample),
      (E.opus_decode_float dec data len pcm F 0).2.2 = F) :
    ∃ c : t_opus_codec E,
      frame_step s in_left in_right = (List.range F).foldl ring_write_body c ∧
      decoded_burst s in_left in_right =
        (List.range F).map (fun i => (c.interleaved_output.getD (i * 2) 0,
          c.interleaved_output.getD (i * 2 + 1) 0)) ∧
      c.frame_size = s.frame_size ∧ c.ring_size = s.ring_size ∧
      c.ring_read_pos = s.ring_read_pos ∧ c.ring_write_pos = s.ring_write_pos ∧
      c.buffer_pos = 0 ∧ c.output_ring_left = s.output_ring_left ∧
      c.output_ring_right = s.output_ring_right := by
  have he_pos : 0 < (encode_frame (frame_ready s in_left in_right)).2 := by
    simp only [encode_frame, frame_ready, interleave, push_input, hfs]
    exact henc _ _ _
  have hd_n : (decode_packet (encode_frame (frame_ready s in_left in_right)).1
      (encode_frame (frame_ready s in_left in_right)).2).2 = (F : Int) := by
    simp only [decode_packet, encode_frame, frame_ready, interleave, push_input, hfs]
    exact hdec _ _ _ _
  refine ⟨(decode_packet (encode_frame (frame_ready s in_left in_right)).1
    (encode_frame (frame_ready s in_left in_right)).2).1, ?_, ?_, rfl, rfl, rfl, rfl, rfl, rfl,
    rfl⟩
  · rw [frame_step_full s in_left in_right hfull, if_pos he_pos, if_pos (by rw [hd_n]; omega),
      hd_n]
    simp only [ring_write, Int.toNat_ofNat]
  · unfold decoded_burst
    rw [if_pos hfull]
    simp only []
    rw [if_pos he_pos, if_pos (by rw [hd_n]; omega), hd_n, Int.toNat_ofNat]

/-- The steady state depends on the instance through its sizes, its ring and
its input cursor only. -/
theorem Steady.steady_congr {F k reads : Nat} {stream : List (Sample × Sample)}
    {s c : t_opus_codec E} (h : Steady F k reads stream s) (k1 : Nat)
    (h1 : c.frame_size = s.frame_size) (h2 : c.ring_size = s.ring_size)
    (h3 : c.ring_read_pos = s.ring_read_pos) (h4 : c.ring_write_pos = s.ring_write_pos)
    (h5 : c.output_ring_left = s.output_ring_left)
    (h6 : c.output_ring_right = s.output_ring_right)
    (hbp : 0 ≤ c.buffer_pos ∧ c.buffer_pos < F)
    (hpushed : (stream.length : Int) + c.buffer_pos = k1) :
    Steady F k1 reads stream c := by
  have hav : available c = available s := available_congr s c h2 h3 h4
  refine {
    frame := ?_, capacity := ?_, left_length := ?_, right_length := ?_, write_in_ring := ?_,
    read_in_ring := ?_, cursor_in_frame := hbp, pushed := hpushed,
    whole_frames := h.whole_frames, avail := ?_, slots := ?_ }
  · rw [h1]
    exact h.frame
  · rw [h2]
    exact h.capacity
  · rw [h2, h5]
    exact h.left_length
  · rw [h2, h6]
    exact h.right_length
  · rw [h4, h2]
    exact h.write_in_ring
  · rw [h3, h2]
    exact h.read_in_ring
  · rw [hav]
    exact h.avail
  · rw [hav, h2, h3, h5, h6]
    exact h.slots

/-- The ring write loop of a burst of `F` decoded pairs in the steady state,
the ring having room for it: the pairs join the stream and the available
slots, behind those that were available. -/
theorem Steady.ring_burst {F k reads : Nat} {stream : List (Sample × Sample)}
    {c : t_opus_codec E} (h : Steady F k reads stream c) (hroom : available c ≤ 2 * F) :
    Steady F (k + F) reads
      (stream ++ (List.range F).map (fun i => (c.interleaved_output.getD (i * 2) 0,
        c.interleaved_output.getD (i * 2 + 1) 0)))
      ((List.range F).foldl ring_write_body c) := by
  have hfs := h.frame
  have hcap := h.capacity
  have hw := h.write_in_ring
  have hr := h.read_in_ring
  have hbp := h.cursor_in_frame
  have hpush := h.pushed
  have hav := h.avail
  have hav0 : 0 ≤ available c := (available_eq_emod c hw hr).2.1
  have hFle : (F : Int) ≤ c.ring_size := by omega
  obtain ⟨l, r, w, hfr⟩ := ring_write_frame c (F : Int)
  simp only [ring_write, Int.toNat_ofNat] at hfr
  obtain ⟨hpos, hlenl, hlenr, hwritten⟩ := ring_write_loop_spec c hw
    h.left_length h.right_length F hFle
  obtain ⟨-, hun⟩ := ring_write_loop_untouched c hw F hFle
  generalize (List.range F).foldl ring_write_body c = c1 at hfr hpos hlenl hlenr hwritten hun
  have h_fs : c1.frame_size = c.frame_size := by rw [hfr]
  have h_rs : c1.ring_size = c.ring_size := by rw [hfr]
  have h_r : c1.ring_read_pos = c.ring_read_pos := by rw [hfr]
  have h_b : c1.buffer_pos = c.buffer_pos := by rw [hfr]
  have havail : available c1 = available c + F :=
    available_after_write c c1 F hr (by omega) (by omega) h_rs h_r hpos
  have hblen : ((List.range F).map (fun i => (c.interleaved_output.getD (i * 2) 0,
      c.interleaved_output.getD (i * 2 + 1) 0))).length = F := by
    simp
  refine {
    frame := ?_, capacity := ?_, left_length := ?_, right_length := ?_, write_in_ring := ?_,
    read_in_ring := ?_, cursor_in_frame := ?_, pushed := ?_, whole_frames := ?_,
    avail := ?_, slots := ?_ }
  · rw [h_fs, hfs]
  · rw [h_rs]
    exact hcap
  · rw [h_rs, hlenl]
    exact h.left_length
  · rw [h_rs, hlenr]
    exact h.right_length
  · rw [hpos, h_rs]
    split_ifs <;> omega
  · rw [h_r, h_rs]
    exact hr
  · rw [h_b]
    exact hbp
  · rw [h_b, List.length_append, hblen]
    push_cast
    omega
  · rw [List.length_append, hblen]
    rcases h.whole_frames with h0 | h1 | h2 <;> omega
  · rw [havail, List.length_append, hblen]
    push_cast
    omega
  · intro j hj
    rw [havail] at hj
    rw [h_r, h_rs]
    by_cases hja : (j : Int) < available c
    · obtain ⟨p, hp, hpl, hpr⟩ := h.slots j hja
      obtain ⟨hul, hur⟩ := hun _ (fun i hi => slot_before_write c hw hr i j hja (by omega))
      refine ⟨p, ?_, ?_, ?_⟩
      · rw [List.getElem?_append_left (by omega)]
        exact hp
      · rw [hul]
        exact hpl
      · rw [hur]
        exact hpr
    · obtain ⟨i, hi⟩ : ∃ i : Nat, (j : Int) = available c + i :=
        ⟨(j - available c).toNat, by omega⟩
      have hiF : i < F := by omega
      obtain ⟨hwl, hwr⟩ := hwritten i hiF
      rw [slot_past_write c hw hr i j hi (by omega)]
      refine ⟨(c.interleaved_output.getD (i * 2) 0, c.interleaved_output.getD (i * 2 + 1) 0),
        ?_, hwl, hwr⟩
      rw [List.getElem?_append_right (by omega)]
      have hsub : reads + j - stream.length = i := by omega
      rw [hsub, List.getElem?_map, List.getElem?_range hiF]
      rfl

/-- The input half of a call in the steady state, over an engine whose every
round trip succeeds with `F` decoded samples: one more pair has been pushed,
and a completed frame has added its `F` decoded pairs to the stream and to the
ring, behind the pairs that were available. -/
theorem Steady.steady_frame_step {F k reads : Nat} {stream : List (Sample × Sample)}
    {s : t_opus_codec E} (h : Steady F k reads stream s) (hroom : available s ≤ 2 * F)
    (henc : ∀ (enc : E.Enc) (pcm : List Sample) (data : List Nat),
      0 < (E.opus_encode_float enc pcm F data OPUS_MAX_PACKET_SIZE).2.2)
    (hdec : ∀ (dec : E.Dec) (data : List Nat) (len : Int) (pcm : List Sample),
      (E.opus_decode_float dec data len pcm F 0).2.2 = F)
    (in_left in_right : Sample) :
    Steady F (k + 1) reads (stream ++ decoded_burst s in_left in_right)
      (OpusCodec.frame_step s in_left in_right) := by
  have hfs := h.frame
  have hbp := h.cursor_in_frame
  have hpush := h.pushed
  by_cases hfull : s.buffer_pos + 1 ≥ s.frame_size
  · obtain ⟨c, hstep, hburst, h1, h2, h3, h4, h5, h6, h7⟩ :=
      frame_step_burst s in_left in_right F (by omega) hfs hfull henc hdec
    have hc : Steady F stream.length reads stream c :=
      h.steady_congr stream.length h1 h2 h3 h4 h6 h7 (by rw [h5]; omega) (by rw [h5]; omega)
    have hk : k + 1 = stream.length + F := by omega
    rw [hstep, hburst, hk]
    exact hc.ring_burst (by rw [available_congr s c h2 h3 h4]; exact hroom)
  · have hstep : OpusCodec.frame_step s in_left in_right = push_input s in_left in_right := by
      unfold OpusCodec.frame_step
      simp only []
      rw [if_neg]
      simpa [push_input] using hfull
    have hburst : decoded_burst s in_left in_right = [] := by
      unfold decoded_burst
      rw [if_neg hfull]
    rw [hstep, hburst, List.append_nil]
    exact h.steady_congr (k + 1) rfl rfl rfl rfl rfl rfl
      (by show 0 ≤ s.buffer_pos + 1 ∧ s.buffer_pos + 1 < (F : Int); omega)
      (by show (stream.length : Int) + (s.buffer_pos + 1) = ((k + 1 : Nat) : Int)
          push_cast
          omega)

/-- The slot `j` places past the read cursor once it has moved is the slot
`j + 1` places past where it was. -/
theorem slot_after_read (rd rs : Int) (j : Nat) (hr : 0 ≤ rd ∧ rd < rs) (hj : (j : Int) + 1 < rs) :
    (if (if rd + 1 ≥ rs then 0 else rd + 1) + (j : Int) < rs
      then (if rd + 1 ≥ rs then 0 else rd + 1) + (j : Int)
      else (if rd + 1 ≥ rs then 0 else rd + 1) + (j : Int) - rs) =
    (if rd + ((j + 1 : Nat) : Int) < rs then rd + ((j + 1 : Nat) : Int)
      else rd + ((j + 1 : Nat) : Int) - rs) := by
  push_cast
  split_ifs <;> omega

/-- The output half of a call that finds more than a frame available in the
steady state: it emits the next pair of the stream. -/
theorem Steady.emit {F k reads : Nat} {stream : List (Sample × Sample)}
    {s : t_opus_codec E} (h : Steady F k reads stream s) (ha : available s > s.frame_size) :
    ∃ p : Sample × Sample, stream[reads]? = some p ∧
      (output_step s).2.1 = p.1 ∧ (output_step s).2.2 = p.2 ∧
      Steady F k (reads + 1) stream (output_step s).1 := by
  have hfs := h.frame
  have hcap := h.capacity
  have hw := h.write_in_ring
  have hr := h.read_in_ring
  have hav := h.avail
  have hbp := h.cursor_in_frame
  have hlt : available s < s.ring_size := (available_eq_emod s hw hr).2.2
  obtain ⟨p, hp, hpl, hpr⟩ := h.slots 0 (by push_cast; omega)
  simp only [Nat.cast_zero, add_zero, if_pos hr.2] at hpl hpr
  rw [Nat.add_zero] at hp
  have havr := available_after_read s hw hr (by omega)
  rw [output_step_emit s ha]
  refine ⟨p, hp, ?_, ?_, ?_⟩
  · show s.output_ring_left.getD s.ring_read_pos.toNat 0 = p.1
    rw [List.getD_eq_getElem?_getD, hpl]
    rfl
  · show s.output_ring_right.getD s.ring_read_pos.toNat 0 = p.2
    rw [List.getD_eq_getElem?_getD, hpr]
    rfl
  · refine {
      frame := hfs, capacity := hcap, left_length := h.left_length,
      right_length := h.right_length, write_in_ring := hw, read_in_ring := ?_,
      cursor_in_frame := hbp, pushed := h.pushed, whole_frames := h.whole_frames,
      avail := ?_, slots := ?_ }
    · show 0 ≤ (if s.ring_read_pos + 1 ≥ s.ring_size then 0 else s.ring_read_pos + 1) ∧
        (if s.ring_read_pos + 1 ≥ s.ring_size then 0 else s.ring_read_pos + 1) < s.ring_size
      split_ifs <;> omega
    · rw [havr]
      push_cast
      omega
    · intro j hj
      rw [havr] at hj
      obtain ⟨q, hq, hql, hqr⟩ := h.slots (j + 1) (by push_cast; omega)
      have hidx := slot_after_read s.ring_read_pos s.ring_size j hr (by omega)
      refine ⟨q, ?_, ?_, ?_⟩
      · rw [← hq]
        congr 1
        omega
      · show s.output_ring_left[(if
          (if s.ring_read_pos + 1 ≥ s.ring_size then 0 else s.ring_read_pos + 1) + (j : Int) <
            s.ring_size
          then (if s.ring_read_pos + 1 ≥ s.ring_size then 0 else s.ring_read_pos + 1) + (j : Int)
          else (if s.ring_read_pos + 1 ≥ s.ring_size then 0 else s.ring_read_pos + 1) +
            (j : Int) - s.ring_size).toNat]? = some q.1
        rw [hidx]
        exact hql
      · show s.output_ring_right[(if
          (if s.ring_read_pos + 1 ≥ s.ring_size then 0 else s.ring_read_pos + 1) + (j : Int) <
            s.ring_size
          then (if s.ring_read_pos + 1 ≥ s.ring_size then 0 else s.ring_read_pos + 1) + (j : Int)
          else (if s.ring_read_pos + 1 ≥ s.ring_size then 0 else s.ring_read_pos + 1) +
            (j : Int) - s.ring_size).toNat]? = some q.2
        rw [hidx]
        exact hqr

/-- The number of reads does not matter to the steady state while it is the
same number. -/
theorem Steady.reads_eq {F k reads reads1 : Nat} {stream : List (Sample × Sample)}
    {s : t_opus_codec E} (h : Steady F k reads stream s) (heq : reads1 = reads) :
    Steady F k reads1 stream s := by
  rw [heq]
  exact h

/-- One call in the steady state, the `(k + 1)`-th of a run from all cursors at
0, over an engine whose every round trip succeeds with `F` decoded samples:
before the `2 * F`-th call it emits silence, from the `2 * F`-th on it finds
more than a frame available and emits pair `k + 1 - 2 * F` of the stream. -/
theorem Steady.call {F k : Nat} {stream : List (Sample × Sample)} {s : t_opus_codec E}
    (h : Steady F k (k + 1 - 2 * F) stream s)
    (henc : ∀ (enc : E.Enc) (pcm : List Sample) (data : List Nat),
      0 < (E.opus_encode_float enc pcm F data OPUS_MAX_PACKET_SIZE).2.2)
    (hdec : ∀ (dec : E.Dec) (data : List Nat) (len : Int) (pcm : List Sample),
      (E.opus_decode_float dec data len pcm F 0).2.2 = F)
    (in_left in_right : Sample) :
    Steady F (k + 1) (k + 1 + 1 - 2 * F) (stream ++ decoded_burst s in_left in_right)
      (output_step (OpusCodec.frame_step s in_left in_right)).1 ∧
    (k + 1 < 2 * F →
      ¬ available (OpusCodec.frame_step s in_left in_right) >
        (OpusCodec.frame_step s in_left in_right).frame_size ∧
      (output_step (OpusCodec.frame_step s in_left in_right)).2.1 = 0 ∧
      (output_step (OpusCodec.frame_step s in_left in_right)).2.2 = 0) ∧
    (2 * F ≤ k + 1 →
      available (OpusCodec.frame_step s in_left in_right) >
        (OpusCodec.frame_step s in_left in_right).frame_size ∧
      ∃ p : Sample × Sample,
        (stream ++ decoded_burst s in_left in_right)[k + 1 - 2 * F]? = some p ∧
        (output_step (OpusCodec.frame_step s in_left in_right)).2.1 = p.1 ∧
        (output_step (OpusCodec.frame_step s in_left in_right)).2.2 = p.2) := by
  have hroom : available s ≤ 2 * F := by
    have h1 := h.avail
    have h2 := h.pushed
    have h3 := h.cursor_in_frame
    omega
  have h1 := h.steady_frame_step hroom henc hdec in_left in_right
  generalize OpusCodec.frame_step s in_left in_right = s1 at h1
  generalize stream ++ decoded_burst s in_left in_right = stream1 at h1
  have hfs := h1.frame
  have hav := h1.avail
  have hpush := h1.pushed
  have hbp := h1.cursor_in_frame
  have hwhole := h1.whole_frames
  by_cases hk : k + 1 < 2 * F
  · have hsil : ¬ available s1 > s1.frame_size := by
      rw [hfs]
      omega
    rw [output_step_silence s1 hsil]
    exact ⟨h1.reads_eq (by omega), fun _ => ⟨hsil, rfl, rfl⟩, fun hc => absurd hc (by omega)⟩
  · have hemit : available s1 > s1.frame_size := by
      rw [hfs]
      omega
    obtain ⟨p, hp, hl, hr, hst⟩ := h1.emit hemit
    exact ⟨hst.reads_eq (by omega), fun hc => absurd hc hk, fun _ => ⟨hemit, p, hp, hl, hr⟩⟩

/-- An instance with frames of `F` samples, a ring of at least four frames
and all cursors at 0 is in the steady state of no call. -/
theorem Steady.init (c : t_opus_codec E) (F : Nat) (hF : 1 ≤ F) (hfs : c.frame_size = F)
    (hrs : 4 * F ≤ c.ring_size)
    (hcur : c.buffer_pos = 0 ∧ c.ring_read_pos = 0 ∧ c.ring_write_pos = 0)
    (hl : c.ring_size.toNat ≤ c.output_ring_left.length)
    (hr : c.ring_size.toNat ≤ c.output_ring_right.length) :
    Steady F 0 0 [] c := by
  obtain ⟨hb, hrd, hwr⟩ := hcur
  have hav : available c = 0 := by
    unfold available
    rw [hrd, hwr]
    simp
  refine {
    frame := hfs, capacity := hrs, left_length := hl, right_length := hr,
    write_in_ring := by rw [hwr]; omega, read_in_ring := by rw [hrd]; omega,
    cursor_in_frame := by rw [hb]; omega, pushed := by rw [hb]; rfl,
    whole_frames := Or.inl rfl, avail := by rw [hav]; rfl, slots := ?_ }
  intro j hj
  rw [hav] at hj
  omega

/-- A run of calls from all cursors at 0 over an engine whose every round trip
succeeds with `F` decoded samples ends in the steady state of its number of
calls, with the decoded stream of the run. -/
theorem Steady.steady_run (c : t_opus_codec E) (F : Nat) (hF : 1 ≤ F) (h0 : Steady F 0 0 [] c)
    (henc : ∀ (enc : E.Enc) (pcm : List Sample) (data : List Nat),
      0 < (E.opus_encode_float enc pcm F data OPUS_MAX_PACKET_SIZE).2.2)
    (hdec : ∀ (dec : E.Dec) (data : List Nat) (len : Int) (pcm : List Sample),
      (E.opus_decode_float dec data len pcm F 0).2.2 = F)
    (inputs : List (Sample × Sample)) :
    ∃ s : t_opus_codec E, process_samples (some c) inputs = some s ∧
      Steady F inputs.length (inputs.length + 1 - 2 * F) (decoded_stream (some c) inputs) s := by
  induction inputs using List.reverseRecOn with
  | nil => exact ⟨c, rfl, h0.reads_eq (by rw [List.length_nil]; omega)⟩
  | append_singleton xs x ih =>
    obtain ⟨s, hs, hst⟩ := ih
    refine ⟨(output_step (OpusCodec.frame_step s x.1 x.2)).1, ?_, ?_⟩
    · rw [process_samples_append, hs]
      rfl
    · rw [decoded_stream_append, hs, List.length_append]
      have hone : decoded_stream (some s) [x] = decoded_burst s x.1 x.2 := by
        simp only [decoded_stream, List.append_nil]
      rw [hone]
      exact (hst.call henc hdec x.1 x.2).1

/-- The view of each call of a run from all cursors at 0 over an engine whose
every round trip succeeds with `F` decoded samples. -/
theorem steady_views (c : t_opus_codec E) (F : Nat) (hF : 1 ≤ F) (h0 : Steady F 0 0 [] c)
    (henc : ∀ (enc : E.Enc) (pcm : List Sample) (data : List Nat),
      0 < (E.opus_encode_float enc pcm F data OPUS_MAX_PACKET_SIZE).2.2)
    (hdec : ∀ (dec : E.Dec) (data : List Nat) (len : Int) (pcm : List Sample),
      (E.opus_decode_float dec data len pcm F 0).2.2 = F)
    (inputs : List (Sample × Sample)) (i : Nat) (hi : i < inputs.length) :
    ∃ v : CallView, (process_views (some c) inputs)[i]? = some v ∧
      (i + 1 < 2 * F → v.out_left = some 0 ∧ v.out_right = some 0 ∧ v.underrun = true) ∧
      (2 * F ≤ i + 1 → v.underrun = false ∧
        ∃ p : Sample × Sample, (decoded_stream (some c) inputs)[i + 1 - 2 * F]? = some p ∧
          v.out_left = some p.1 ∧ v.out_right = some p.2) := by
  obtain ⟨s, hs, hst⟩ := Steady.steady_run c F hF h0 henc hdec (inputs.take i)
  have hlen : (inputs.take i).length = i := by
    rw [List.length_take]
    omega
  rw [hlen] at hst
  obtain ⟨hnext, hsil, hemit⟩ := hst.call henc hdec (inputs.get ⟨i, hi⟩).1 (inputs.get ⟨i, hi⟩).2
  refine ⟨_, process_views_getElem (some c) inputs i hi, ?_, ?_⟩
  · intro hlt
    obtain ⟨hu, hl, hr⟩ := hsil hlt
    rw [hs]
    refine ⟨?_, ?_, ?_⟩
    · show some (output_step (OpusCodec.frame_step s _ _)).2.1 = some 0
      rw [hl]
    · show some (output_step (OpusCodec.frame_step s _ _)).2.2 = some 0
      rw [hr]
    · show decide (¬ available (OpusCodec.frame_step s _ _) >
        (OpusCodec.frame_step s _ _).frame_size) = true
      exact decide_eq_true hu
  · intro hge
    obtain ⟨hu, p, hp, hl, hr⟩ := hemit hge
    rw [hs]
    refine ⟨?_, p, ?_, ?_, ?_⟩
    · show decide (¬ available (OpusCodec.frame_step s _ _) >
        (OpusCodec.frame_step s _ _).frame_size) = false
      exact decide_eq_false (not_not_intro hu)
    · have hsplit : inputs.take (i + 1) = inputs.take i ++ [inputs.get ⟨i, hi⟩] := by
        rw [List.get_eq_getElem, List.take_succ, List.getElem?_eq_getElem hi]
        rfl
      have hpre : decoded_stream (some c) (inputs.take (i + 1)) =
          decoded_stream (some c) (inputs.take i) ++
            decoded_burst s (inputs.get ⟨i, hi⟩).1 (inputs.get ⟨i, hi⟩).2 := by
        rw [hsplit, decoded_stream_append, hs]
        simp only [decoded_stream, List.append_nil]
      have hidx : i + 1 - 2 * F < (decoded_stream (some c) (inputs.take (i + 1))).length := by
        rw [hpre]
        by_contra hnot
        rw [List.getElem?_eq_none (by omega)] at hp
        exact absurd hp (by simp)
      rw [decoded_stream_take (some c) inputs (i + 1) _ hidx, hpre]
      exact hp
    · show some (output_step (OpusCodec.frame_step s _ _)).2.1 = some p.1
      rw [hl]
    · show some (output_step (OpusCodec.frame_step s _ _)).2.2 = some p.2
      rw [hr]

/-- Storing a pair at the input cursor appends it to the pairs of the frame
being assembled. -/
theorem pending_pairs_push (s : t_opus_codec E) (in_left in_right : Sample) (n : Nat)
    (hn : s.buffer_pos = n) (hl : n < s.input_buffer_left.length)
    (hr : n < s.input_buffer_right.length) :
    pending_pairs (push_input s in_left in_right) (n + 1) =
      pending_pairs s n ++ [(in_left, in_right)] := by
  unfold pending_pairs
  rw [List.range_succ, List.map_append]
  congr 1
  · apply List.map_congr_left
    intro i hi
    have hin : i < n := List.mem_range.mp hi
    simp only [push_input, hn, Int.toNat_ofNat, List.getD_eq_getElem?_getD]
    rw [List.getElem?_set_ne (by omega), List.getElem?_set_ne (by omega)]
  · simp only [push_input, hn, Int.toNat_ofNat, List.getD_eq_getElem?_getD, List.map_cons,
      List.map_nil]
    rw [List.getElem?_set_self hl, List.getElem?_set_self hr]
    rfl

/-- The decoded burst of a frame-completing call over an identity pass-through
engine is the frame itself: the pairs of the two input frame buffers. -/
theorem loopback_burst (s : t_opus_codec E) (in_left in_right : Sample) (F : Nat)
    (hF : 0 < F) (hfs : s.frame_size = F) (hfull : s.buffer_pos + 1 ≥ s.frame_size)
    (hint : 2 * F ≤ s.interleaved_input.length)
    (henc : ∀ (enc : E.Enc) (pcm : List Sample) (data : List Nat),
      0 < (E.opus_encode_float enc pcm F data OPUS_MAX_PACKET_SIZE).2.2)
    (hdec : ∀ (dec : E.Dec) (data : List Nat) (len : Int) (pcm : List Sample),
      (E.opus_decode_float dec data len pcm F 0).2.2 = F)
    (hloop : Loopback E F) :
    decoded_burst s in_left in_right = pending_pairs (push_input s in_left in_right) F := by
  have he_pos : 0 < (encode_frame (frame_ready s in_left in_right)).2 := by
    simp only [encode_frame, frame_ready, interleave, push_input, hfs]
    exact henc _ _ _
  have hd_n : (decode_packet (encode_frame (frame_ready s in_left in_right)).1
      (encode_frame (frame_ready s in_left in_right)).2).2 = (F : Int) := by
    simp only [decode_packet, encode_frame, frame_ready, interleave, push_input, hfs]
    exact hdec _ _ _ _
  have hpcm := interleave_loop_spec (push_input s in_left in_right).input_buffer_left
    (push_input s in_left in_right).input_buffer_right F s.interleaved_input hint
  have hkey : ∀ j : Nat, j < 2 * F →
      (decode_packet (encode_frame (frame_ready s in_left in_right)).1
        (encode_frame (frame_ready s in_left in_right)).2).1.interleaved_output.getD j 0 =
      ((List.range F).foldl
        (interleave_body (push_input s in_left in_right).input_buffer_left
          (push_input s in_left in_right).input_buffer_right) s.interleaved_input).getD j 0 := by
    intro j hj
    simp only [decode_packet, encode_frame, frame_ready, interleave, push_input, hfs,
      Int.toNat_ofNat]
    have hj2 : (j : Int) < 2 * (F : Int) := by omega
    have h2 : (2 * (F : Int)).toNat = 2 * F := by omega
    refine hloop _ _ _ _ _ j ?_ hj2
    rw [interleave_loop_length, h2]
    exact hint
  unfold decoded_burst
  rw [if_pos hfull]
  simp only []
  rw [if_pos he_pos, if_pos (by rw [hd_n]; omega), hd_n, Int.toNat_ofNat]
  unfold pending_pairs
  apply List.map_congr_left
  intro i hi
  have hin : i < F := List.mem_range.mp hi
  obtain ⟨h0, h1⟩ := hpcm.2 i hin
  rw [hkey (i * 2) (by omega), hkey (i * 2 + 1) (by omega)]
  rw [List.getD_eq_getElem?_getD, List.getD_eq_getElem?_getD, Nat.mul_comm i 2, h0, h1]
  rfl

/-- The frame buffers after the input half of a frame-completing call over an
engine whose every round trip succeeds with `F` decoded samples. -/
theorem frame_step_full_buffers (s : t_opus_codec E) (in_left in_right : Sample) (F : Nat)
    (hF : 0 < F) (hfs : s.frame_size = F) (hfull : s.buffer_pos + 1 ≥ s.frame_size)
    (henc : ∀ (enc : E.Enc) (pcm : List Sample) (data : List Nat),
      0 < (E.opus_encode_float enc pcm F data OPUS_MAX_PACKET_SIZE).2.2)
    (hdec : ∀ (dec : E.Dec) (data : List Nat) (len : Int) (pcm : List Sample),
      (E.opus_decode_float dec data len pcm F 0).2.2 = F) :
    (frame_step s in_left in_right).buffer_pos = 0 ∧
    (frame_step s in_left in_right).input_buffer_left.length = s.input_buffer_left.length ∧
    (frame_step s in_left in_right).input_buffer_right.length = s.input_buffer_right.length ∧
    (frame_step s in_left in_right).interleaved_input.length = s.interleaved_input.length := by
  have he_pos : 0 < (encode_frame (frame_ready s in_left in_right)).2 := by
    simp only [encode_frame, frame_ready, interleave, push_input, hfs]
    exact henc _ _ _
  have hd_n : (decode_packet (encode_frame (frame_ready s in_left in_right)).1
      (encode_frame (frame_ready s in_left in_right)).2).2 = (F : Int) := by
    simp only [decode_packet, encode_frame, frame_ready, interleave, push_input, hfs]
    exact hdec _ _ _ _
  obtain ⟨l, r, w, h⟩ := ring_write_frame
    (decode_packet (encode_frame (frame_ready s in_left in_right)).1
      (encode_frame (frame_ready s in_left in_right)).2).1
    (decode_packet (encode_frame (frame_ready s in_left in_right)).1
      (encode_frame (frame_ready s in_left in_right)).2).2
  rw [frame_step_full s in_left in_right hfull, if_pos he_pos, if_pos (by rw [hd_n]; omega), h]
  simp only [decode_packet, encode_frame, frame_ready, interleave, push_input,
    interleave_loop_length, List.length_set, and_self]

/-- One call over an identity pass-through engine: the pairs decoded so far
followed by the pairs of the frame being assembled grow by the input pair of
the call. -/
theorem loopback_step (s : t_opus_codec E) (in_left in_right : Sample) (F : Nat)
    (hF : 0 < F) (hfs : s.frame_size = F) (hbp : 0 ≤ s.buffer_pos ∧ s.buffer_pos < F)
    (hil : F ≤ s.input_buffer_left.length) (hir : F ≤ s.input_buffer_right.length)
    (hint : 2 * F ≤ s.interleaved_input.length)
    (henc : ∀ (enc : E.Enc) (pcm : List Sample) (data : List Nat),
      0 < (E.opus_encode_float enc pcm F data OPUS_MAX_PACKET_SIZE).2.2)
    (hdec : ∀ (dec : E.Dec) (data : List Nat) (len : Int) (pcm : List Sample),
      (E.opus_decode_float dec data len pcm F 0).2.2 = F)
    (hloop : Loopback E F) :
    ((output_step (frame_step s in_left in_right)).1.frame_size = F ∧
      (0 ≤ (output_step (frame_step s in_left in_right)).1.buffer_pos ∧
        (output_step (frame_step s in_left in_right)).1.buffer_pos < F) ∧
      F ≤ (output_step (frame_step s in_left in_right)).1.input_buffer_left.length ∧
      F ≤ (output_step (frame_step s in_left in_right)).1.input_buffer_right.length ∧
      2 * F ≤ (output_step (frame_step s in_left in_right)).1.interleaved_input.length) ∧
    decoded_burst s in_left in_right ++
        pending_pairs (output_step (frame_step s in_left in_right)).1
          (output_step (frame_step s in_left in_right)).1.buffer_pos.toNat =
      pending_pairs s s.buffer_pos.toNat ++ [(in_left, in_right)] := by
  obtain ⟨rp, hrp⟩ := output_step_frame (frame_step s in_left in_right)
  have hframe := (frame_step_frame s in_left in_right).2.2
  have hn : s.buffer_pos = (s.buffer_pos.toNat : Int) := by omega
  rw [hrp]
  show ((frame_step s in_left in_right).frame_size = F ∧
      (0 ≤ (frame_step s in_left in_right).buffer_pos ∧
        (frame_step s in_left in_right).buffer_pos < F) ∧
      F ≤ (frame_step s in_left in_right).input_buffer_left.length ∧
      F ≤ (frame_step s in_left in_right).input_buffer_right.length ∧
      2 * F ≤ (frame_step s in_left in_right).interleaved_input.length) ∧
    decoded_burst s in_left in_right ++
        (List.range (frame_step s in_left in_right).buffer_pos.toNat).map
          (fun i => ((frame_step s in_left in_right).input_buffer_left.getD i 0,
            (frame_step s in_left in_right).input_buffer_right.getD i 0)) =
      pending_pairs s s.buffer_pos.toNat ++ [(in_left, in_right)]
  by_cases hfull : s.buffer_pos + 1 ≥ s.frame_size
  · obtain ⟨h0, h1, h2, h3⟩ := frame_step_full_buffers s in_left in_right F hF hfs hfull henc hdec
    have hlast : s.buffer_pos.toNat + 1 = F := by omega
    refine ⟨⟨by rw [hframe, hfs], by rw [h0]; omega, by rw [h1]; exact hil,
      by rw [h2]; exact hir, by rw [h3]; exact hint⟩, ?_⟩
    rw [h0, loopback_burst s in_left in_right F hF hfs hfull hint henc hdec hloop]
    simp only [Int.toNat_zero, List.range_zero, List.map_nil, List.append_nil]
    rw [← hlast]
    exact pending_pairs_push s in_left in_right s.buffer_pos.toNat hn (by omega) (by omega)
  · have hstep : frame_step s in_left in_right = push_input s in_left in_right := by
      unfold frame_step
      simp only []
      rw [if_neg]
      simp only [push_input]
      omega
    have hnil : decoded_burst s in_left in_right = [] := by
      unfold decoded_burst
      rw [if_neg hfull]
    have hpos : (push_input s in_left in_right).buffer_pos.toNat = s.buffer_pos.toNat + 1 := by
      show (s.buffer_pos + 1).toNat = s.buffer_pos.toNat + 1
      omega
    rw [hstep, hnil, List.nil_append, hpos]
    refine ⟨⟨hfs, ?_, ?_, ?_, hint⟩, ?_⟩
    · show 0 ≤ s.buffer_pos + 1 ∧ s.buffer_pos + 1 < F
      omega
    · show F ≤ (s.input_buffer_left.set s.buffer_pos.toNat in_left).length
      rw [List.length_set]
      exact hil
    · show F ≤ (s.input_buffer_right.set s.buffer_pos.toNat in_right).length
      rw [List.length_set]
      exact hir
    · exact pending_pairs_push s in_left in_right s.buffer_pos.toNat hn (by omega) (by omega)

/-- A run of calls from input cursor 0 over an identity pass-through engine:
the decoded stream followed by the pairs of the frame being assembled is the
input of the run. -/
theorem loopback_run (c : t_opus_codec E) (F : Nat) (hF : 0 < F) (hfs : c.frame_size = F)
    (hbp : c.buffer_pos = 0)
    (hil : F ≤ c.input_buffer_left.length) (hir : F ≤ c.input_buffer_right.length)
    (hint : 2 * F ≤ c.interleaved_input.length)
    (henc : ∀ (enc : E.Enc) (pcm : List Sample) (data : List Nat),
      0 < (E.opus_encode_float enc pcm F data OPUS_MAX_PACKET_SIZE).2.2)
    (hdec : ∀ (dec : E.Dec) (data : List Nat) (len : Int) (pcm : List Sample),
      (E.opus_decode_float dec data len pcm F 0).2.2 = F)
    (hloop : Loopback E F) (inputs : List (Sample × Sample)) :
    ∃ s : t_opus_codec E, process_samples (some c) inputs = some s ∧
      (s.frame_size = F ∧ (0 ≤ s.buffer_pos ∧ s.buffer_pos < F) ∧
        F ≤ s.input_buffer_left.length ∧ F ≤ s.input_buffer_right.length ∧
        2 * F ≤ s.interleaved_input.length) ∧
      decoded_stream (some c) inputs ++ pending_pairs s s.buffer_pos.toNat = inputs := by
  induction inputs using List.reverseRecOn with
  | nil =>
    refine ⟨c, rfl, ⟨hfs, by rw [hbp]; omega, hil, hir, hint⟩, ?_⟩
    rw [hbp]
    rfl
  | append_singleton xs x ih =>
    obtain ⟨s, hs, ⟨h1, h2, h3, h4, h5⟩, hxs⟩ := ih
    obtain ⟨hnext, hgrow⟩ := loopback_step s x.1 x.2 F hF h1 h2 h3 h4 h5 henc hdec hloop
    refine ⟨(output_step (frame_step s x.1 x.2)).1, ?_, hnext, ?_⟩
    · rw [process_samples_append, hs]
      rfl
    · have hone : decoded_stream (some s) [x] = decoded_burst s x.1 x.2 := by
        simp only [decoded_stream, List.append_nil]
      rw [decoded_stream_append, hs, hone, List.append_assoc, hgrow, ← List.append_assoc, hxs]

/-- Decoding a zigzag code gives the integer back. -/
theorem unzigzag_zigzag (x : Int) : unzigzag (zigzag x) = x := by
  unfold unzigzag zigzag
  split_ifs <;> omega

/-- The engine `loopback_engine` is an identity pass-through engine for every
frame size. -/
theorem loopback_engine_loopback (F : Int) : Loopback loopback_engine F := by
  intro enc dec pcm data out j hlen hj
  have hjn : j < (2 * F).toNat := by omega
  show ((((pcm.take (2 * F).toNat).map zigzag).take (2 * F).toNat).map unzigzag ++
    out.drop (2 * F).toNat).getD j 0 = pcm.getD j 0
  have hjl : j < ((((pcm.take (2 * F).toNat).map zigzag).take (2 * F).toNat).map
      unzigzag).length := by
    simp only [List.length_map, List.length_take]
    omega
  rw [List.getD_eq_getElem?_getD, List.getD_eq_getElem?_getD, List.getElem?_append_left hjl,
    List.getElem?_map, List.getElem?_take_of_lt hjn, List.getElem?_map,
    List.getElem?_take_of_lt hjn, List.getElem?_eq_getElem (by omega)]
  simp only [Option.map_some', Option.getD_some, unzigzag_zigzag]

/-- C19. On an instance with frames of `F ≥ 1` samples, a ring of `4 * F`
slots held by the two ring arrays and all cursors at 0, over an engine whose
every round trip succeeds with `F` decoded samples (the encoder returns a
positive packet size and the decoder returns `F`): in a run of calls of
`opus_codec_process_sample`, each of the first `2 * F - 1` calls takes the
silence branch and emits `(0, 0)`, and every later call, the `k`-th with
`k ≥ 2 * F`, takes no underrun and emits pair `k - 2 * F` (counted from 0) of
the concatenated decoded stream of the run. If moreover the engine is an
identity pass-through engine and the frame buffers hold a frame, that pair is
the input pair of call `k - (2 * F - 1)`: the pipeline is a pure delay of
`2 * F - 1` samples. Calls are indexed from 0 in the statement: call `k` is
index `i = k - 1`. -/
theorem pipeline_steady_state (c : t_opus_codec E) (F : Nat) (hF : 1 ≤ F)
    (hfs : c.frame_size = F) (hrs : c.ring_size = 4 * F)
    (hcur : c.buffer_pos = 0 ∧ c.ring_read_pos = 0 ∧ c.ring_write_pos = 0)
    (hl : 4 * F ≤ c.output_ring_left.length) (hr : 4 * F ≤ c.output_ring_right.length)
    (henc : ∀ (enc : E.Enc) (pcm : List Sample) (data : List Nat),
      0 < (E.opus_encode_float enc pcm F data OPUS_MAX_PACKET_SIZE).2.2)
    (hdec : ∀ (dec : E.Dec) (data : List Nat) (len : Int) (pcm : List Sample),
      (E.opus_decode_float dec data len pcm F 0).2.2 = F)
    (inputs : List (Sample × Sample)) :
    (∀ i : Nat, i < inputs.length →
      ∃ v : CallView, (process_views (some c) inputs)[i]? = some v ∧
        (i + 1 < 2 * F → v.out_left = some 0 ∧ v.out_right = some 0 ∧ v.underrun = true) ∧
        (2 * F ≤ i + 1 → v.underrun = false ∧
          ∃ p : Sample × Sample, (decoded_stream (some c) inputs)[i + 1 - 2 * F]? = some p ∧
            v.out_left = some p.1 ∧ v.out_right = some p.2)) ∧
    (Loopback E F → F ≤ c.input_buffer_left.length → F ≤ c.input_buffer_right.length →
      2 * F ≤ c.interleaved_input.length →
      ∀ i : Nat, i < inputs.length → 2 * F ≤ i + 1 →
        ∃ (v : CallView) (x : Sample × Sample),
          (process_views (some c) inputs)[i]? = some v ∧
          inputs[i + 1 - 2 * F]? = some x ∧
          v.out_left = some x.1 ∧ v.out_right = some x.2 ∧ v.underrun = false) := by
  have hcap : (4 * (F : Int)).toNat = 4 * F := by omega
  have h0 := Steady.init c F hF hfs (by rw [hrs]) hcur (by rw [hrs, hcap]; exact hl)
    (by rw [hrs, hcap]; exact hr)
  refine ⟨fun i hi => steady_views c F hF h0 henc hdec inputs i hi, ?_⟩
  intro hloop hil hir hint i hi hge
  obtain ⟨v, hv, -, hemit⟩ := steady_views c F hF h0 henc hdec inputs i hi
  obtain ⟨hu, p, hp, hpl, hpr⟩ := hemit hge
  obtain ⟨s, -, -, hall⟩ :=
    loopback_run c F (by omega) hfs hcur.1 hil hir hint henc hdec hloop inputs
  refine ⟨v, p, hv, ?_, hpl, hpr, hu⟩
  have hidx : i + 1 - 2 * F < (decoded_stream (some c) inputs).length := by
    by_contra hnot
    rw [List.getElem?_eq_none (by omega)] at hp
    exact absurd hp (by simp)
  rw [← hp]
  conv_lhs => rw [← hall]
  exact List.getElem?_append_left hidx

/-- C19, at a concrete instance: six calls over the identity pass-through
engine `loopback_engine`, with frames of two samples and a ring of eight; the
first three calls emit `(0, 0)` and the fifth emits the input pair of the
second. -/
theorem pipeline_steady_state_witness :
    (∀ i : Nat, i + 1 < 2 * 2 →
      ∃ v : CallView,
        (process_views (some loopback_codec)
          [(1, 2), (3, 4), (5, 6), (7, 8), (9, 10), (11, 12)])[i]? = some v ∧
        v.out_left = some 0 ∧ v.out_right = some 0 ∧ v.underrun = true) ∧
    ∃ v : CallView,
      (process_views (some loopback_codec)
        [(1, 2), (3, 4), (5, 6), (7, 8), (9, 10), (11, 12)])[4]? = some v ∧
      v.out_left = some 3 ∧ v.out_right = some 4 ∧ v.underrun = false := by
  obtain ⟨h1, h2⟩ := pipeline_steady_state loopback_codec 2 (by decide) (by decide) (by decide)
    (by decide) (by decide) (by decide)
    (fun _ _ _ => (by decide : (0 : Int) < 2 * 2)) (fun _ _ _ _ => rfl)
    [(1, 2), (3, 4), (5, 6), (7, 8), (9, 10), (11, 12)]
  constructor
  · intro i hi
    obtain ⟨v, hv, hsil, -⟩ := h1 i (by simp only [List.length_cons, List.length_nil]; omega)
    exact ⟨v, hv, hsil hi⟩
  · obtain ⟨v, x, hv, hx, hxl, hxr, hu⟩ := h2 (loopback_engine_loopback 2) (by decide)
      (by decide) (by decide) 4 (by decide) (by decide)
    have hx2 : x = (3, 4) := by
      simpa using hx.symm
    rw [hx2] at hxl hxr
    exact ⟨v, hv, hxl, hxr, hu⟩

/-! ## Reachable instances: the input cursor and the stored configuration -/

/-- C22. In every state reached from `opus_codec_create` by a sequence of
operations (calls of `opus_codec_process_sample`, of the setters, of
`opus_codec_reset`, of `opus_codec_set_frame_size_ms` and of
`opus_codec_get_latency`), whatever the engine answers, the input cursor
satisfies `0 ≤ buffer_pos < frame_size ≤ OPUS_MAX_FRAME_SIZE = 2880`; the two
input frame buffers have 2880 slots and the interleaved buffer 5760, so the
slot `buffer_pos` the next call writes is inside the input frame buffers, and
so are, for every `i < frame_size`, the slot `i` the interleave loop reads and
the slots `2 * i` and `2 * i + 1` it writes. -/
theorem reachable_input_cursor (host_sample_rate : Int) (calloc_ok : Nat → Bool)
    (ops : List Operation) (c : t_opus_codec E)
    (h : run_operations E host_sample_rate calloc_ok ops = some c) :
    (0 ≤ c.buffer_pos ∧ c.buffer_pos < c.frame_size ∧ c.frame_size ≤ OPUS_MAX_FRAME_SIZE ∧
      OPUS_MAX_FRAME_SIZE = 2880) ∧
    (c.input_buffer_left.length = 2880 ∧ c.input_buffer_right.length = 2880 ∧
      c.interleaved_input.length = 5760) ∧
    (c.buffer_pos.toNat < c.input_buffer_left.length ∧
      c.buffer_pos.toNat < c.input_buffer_right.length) ∧
    ∀ (in_left in_right : Sample) (i : Nat), (i : Int) < c.frame_size →
      i < (push_input c in_left in_right).input_buffer_left.length ∧
      i < (push_input c in_left in_right).input_buffer_right.length ∧
      i * 2 + 1 < (push_input c in_left in_right).interleaved_input.length := by
  have hwf := run_operations_well_formed host_sample_rate calloc_ok ops c h
  obtain ⟨h1, h2, -, -⟩ := hwf.sizes
  have hcur := hwf.cursor_in_frame
  have hmax : OPUS_MAX_FRAME_SIZE = 2880 := by decide
  have hl : c.input_buffer_left.length = 2880 := by
    rw [hwf.input_left_length, hmax]
    rfl
  have hr : c.input_buffer_right.length = 2880 := by
    rw [hwf.input_right_length, hmax]
    rfl
  have hi : c.interleaved_input.length = 5760 := by
    rw [hwf.interleaved_length, hmax]
    rfl
  refine ⟨⟨hcur.1, hcur.2, h2, hmax⟩, ⟨hl, hr, hi⟩, ⟨by omega, by omega⟩, ?_⟩
  intro in_left in_right i hlt
  refine ⟨?_, ?_, ?_⟩
  · show i < (c.input_buffer_left.set c.buffer_pos.toNat in_left).length
    rw [List.length_set]
    omega
  · show i < (c.input_buffer_right.set c.buffer_pos.toNat in_right).length
    rw [List.length_set]
    omega
  · show i * 2 + 1 < c.interleaved_input.length
    omega

/-- C22, at a concrete run: creation at 8000 Hz followed by a change of frame
size, one call and a reset. -/
theorem reachable_input_cursor_witness :
    ∃ c : t_opus_codec ok_engine,
      run_operations ok_engine 8000 (fun _ => true)
        [Operation.set_frame_size_ms (CFloat.finite 60), Operation.process_sample 1 2,
          Operation.reset, Operation.process_sample 3 4] = some c ∧
      0 ≤ c.buffer_pos ∧ c.buffer_pos < c.frame_size ∧ c.frame_size ≤ 2880 ∧
      c.buffer_pos.toNat < c.input_buffer_left.length ∧
      c.buffer_pos.toNat < c.input_buffer_right.length := by
  have hcreate := opus_codec_create_accepted (E := ok_engine) 8000 (fun _ => true) () ()
    rfl rfl (fun _ => rfl)
  have hwf0 := opus_codec_create_well_formed 8000 (fun _ => true) _ hcreate
  obtain ⟨c, hc, -⟩ := WellFormed.run_all
    [Operation.set_frame_size_ms (CFloat.finite 60), Operation.process_sample 1 2,
      Operation.reset, Operation.process_sample 3 4] _ hwf0
  have hrun : run_operations ok_engine 8000 (fun _ => true)
      [Operation.set_frame_size_ms (CFloat.finite 60), Operation.process_sample 1 2,
        Operation.reset, Operation.process_sample 3 4] = some c := by
    rw [run_operations, hcreate]
    exact hc
  obtain ⟨⟨h1, h2, h3, h4⟩, -, ⟨h5, h6⟩, -⟩ :=
    reachable_input_cursor 8000 (fun _ => true) _ c hrun
  exact ⟨c, hrun, h1, h2, by rw [← h4]; exact h3, h5, h6⟩

/-- A round trip writes none of the stored configuration. -/
theorem stored_config_round_trip (c : t_opus_codec E) :
    stored_config (round_trip c) = stored_config c := by
  unfold round_trip
  simp only []
  split_ifs
  · obtain ⟨l, r, w, h⟩ := ring_write_frame
      (decode_packet (encode_frame (interleave { c with buffer_pos := 0 })).1
        (encode_frame (interleave { c with buffer_pos := 0 })).2).1
      (decode_packet (encode_frame (interleave { c with buffer_pos := 0 })).1
        (encode_frame (interleave { c with buffer_pos := 0 })).2).2
    rw [h]
    rfl
  · rfl
  · rfl

/-- A call of `opus_codec_process_sample` writes none of the stored
configuration. -/
theorem stored_config_process_sample (c : t_opus_codec E) (in_left in_right : Sample) :
    stored_config (output_step (frame_step c in_left in_right)).1 = stored_config c := by
  obtain ⟨rp, hrp⟩ := output_step_frame (frame_step c in_left in_right)
  rw [hrp]
  show stored_config (frame_step c in_left in_right) = stored_config c
  unfold frame_step
  simp only []
  split_ifs
  · rw [stored_config_round_trip]
    rfl
  · rfl

/-- The ranges of the stored configuration depend on the stored configuration
only. -/
theorem ConfigInRange.config_congr {c c1 : t_opus_codec E} (h : ConfigInRange c)
    (heq : stored_config c1 = stored_config c) : ConfigInRange c1 := by
  simp only [stored_config, Prod.mk.injEq] at heq
  obtain ⟨h1, h2, h3, h4, h5, h6, h7⟩ := heq
  exact {
    bitrate_range := by rw [h1]; exact h.bitrate_range
    complexity_range := by rw [h2]; exact h.complexity_range
    vbr_mode_range := by rw [h3]; exact h.vbr_mode_range
    signal_type_range := by rw [h4]; exact h.signal_type_range
    packet_loss_range := by rw [h5]; exact h.packet_loss_range
    use_dtx_range := by rw [h6]; exact h.use_dtx_range
    use_fec_range := by rw [h7]; exact h.use_fec_range }

/-- The two VBR arms write none of the stored configuration. -/
theorem stored_config_vbr_with_constraint (c : t_opus_codec E) (k : Int) :
    stored_config (vbr_with_constraint c k).1 = stored_config c := by
  unfold vbr_with_constraint
  simp only []
  split_ifs <;> rfl

/-- An instance returned by `opus_codec_create` has its stored configuration
in range. -/
theorem opus_codec_create_config_in_range (host_sample_rate : Int) (calloc_ok : Nat → Bool)
    (c : t_opus_codec E) (h : opus_codec_create E host_sample_rate calloc_ok = some c) :
    ConfigInRange c := by
  obtain ⟨encoder, decoder, -, -, hc⟩ := opus_codec_create_some host_sample_rate calloc_ok c h
  rw [hc]
  exact {
    bitrate_range := by
      show (6000 : Int) ≤ 6000 ∧ (6000 : Int) ≤ 510000
      omega
    complexity_range := by
      show (0 : Int) ≤ 0 ∧ (0 : Int) ≤ 10
      omega
    vbr_mode_range := Or.inl rfl
    signal_type_range := Or.inr rfl
    packet_loss_range := by
      show (0 : Int) ≤ 0 ∧ (0 : Int) ≤ 100
      omega
    use_dtx_range := Or.inl rfl
    use_fec_range := Or.inl rfl }

/-- Every operation on an instance whose stored configuration is in range
returns an instance whose stored configuration is in range, whatever the
engine answers. -/
theorem ConfigInRange.config_run {c : t_opus_codec E} (h : ConfigInRange c) (op : Operation) :
    ∃ c1 : t_opus_codec E, op.run (some c) = some c1 ∧ ConfigInRange c1 := by
  cases op with
  | process_sample l r =>
    exact ⟨_, rfl, h.config_congr (stored_config_process_sample c l r)⟩
  | set_bitrate b =>
    simp only [Operation.run, opus_codec_set_bitrate]
    split_ifs with hb
    · exact ⟨c, rfl, h⟩
    · exact ⟨_, rfl, { h with bitrate_range := by show 6000 ≤ b ∧ b ≤ 510000; omega }⟩
  | set_complexity x =>
    simp only [Operation.run, opus_codec_set_complexity]
    split_ifs with hx
    · exact ⟨c, rfl, h⟩
    · exact ⟨_, rfl, { h with complexity_range := by show 0 ≤ x ∧ x ≤ 10; omega }⟩
  | set_vbr_mode m =>
    simp only [Operation.run, opus_codec_set_vbr_mode]
    split_ifs with hm h0 h1 h2
    · exact ⟨c, rfl, h⟩
    · exact ⟨_, rfl, { h with vbr_mode_range := Or.inl h0 }⟩
    · have hc1 : ConfigInRange ({ c with vbr_mode := m } : t_opus_codec E) :=
        { h with vbr_mode_range := Or.inr (Or.inl h1) }
      exact ⟨_, rfl, hc1.config_congr (stored_config_vbr_with_constraint _ 0)⟩
    · have hc1 : ConfigInRange ({ c with vbr_mode := m } : t_opus_codec E) :=
        { h with vbr_mode_range := Or.inr (Or.inr h2) }
      exact ⟨_, rfl, hc1.config_congr (stored_config_vbr_with_constraint _ 1)⟩
    · exact absurd hm (by omega)
  | set_signal_type t =>
    simp only [Operation.run, opus_codec_set_signal_type]
    split_ifs with ht
    · exact ⟨c, rfl, h⟩
    · refine ⟨_, rfl, { h with signal_type_range := ?_ }⟩
      show t = E.OPUS_SIGNAL_VOICE ∨ t = E.OPUS_SIGNAL_MUSIC
      by_cases hv : t = E.OPUS_SIGNAL_VOICE
      · exact Or.inl hv
      · exact Or.inr (not_not.mp (fun hm => ht ⟨hv, hm⟩))
  | set_packet_loss p =>
    simp only [Operation.run, opus_codec_set_packet_loss]
    split_ifs with hp
    · exact ⟨c, rfl, h⟩
    · exact ⟨_, rfl, { h with packet_loss_range := by show 0 ≤ p ∧ p ≤ 100; omega }⟩
  | set_dtx e =>
    refine ⟨_, rfl, { h with use_dtx_range := ?_ }⟩
    show (if e ≠ 0 then (1 : Int) else 0) = 0 ∨ (if e ≠ 0 then (1 : Int) else 0) = 1
    split_ifs
    · exact Or.inr rfl
    · exact Or.inl rfl
  | set_fec e =>
    refine ⟨_, rfl, { h with use_fec_range := ?_ }⟩
    show (if e ≠ 0 then (1 : Int) else 0) = 0 ∨ (if e ≠ 0 then (1 : Int) else 0) = 1
    split_ifs
    · exact Or.inr rfl
    · exact Or.inl rfl
  | set_frame_size_ms ms =>
    simp only [Operation.run, opus_codec_set_frame_size_ms]
    split_ifs <;> exact ⟨_, rfl, h.config_congr rfl⟩
  | reset => exact ⟨_, rfl, h.config_congr rfl⟩
  | get_latency => exact ⟨_, rfl, h.config_congr rfl⟩

/-- A sequence of operations keeps the stored configuration in range. -/
theorem ConfigInRange.config_run_all (ops : List Operation) :
    ∀ c : t_opus_codec E, ConfigInRange c →
      ∃ c1 : t_opus_codec E,
        ops.foldl (fun codec op => op.run codec) (some c) = some c1 ∧ ConfigInRange c1 := by
  induction ops with
  | nil => exact fun c h => ⟨c, rfl, h⟩
  | cons op rest ih =>
    intro c h
    obtain ⟨c1, h1, hc1⟩ := h.config_run op
    obtain ⟨c2, h2, hc2⟩ := ih c1 hc1
    exact ⟨c2, by simp only [List.foldl_cons, h1, h2], hc2⟩

/-- Every instance reached from `opus_codec_create` by a sequence of operations
has its stored configuration in range, whatever the engine answers. -/
theorem run_operations_config_in_range (host_sample_rate : Int) (calloc_ok : Nat → Bool)
    (ops : List Operation) (c : t_opus_codec E)
    (h : run_operations E host_sample_rate calloc_ok ops = some c) : ConfigInRange c := by
  unfold run_operations at h
  cases hc : opus_codec_create E host_sample_rate calloc_ok with
  | none =>
    rw [hc, run_operations_none] at h
    exact absurd h (by simp)
  | some c0 =>
    rw [hc] at h
    obtain ⟨c1, h1, hc1⟩ := ConfigInRange.config_run_all ops c0
      (opus_codec_create_config_in_range host_sample_rate calloc_ok c0 hc)
    rw [h1, Option.some.injEq] at h
    rw [← h]
    exact hc1

/-- Every fraction of `duration_fractions` is one of the accepted durations. -/
theorem duration_fractions_duration (d : Int × Int) (hd : d ∈ duration_fractions) :
    ((d.1 : ℚ) / (d.2 : ℚ)) ∈ frame_durations ∧ 0 < d.2 := by
  simp only [duration_fractions, List.mem_cons, List.mem_singleton, List.not_mem_nil,
    or_false] at hd
  rcases hd with hd | hd | hd | hd | hd | hd <;> subst hd <;>
    refine ⟨?_, by decide⟩ <;> simp only [frame_durations, List.mem_cons, List.mem_singleton] <;>
    norm_num

/-- C23. In every state reached from `opus_codec_create` by a sequence of
operations, whatever the engine answers, the stored configuration is inside its
documented ranges: `sample_rate` is one of 8000, 12000, 16000, 24000 and 48000,
`frame_size` is `sample_rate * d / 1000` for a duration `d` of 2.5, 5, 10, 20,
40 or 60 ms, `bitrate` is in `[6000, 510000]`, `complexity` in `[0, 10]`,
`vbr_mode` in `{0, 1, 2}`, `packet_loss_perc` in `[0, 100]`, `signal_type` is
voice or music, and `use_dtx` and `use_fec` are 0 or 1; and every non-zero
enable argument of `opus_codec_set_dtx` and `opus_codec_set_fec` is stored
as 1. -/
theorem reachable_config_in_range (host_sample_rate : Int) (calloc_ok : Nat → Bool)
    (ops : List Operation) (c : t_opus_codec E)
    (h : run_operations E host_sample_rate calloc_ok ops = some c) :
    c.sample_rate ∈ supported_rates ∧
    (∃ d ∈ frame_durations, (c.frame_size : ℚ) = (c.sample_rate : ℚ) * d / 1000) ∧
    (6000 ≤ c.bitrate ∧ c.bitrate ≤ 510000) ∧
    (0 ≤ c.complexity ∧ c.complexity ≤ 10) ∧
    (c.vbr_mode = 0 ∨ c.vbr_mode = 1 ∨ c.vbr_mode = 2) ∧
    (0 ≤ c.packet_loss_perc ∧ c.packet_loss_perc ≤ 100) ∧
    (c.signal_type = E.OPUS_SIGNAL_VOICE ∨ c.signal_type = E.OPUS_SIGNAL_MUSIC) ∧
    (c.use_dtx = 0 ∨ c.use_dtx = 1) ∧
    (c.use_fec = 0 ∨ c.use_fec = 1) ∧
    ∀ enable : Int, enable ≠ 0 →
      (opus_codec_set_dtx (some c) enable).1.map (fun c1 => c1.use_dtx) = some 1 ∧
      (opus_codec_set_fec (some c) enable).1.map (fun c1 => c1.use_fec) = some 1 := by
  have hwf := run_operations_well_formed host_sample_rate calloc_ok ops c h
  have hcfg := run_operations_config_in_range host_sample_rate calloc_ok ops c h
  refine ⟨hwf.rate_supported, ?_, hcfg.bitrate_range, hcfg.complexity_range,
    hcfg.vbr_mode_range, hcfg.packet_loss_range, hcfg.signal_type_range, hcfg.use_dtx_range,
    hcfg.use_fec_range, ?_⟩
  · obtain ⟨f, hf, hfs⟩ := hwf.frame_of_duration
    obtain ⟨hq, hden⟩ := duration_fractions_duration f hf
    have hexact := ms_to_samples_exact c.sample_rate hwf.rate_supported f hf
    refine ⟨(f.1 : ℚ) / (f.2 : ℚ), hq, ?_⟩
    have hq2 : ((ms_to_samples c.sample_rate f.1 f.2 : Int) : ℚ) * ((f.2 : ℚ) * 1000) =
        (c.sample_rate : ℚ) * (f.1 : ℚ) := by exact_mod_cast hexact
    have hden2 : (f.2 : ℚ) ≠ 0 := by
      have : (0 : ℚ) < (f.2 : ℚ) := by exact_mod_cast hden
      exact ne_of_gt this
    rw [hfs]
    field_simp
    linarith
  · intro enable hne
    constructor
    · simp only [opus_codec_set_dtx, encoder_ctl, Option.map_some', if_pos hne]
    · simp only [opus_codec_set_fec, encoder_ctl, Option.map_some', if_pos hne]

/-- C23, at a concrete run: creation at 8000 Hz followed by setter calls in and
out of range over an engine that accepts every control, a change of frame size
and one call. -/
theorem reachable_config_in_range_witness :
    ∃ c : t_opus_codec ok_engine,
      run_operations ok_engine 8000 (fun _ => true)
        [Operation.set_bitrate 64000, Operation.set_bitrate 1, Operation.set_dtx 5,
          Operation.set_vbr_mode 2, Operation.set_frame_size_ms (CFloat.finite 10),
          Operation.process_sample 1 2] = some c ∧
      (6000 ≤ c.bitrate ∧ c.bitrate ≤ 510000) ∧
      (c.vbr_mode = 0 ∨ c.vbr_mode = 1 ∨ c.vbr_mode = 2) ∧
      (c.use_dtx = 0 ∨ c.use_dtx = 1) := by
  have hcreate := opus_codec_create_accepted (E := ok_engine) 8000 (fun _ => true) () ()
    rfl rfl (fun _ => rfl)
  have hwf0 := opus_codec_create_well_formed 8000 (fun _ => true) _ hcreate
  obtain ⟨c, hc, -⟩ := WellFormed.run_all
    [Operation.set_bitrate 64000, Operation.set_bitrate 1, Operation.set_dtx 5,
      Operation.set_vbr_mode 2, Operation.set_frame_size_ms (CFloat.finite 10),
      Operation.process_sample 1 2] _ hwf0
  have hrun : run_operations ok_engine 8000 (fun _ => true)
      [Operation.set_bitrate 64000, Operation.set_bitrate 1, Operation.set_dtx 5,
        Operation.set_vbr_mode 2, Operation.set_frame_size_ms (CFloat.finite 10),
        Operation.process_sample 1 2] = some c := by
    rw [run_operations, hcreate]
    exact hc
  obtain ⟨-, -, h1, -, h2, -, -, h3, -⟩ :=
    reachable_config_in_range 8000 (fun _ => true) _ c hrun
  exact ⟨c, hrun, h1, h2, h3⟩

/-! ## The controls of the VBR mode -/

/-- The two VBR arms when the engine accepts `OPUS_SET_VBR(1)`: both controls
are sent, in order, and the result is that of the constraint control. -/
theorem vbr_with_constraint_accepted (c : t_opus_codec E) (k : Int)
    (h : encoder_accepts E c.encoder (CtlRequest.OPUS_SET_VBR 1)) :
    vbr_with_constraint c k =
      ({ c with
          encoder := (E.opus_encoder_ctl (E.opus_encoder_ctl c.encoder
            (CtlRequest.OPUS_SET_VBR 1)).1 (CtlRequest.OPUS_SET_VBR_CONSTRAINT k)).1
          trace := c.trace ++ [EngineCall.encoder_ctl (CtlRequest.OPUS_SET_VBR 1),
            EngineCall.encoder_ctl (CtlRequest.OPUS_SET_VBR_CONSTRAINT k)] },
       (E.opus_encoder_ctl (E.opus_encoder_ctl c.encoder
          (CtlRequest.OPUS_SET_VBR 1)).1 (CtlRequest.OPUS_SET_VBR_CONSTRAINT k)).2) := by
  have h1 : (encoder_ctl c (CtlRequest.OPUS_SET_VBR 1)).2 = E.OPUS_OK := h
  unfold vbr_with_constraint
  simp only []
  rw [if_pos h1]
  simp only [encoder_ctl, List.append_assoc, List.singleton_append]

/-- The two VBR arms when the engine rejects `OPUS_SET_VBR(1)`: the constraint
control is not sent, and the result is that of the rejected control. -/
theorem vbr_with_constraint_first_rejected (c : t_opus_codec E) (k : Int)
    (h : ¬ encoder_accepts E c.encoder (CtlRequest.OPUS_SET_VBR 1)) :
    vbr_with_constraint c k =
      ({ c with
          encoder := (E.opus_encoder_ctl c.encoder (CtlRequest.OPUS_SET_VBR 1)).1
          trace := c.trace ++ [EngineCall.encoder_ctl (CtlRequest.OPUS_SET_VBR 1)] },
       (E.opus_encoder_ctl c.encoder (CtlRequest.OPUS_SET_VBR 1)).2) := by
  have h1 : ¬ (encoder_ctl c (CtlRequest.OPUS_SET_VBR 1)).2 = E.OPUS_OK := h
  unfold vbr_with_constraint
  simp only []
  rw [if_neg h1]
  rfl

/-- C24. On a non-null instance `opus_codec_set_vbr_mode` with a mode of 0, 1
or 2 stores the mode and forwards it. For mode 0 (CBR) it sends exactly one
control, `OPUS_SET_VBR(0)`, and no constraint control, and returns
`OPUS_CODEC_OK` exactly when the engine accepts it. For mode 1 (VBR) and mode 2
(CVBR) it sends `OPUS_SET_VBR(1)`; if the engine accepts it, it then sends
`OPUS_SET_VBR_CONSTRAINT(mode - 1)` (0 for VBR, 1 for CVBR) and returns
`OPUS_CODEC_OK` exactly when the engine accepts that one too; if the engine
rejects `OPUS_SET_VBR(1)`, no constraint control is sent and the call returns
`OPUS_CODEC_ERROR`. The controls sent are read off the trace of engine calls,
and the encoder object is the one they leave. -/
theorem set_vbr_mode_controls (c : t_opus_codec E) :
    (∃ c1 : t_opus_codec E, (opus_codec_set_vbr_mode (some c) 0).1 = some c1 ∧
      c1.vbr_mode = 0 ∧
      c1.trace = c.trace ++ [EngineCall.encoder_ctl (CtlRequest.OPUS_SET_VBR 0)] ∧
      c1.encoder = (E.opus_encoder_ctl c.encoder (CtlRequest.OPUS_SET_VBR 0)).1 ∧
      ((opus_codec_set_vbr_mode (some c) 0).2 = OPUS_CODEC_OK ↔
        encoder_accepts E c.encoder (CtlRequest.OPUS_SET_VBR 0))) ∧
    ∀ m : Int, m = 1 ∨ m = 2 →
      ∃ c1 : t_opus_codec E, (opus_codec_set_vbr_mode (some c) m).1 = some c1 ∧
        c1.vbr_mode = m ∧
        (encoder_accepts E c.encoder (CtlRequest.OPUS_SET_VBR 1) →
          c1.trace = c.trace ++ [EngineCall.encoder_ctl (CtlRequest.OPUS_SET_VBR 1),
            EngineCall.encoder_ctl (CtlRequest.OPUS_SET_VBR_CONSTRAINT (m - 1))] ∧
          c1.encoder = (E.opus_encoder_ctl (E.opus_encoder_ctl c.encoder
            (CtlRequest.OPUS_SET_VBR 1)).1 (CtlRequest.OPUS_SET_VBR_CONSTRAINT (m - 1))).1 ∧
          ((opus_codec_set_vbr_mode (some c) m).2 = OPUS_CODEC_OK ↔
            encoder_accepts E (E.opus_encoder_ctl c.encoder (CtlRequest.OPUS_SET_VBR 1)).1
              (CtlRequest.OPUS_SET_VBR_CONSTRAINT (m - 1)))) ∧
        (¬ encoder_accepts E c.encoder (CtlRequest.OPUS_SET_VBR 1) →
          c1.trace = c.trace ++ [EngineCall.encoder_ctl (CtlRequest.OPUS_SET_VBR 1)] ∧
          c1.encoder = (E.opus_encoder_ctl c.encoder (CtlRequest.OPUS_SET_VBR 1)).1 ∧
          (opus_codec_set_vbr_mode (some c) m).2 = OPUS_CODEC_ERROR) := by
  constructor
  · refine ⟨(encoder_ctl ({ c with vbr_mode := 0 } : t_opus_codec E)
      (CtlRequest.OPUS_SET_VBR 0)).1, rfl, rfl, rfl, rfl, ?_⟩
    show ctl_status E (E.opus_encoder_ctl c.encoder (CtlRequest.OPUS_SET_VBR 0)).2 =
      OPUS_CODEC_OK ↔ _
    exact ctl_status_ok_iff E _
  · intro m hm
    have hstep : opus_codec_set_vbr_mode (some c) m =
        (some (vbr_with_constraint ({ c with vbr_mode := m } : t_opus_codec E) (m - 1)).1,
          ctl_status E
            (vbr_with_constraint ({ c with vbr_mode := m } : t_opus_codec E) (m - 1)).2) := by
      rcases hm with hm | hm <;> subst hm <;> rfl
    rw [hstep]
    refine ⟨_, rfl, (vbr_with_constraint_spec _ _).2, ?_, ?_⟩
    · intro hacc
      rw [vbr_with_constraint_accepted ({ c with vbr_mode := m } : t_opus_codec E) (m - 1) hacc]
      exact ⟨rfl, rfl, ctl_status_ok_iff E _⟩
    · intro hrej
      rw [vbr_with_constraint_first_rejected ({ c with vbr_mode := m } : t_opus_codec E)
        (m - 1) hrej]
      exact ⟨rfl, rfl, ctl_status_error E _ hrej⟩

/-! ## The ring across a reset -/

/-- Calls that complete no frame write nothing to the ring: while more than a
frame is available, call `i` emits the pair `i` slots past the read cursor. -/
theorem stale_ring_emitted (xs : List (Sample × Sample)) :
    ∀ s : t_opus_codec E,
      (0 ≤ s.ring_write_pos ∧ s.ring_write_pos < s.ring_size) →
      (0 ≤ s.ring_read_pos ∧ s.ring_read_pos < s.ring_size) →
      0 ≤ s.buffer_pos → s.buffer_pos + xs.length < s.frame_size →
      ∀ i : Nat, i < xs.length → (i : Int) + s.frame_size < available s →
        ∃ v : CallView, (process_views (some s) xs)[i]? = some v ∧
          v.out_left = some (s.output_ring_left.getD
            (if s.ring_read_pos + i < s.ring_size then s.ring_read_pos + i
              else s.ring_read_pos + i - s.ring_size).toNat 0) ∧
          v.out_right = some (s.output_ring_right.getD
            (if s.ring_read_pos + i < s.ring_size then s.ring_read_pos + i
              else s.ring_read_pos + i - s.ring_size).toNat 0) ∧
          v.underrun = false := by
  induction xs with
  | nil => exact fun s _ _ _ _ i hi => absurd hi (Nat.not_lt_zero i)
  | cons x rest ih =>
    intro s hw hr hb hlen i hi hav
    rw [List.length_cons] at hlen hi
    push_cast at hlen
    have hstep : frame_step s x.1 x.2 = push_input s x.1 x.2 := by
      unfold frame_step
      simp only []
      rw [if_neg]
      simp only [push_input]
      omega
    have havp : available (push_input s x.1 x.2) = available s :=
      available_congr s (push_input s x.1 x.2) rfl rfl rfl
    have hlt := (available_eq_emod s hw hr).2.2
    have hemit : available (push_input s x.1 x.2) > (push_input s x.1 x.2).frame_size := by
      rw [havp]
      show available s > s.frame_size
      omega
    have hout := output_step_emit (push_input s x.1 x.2) hemit
    cases i with
    | zero =>
      refine ⟨call_view (some s) x, by simp only [process_views, List.getElem?_cons_zero],
        ?_, ?_, ?_⟩
      · show some (output_step (frame_step s x.1 x.2)).2.1 = _
        rw [hstep, hout]
        simp only [Nat.cast_zero, add_zero, if_pos hr.2]
        rfl
      · show some (output_step (frame_step s x.1 x.2)).2.2 = _
        rw [hstep, hout]
        simp only [Nat.cast_zero, add_zero, if_pos hr.2]
        rfl
      · show decide (¬ available (frame_step s x.1 x.2) >
          (frame_step s x.1 x.2).frame_size) = false
        rw [hstep]
        exact decide_eq_false (not_not_intro hemit)
    | succ j =>
      push_cast at hav
      have havn := available_after_read (push_input s x.1 x.2) hw hr (by omega)
      rw [havp] at havn
      obtain ⟨s1, hs1⟩ : ∃ s1 : t_opus_codec E, s1 = ({ push_input s x.1 x.2 with
          ring_read_pos :=
            if s.ring_read_pos + 1 ≥ s.ring_size then 0 else s.ring_read_pos + 1 } :
          t_opus_codec E) := ⟨_, rfl⟩
      have hnext : (opus_codec_process_sample (some s) x.1 x.2 (some 0) (some 0)).codec =
          some s1 := by
        show some (output_step (frame_step s x.1 x.2)).1 = _
        rw [hstep, hout, hs1]
        rfl
      have f1 : s1.ring_write_pos = s.ring_write_pos := by rw [hs1]; rfl
      have f2 : s1.ring_read_pos =
          if s.ring_read_pos + 1 ≥ s.ring_size then 0 else s.ring_read_pos + 1 := by
        rw [hs1]
      have f3 : s1.ring_size = s.ring_size := by rw [hs1]; rfl
      have f4 : s1.buffer_pos = s.buffer_pos + 1 := by rw [hs1]; rfl
      have f5 : s1.frame_size = s.frame_size := by rw [hs1]; rfl
      have f6 : s1.output_ring_left = s.output_ring_left := by rw [hs1]; rfl
      have f7 : s1.output_ring_right = s.output_ring_right := by rw [hs1]; rfl
      have f8 : available s1 = available s - 1 := by
        rw [hs1]
        exact havn
      have hr1 : 0 ≤ s1.ring_read_pos ∧ s1.ring_read_pos < s1.ring_size := by
        rw [f2, f3]
        split_ifs <;> omega
      obtain ⟨v, hv, hl, hrt, hu⟩ := ih s1 (by rw [f1, f3]; exact hw) hr1
        (by rw [f4]; omega) (by rw [f4, f5]; omega) j (by omega) (by rw [f5, f8]; omega)
      have hidx := slot_after_read s.ring_read_pos s.ring_size j hr (by omega)
      rw [f6, f2, f3, hidx] at hl
      rw [f7, f2, f3, hidx] at hrt
      refine ⟨v, ?_, hl, hrt, hu⟩
      show (call_view (some s) x :: process_views
        (opus_codec_process_sample (some s) x.1 x.2 (some 0) (some 0)).codec rest)[j + 1]? = _
      rw [List.getElem?_cons_succ, hnext]
      exact hv

/-- C25. On a non-null instance `opus_codec_reset` leaves the output ring
untouched: the read cursor, the write cursor, the capacity and both ring
arrays are what they were, and so is the available count. Decoded pairs queued
before the reset are therefore still emitted after it: with the cursors inside
the ring, in a run of fewer than `frame_size` calls after the reset (none of
which completes a frame), call `i` emits the pair stored `i` slots past the
read cursor of before the reset, with no underrun, as long as more than
`frame_size + i` pairs were available. -/
theorem reset_keeps_ring (c : t_opus_codec E) :
    ∃ r : t_opus_codec E, (opus_codec_reset (some c)).1 = some r ∧
      r.ring_read_pos = c.ring_read_pos ∧ r.ring_write_pos = c.ring_write_pos ∧
      r.ring_size = c.ring_size ∧
      r.output_ring_left = c.output_ring_left ∧ r.output_ring_right = c.output_ring_right ∧
      available r = available c ∧
      ((0 ≤ c.ring_write_pos ∧ c.ring_write_pos < c.ring_size) →
        (0 ≤ c.ring_read_pos ∧ c.ring_read_pos < c.ring_size) →
        ∀ xs : List (Sample × Sample), (xs.length : Int) < c.frame_size →
          ∀ i : Nat, i < xs.length → (i : Int) + c.frame_size < available c →
            ∃ v : CallView, (process_views (some r) xs)[i]? = some v ∧
              v.out_left = some (c.output_ring_left.getD
                ((c.ring_read_pos + i) % c.ring_size).toNat 0) ∧
              v.out_right = some (c.output_ring_right.getD
                ((c.ring_read_pos + i) % c.ring_size).toNat 0) ∧
              v.underrun = false) := by
  obtain ⟨r, hr⟩ : ∃ r : t_opus_codec E, (opus_codec_reset (some c)).1 = some r := ⟨_, rfl⟩
  have f1 : r.ring_read_pos = c.ring_read_pos := by
    have h := hr
    simp only [opus_codec_reset, encoder_ctl, decoder_ctl, Option.some.injEq] at h
    rw [← h]
  have f2 : r.ring_write_pos = c.ring_write_pos := by
    have h := hr
    simp only [opus_codec_reset, encoder_ctl, decoder_ctl, Option.some.injEq] at h
    rw [← h]
  have f3 : r.ring_size = c.ring_size := by
    have h := hr
    simp only [opus_codec_reset, encoder_ctl, decoder_ctl, Option.some.injEq] at h
    rw [← h]
  have f4 : r.output_ring_left = c.output_ring_left := by
    have h := hr
    simp only [opus_codec_reset, encoder_ctl, decoder_ctl, Option.some.injEq] at h
    rw [← h]
  have f5 : r.output_ring_right = c.output_ring_right := by
    have h := hr
    simp only [opus_codec_reset, encoder_ctl, decoder_ctl, Option.some.injEq] at h
    rw [← h]
  have f6 : r.buffer_pos = 0 := by
    have h := hr
    simp only [opus_codec_reset, encoder_ctl, decoder_ctl, Option.some.injEq] at h
    rw [← h]
  have f7 : r.frame_size = c.frame_size := by
    have h := hr
    simp only [opus_codec_reset, encoder_ctl, decoder_ctl, Option.some.injEq] at h
    rw [← h]
  have f8 : available r = available c := available_congr c r f3 f1 f2
  refine ⟨r, hr, f1, f2, f3, f4, f5, f8, ?_⟩
  intro hw hrd xs hlen i hi hav
  have hlt := (available_eq_emod c hw hrd).2.2
  obtain ⟨v, hv, hl, hrt, hu⟩ := stale_ring_emitted xs r (by rw [f2, f3]; exact hw)
    (by rw [f1, f3]; exact hrd) (by rw [f6]) (by rw [f6, f7]; omega) i hi
    (by rw [f7, f8]; exact hav)
  have hmod := emod_eq_wrap_once (c.ring_read_pos + i) c.ring_size (by omega) (by omega)
  rw [f4, f1, f3, ← hmod] at hl
  rw [f5, f1, f3, ← hmod] at hrt
  exact ⟨v, hv, hl, hrt, hu⟩

/-- C25, at a concrete run: four calls over the identity pass-through engine
`loopback_engine` (frames of two samples, ring of eight) leave three pairs
available; after a reset the next call still emits the second input pair. -/
theorem reset_keeps_ring_witness :
    ∃ c r : t_opus_codec loopback_engine,
      process_samples (some loopback_codec) [(1, 2), (3, 4), (5, 6), (7, 8)] = some c ∧
      (opus_codec_reset (some c)).1 = some r ∧
      available r = 3 ∧
      ∃ v : CallView, (process_views (some r) [(9, 10)])[0]? = some v ∧
        v.out_left = some 3 ∧ v.out_right = some 4 ∧ v.underrun = false := by
  obtain ⟨c, hc⟩ : ∃ c : t_opus_codec loopback_engine,
      process_samples (some loopback_codec) [(1, 2), (3, 4), (5, 6), (7, 8)] = some c :=
    ⟨_, rfl⟩
  have hfacts : c.ring_write_pos = 4 ∧ c.ring_read_pos = 1 ∧ c.ring_size = 8 ∧
      c.frame_size = 2 ∧ c.output_ring_left.getD 1 0 = 3 ∧
      c.output_ring_right.getD 1 0 = 4 := by
    have h := hc
    simp only [process_samples, List.foldl_cons, List.foldl_nil, opus_codec_process_sample,
      Option.some.injEq] at h
    rw [← h]
    decide
  obtain ⟨hw, hrd, hrs, hfs, hl, hrt⟩ := hfacts
  have hav : available c = 3 := by
    unfold available
    rw [hw, hrd, hrs]
    decide
  obtain ⟨r, hr, -, -, -, -, -, h6, h7⟩ := reset_keeps_ring c
  obtain ⟨v, hv, hvl, hvr, hu⟩ := h7 (by rw [hw, hrs]; decide) (by rw [hrd, hrs]; decide)
    [(9, 10)] (by rw [hfs]; decide) 0 (by decide) (by rw [hfs, hav]; decide)
  have hidx : ((c.ring_read_pos + ((0 : Nat) : Int)) % c.ring_size).toNat = 1 := by
    rw [hrd, hrs]
    decide
  rw [hidx, hl] at hvl
  rw [hidx, hrt] at hvr
  exact ⟨c, r, hc, hr, by rw [h6, hav], v, hv, hvl, hvr, hu⟩

/-! ## The lead of the ring after a change of frame size -/

/-- The input half of a call on a starved ring, over an engine whose every
round trip succeeds with `F` decoded samples: the ring stays starved. -/
theorem Starved.starved_frame_step {g F : Nat} {s : t_opus_codec E} (h : Starved g F s)
    (henc : ∀ (enc : E.Enc) (pcm : List Sample) (data : List Nat),
      0 < (E.opus_encode_float enc pcm F data OPUS_MAX_PACKET_SIZE).2.2)
    (hdec : ∀ (dec : E.Dec) (data : List Nat) (len : Int) (pcm : List Sample),
      (E.opus_decode_float dec data len pcm F 0).2.2 = F)
    (in_left in_right : Sample) :
    Starved g F (frame_step s in_left in_right) := by
  have hg := h.unit
  have hfs := h.frame
  have hcap := h.capacity
  have hrd := h.read_at_start
  have hbp := h.cursor_in_frame
  have hgrid := h.write_on_grid
  by_cases hfull : s.buffer_pos + 1 ≥ s.frame_size
  · obtain ⟨c, hstep, -, h1, h2, h3, h4, h5, -, -⟩ :=
      frame_step_burst s in_left in_right F (by omega) hfs hfull henc hdec
    have hw : 0 ≤ c.ring_write_pos ∧ c.ring_write_pos < c.ring_size := by
      rw [h4, h2, hcap]
      omega
    obtain ⟨l, r, w, hfr⟩ := ring_write_frame c (F : Int)
    simp only [ring_write, Int.toNat_ofNat] at hfr
    obtain ⟨hpos, -⟩ := ring_write_loop_untouched c hw F (by rw [h2, hcap]; omega)
    rw [hstep]
    generalize (List.range F).foldl ring_write_body c = c1 at hfr hpos
    have h_fs : c1.frame_size = c.frame_size := by rw [hfr]
    have h_rs : c1.ring_size = c.ring_size := by rw [hfr]
    have h_r : c1.ring_read_pos = c.ring_read_pos := by rw [hfr]
    have h_b : c1.buffer_pos = c.buffer_pos := by rw [hfr]
    rw [h4, h2, hcap] at hpos
    refine {
      unit := hg, frame := by rw [h_fs, h1, hfs], capacity := by rw [h_rs, h2, hcap],
      read_at_start := by rw [h_r, h3, hrd], cursor_in_frame := by rw [h_b, h5]; omega,
      write_on_grid := ?_ }
    rcases hgrid with ⟨hF2, hw0 | hw2⟩ | ⟨hF3, hw0 | hw1 | hw2 | hw3⟩
    · refine Or.inl ⟨hF2, Or.inr ?_⟩
      rw [hpos, hw0, if_pos (by omega)]
      omega
    · refine Or.inl ⟨hF2, Or.inl ?_⟩
      rw [hpos, hw2, if_neg (by omega)]
      omega
    · refine Or.inr ⟨hF3, Or.inr (Or.inr (Or.inr ?_))⟩
      rw [hpos, hw0, if_pos (by omega)]
      omega
    · refine Or.inr ⟨hF3, Or.inl ?_⟩
      rw [hpos, hw1, if_neg (by omega)]
      omega
    · refine Or.inr ⟨hF3, Or.inr (Or.inl ?_)⟩
      rw [hpos, hw2, if_neg (by omega)]
      omega
    · refine Or.inr ⟨hF3, Or.inr (Or.inr (Or.inl ?_))⟩
      rw [hpos, hw3, if_neg (by omega)]
      omega
  · have hstep : frame_step s in_left in_right = push_input s in_left in_right := by
      unfold frame_step
      simp only []
      rw [if_neg]
      simpa [push_input] using hfull
    rw [hstep]
    exact {
      unit := hg, frame := hfs, capacity := hcap, read_at_start := hrd,
      cursor_in_frame := by
        show 0 ≤ s.buffer_pos + 1 ∧ s.buffer_pos + 1 < (F : Int)
        omega
      write_on_grid := hgrid }

/-- On a starved ring no more than a frame is available. -/
theorem Starved.starved_available {g F : Nat} {s : t_opus_codec E} (h : Starved g F s) :
    ¬ available s > s.frame_size := by
  have hg := h.unit
  have hfs := h.frame
  have hrd := h.read_at_start
  have hgrid := h.write_on_grid
  unfold available
  rw [hrd, hfs]
  split_ifs <;> omega

/-- One call on a starved ring emits silence and leaves the ring starved. -/
theorem Starved.starved_call {g F : Nat} {s : t_opus_codec E} (h : Starved g F s)
    (henc : ∀ (enc : E.Enc) (pcm : List Sample) (data : List Nat),
      0 < (E.opus_encode_float enc pcm F data OPUS_MAX_PACKET_SIZE).2.2)
    (hdec : ∀ (dec : E.Dec) (data : List Nat) (len : Int) (pcm : List Sample),
      (E.opus_decode_float dec data len pcm F 0).2.2 = F)
    (in_left in_right : Sample) :
    Starved g F (output_step (frame_step s in_left in_right)).1 ∧
    ¬ available (frame_step s in_left in_right) > (frame_step s in_left in_right).frame_size ∧
    (output_step (frame_step s in_left in_right)).2.1 = 0 ∧
    (output_step (frame_step s in_left in_right)).2.2 = 0 := by
  have h1 := h.starved_frame_step henc hdec in_left in_right
  have hsil := h1.starved_available
  rw [output_step_silence _ hsil]
  exact ⟨h1, hsil, rfl, rfl⟩

/-- A run of calls on a starved ring leaves it starved. -/
theorem Starved.starved_run {g F : Nat}
    (henc : ∀ (enc : E.Enc) (pcm : List Sample) (data : List Nat),
      0 < (E.opus_encode_float enc pcm F data OPUS_MAX_PACKET_SIZE).2.2)
    (hdec : ∀ (dec : E.Dec) (data : List Nat) (len : Int) (pcm : List Sample),
      (E.opus_decode_float dec data len pcm F 0).2.2 = F)
    (inputs : List (Sample × Sample)) :
    ∀ s : t_opus_codec E, Starved g F s →
      ∃ s1 : t_opus_codec E, process_samples (some s) inputs = some s1 ∧ Starved g F s1 := by
  induction inputs with
  | nil => exact fun s h => ⟨s, rfl, h⟩
  | cons x rest ih =>
    intro s h
    obtain ⟨s2, h2, hst⟩ := ih _ (h.starved_call henc hdec x.1 x.2).1
    exact ⟨s2, h2, hst⟩

/-- Every call of a run on a starved ring takes the silence branch. -/
theorem starved_views {g F : Nat} (c : t_opus_codec E) (h0 : Starved g F c)
    (henc : ∀ (enc : E.Enc) (pcm : List Sample) (data : List Nat),
      0 < (E.opus_encode_float enc pcm F data OPUS_MAX_PACKET_SIZE).2.2)
    (hdec : ∀ (dec : E.Dec) (data : List Nat) (len : Int) (pcm : List Sample),
      (E.opus_decode_float dec data len pcm F 0).2.2 = F)
    (inputs : List (Sample × Sample)) (i : Nat) (hi : i < inputs.length) :
    ∃ v : CallView, (process_views (some c) inputs)[i]? = some v ∧
      v.out_left = some 0 ∧ v.out_right = some 0 ∧ v.underrun = true := by
  obtain ⟨s, hs, hst⟩ := Starved.starved_run henc hdec (inputs.take i) c h0
  obtain ⟨-, hu, hl, hr⟩ :=
    hst.starved_call henc hdec (inputs.get ⟨i, hi⟩).1 (inputs.get ⟨i, hi⟩).2
  refine ⟨_, process_views_getElem (some c) inputs i hi, ?_, ?_, ?_⟩
  · rw [hs]
    show some (output_step (frame_step s _ _)).2.1 = some 0
    rw [hl]
  · rw [hs]
    show some (output_step (frame_step s _ _)).2.2 = some 0
    rw [hr]
  · rw [hs]
    show decide (¬ available (frame_step s _ _) > (frame_step s _ _).frame_size) = true
    exact decide_eq_true hu

/-- The frame sizes of the accepted durations at a supported rate, against the
20 ms frame `g` that sizes the ring: the shorter frames are at most `g`, the
40 ms frame is `2 * g` and the 60 ms frame `3 * g`. -/
theorem frame_sizes_at_rate (rate : Int) (hr : rate ∈ supported_rates) :
    ∃ g : Nat, 1 ≤ g ∧ ms_to_samples rate OPUS_FRAME_SIZE_MS 1 = g ∧
      (1 ≤ ms_to_samples rate 5 2 ∧ ms_to_samples rate 5 2 ≤ g) ∧
      (1 ≤ ms_to_samples rate 5 1 ∧ ms_to_samples rate 5 1 ≤ g) ∧
      (1 ≤ ms_to_samples rate 10 1 ∧ ms_to_samples rate 10 1 ≤ g) ∧
      ms_to_samples rate 20 1 = g ∧
      ms_to_samples rate 40 1 = 2 * g ∧ ms_to_samples rate 60 1 = 3 * g := by
  simp only [supported_rates, List.mem_cons, List.mem_singleton, List.not_mem_nil,
    or_false] at hr
  rcases hr with hr | hr | hr | hr | hr <;> subst hr
  · exact ⟨160, by decide⟩
  · exact ⟨240, by decide⟩
  · exact ⟨320, by decide⟩
  · exact ⟨480, by decide⟩
  · exact ⟨960, by decide⟩

/-- An instance returned by `opus_codec_create` has both ring cursors at 0. -/
theorem opus_codec_create_ring_cursors (host_sample_rate : Int) (calloc_ok : Nat → Bool)
    (c : t_opus_codec E) (h : opus_codec_create E host_sample_rate calloc_ok = some c) :
    c.ring_read_pos = 0 ∧ c.ring_write_pos = 0 := by
  obtain ⟨encoder, decoder, -, -, hc⟩ := opus_codec_create_some host_sample_rate calloc_ok c h
  rw [hc]
  exact ⟨rfl, rfl⟩

/-- C21, on the code. After `opus_codec_create` and an accepted
`opus_codec_set_frame_size_ms(d)`, with `F` the new frame size and over an
engine whose every round trip succeeds with `F` decoded samples, a run of
calls of `opus_codec_process_sample` goes one of two ways. For `d` of 2.5, 5,
10 or 20 ms the ring (sized for four frames of 20 ms) holds at least four
frames: the first `2 * F - 1` calls emit `(0, 0)` and every later call, the
`k`-th, emits pair `k - 2 * F` of the decoded stream with no underrun, so the
`(2 * F)`-th call emits the first decoded pair. For `d` of 40 or 60 ms the
ring holds at most two frames and no call ever finds more than a frame
available: every call, the `(2 * F)`-th included, takes the underrun branch
and emits `(0, 0)`. Calls are indexed from 0 in the statement: call `k` is
index `i = k - 1`. -/
theorem frame_size_change_lead (host_sample_rate : Int) (calloc_ok : Nat → Bool)
    (c0 c : t_opus_codec E) (d : ℚ) (F : Nat)
    (hcreate : opus_codec_create E host_sample_rate calloc_ok = some c0)
    (hd : d ∈ frame_durations)
    (hset : (opus_codec_set_frame_size_ms (some c0) (CFloat.finite d)).1 = some c)
    (hF : c.frame_size = F)
    (henc : ∀ (enc : E.Enc) (pcm : List Sample) (data : List Nat),
      0 < (E.opus_encode_float enc pcm F data OPUS_MAX_PACKET_SIZE).2.2)
    (hdec : ∀ (dec : E.Dec) (data : List Nat) (len : Int) (pcm : List Sample),
      (E.opus_decode_float dec data len pcm F 0).2.2 = F)
    (inputs : List (Sample × Sample)) :
    (d ≤ 20 → 4 * (F : Int) ≤ c.ring_size ∧
      ∀ i : Nat, i < inputs.length →
        ∃ v : CallView, (process_views (some c) inputs)[i]? = some v ∧
          (i + 1 < 2 * F → v.out_left = some 0 ∧ v.out_right = some 0 ∧ v.underrun = true) ∧
          (2 * F ≤ i + 1 → v.underrun = false ∧
            ∃ p : Sample × Sample,
              (decoded_stream (some c) inputs)[i + 1 - 2 * F]? = some p ∧
              v.out_left = some p.1 ∧ v.out_right = some p.2)) ∧
    (20 < d → c.ring_size ≤ 2 * (F : Int) ∧
      ∀ i : Nat, i < inputs.length →
        ∃ v : CallView, (process_views (some c) inputs)[i]? = some v ∧
          v.out_left = some 0 ∧ v.out_right = some 0 ∧ v.underrun = true) := by
  have hwf0 := opus_codec_create_well_formed host_sample_rate calloc_ok c0 hcreate
  obtain ⟨hrd0, hwr0⟩ := opus_codec_create_ring_cursors host_sample_rate calloc_ok c0 hcreate
  obtain ⟨g, hg, hg20, h1, h2, h3, h4, h5, h6⟩ :=
    frame_sizes_at_rate c0.sample_rate hwf0.rate_supported
  obtain ⟨f, hf, hq, -⟩ := frame_durations_fraction d hd
  have hacc := set_frame_size_ms_accepted c0 f hf
  rw [hq, hacc] at hset
  have hc : c = ({ c0 with
      frame_size := ms_to_samples c0.sample_rate f.1 f.2
      buffer_pos := 0, output_pos := 0, output_available := 0 } : t_opus_codec E) :=
    (Option.some.inj hset).symm
  have hfs : c.frame_size = ms_to_samples c0.sample_rate f.1 f.2 := by rw [hc]
  have hb : c.buffer_pos = 0 := by rw [hc]
  have hrd : c.ring_read_pos = 0 := by rw [hc]; exact hrd0
  have hwr : c.ring_write_pos = 0 := by rw [hc]; exact hwr0
  have hrs : c.ring_size = 4 * (g : Int) := by
    rw [hc]
    show c0.ring_size = 4 * (g : Int)
    rw [hwf0.ring_capacity, hg20]
    omega
  have hl : c.ring_size.toNat ≤ c.output_ring_left.length := by
    rw [hc]
    show c0.ring_size.toNat ≤ c0.output_ring_left.length
    rw [hwf0.ring_left_length]
  have hr : c.ring_size.toNat ≤ c.output_ring_right.length := by
    rw [hc]
    show c0.ring_size.toNat ≤ c0.output_ring_right.length
    rw [hwf0.ring_right_length]
  rw [hF] at hfs
  simp only [duration_fractions, List.mem_cons, List.mem_singleton, List.not_mem_nil,
    or_false] at hf
  constructor
  · intro hle
    have hFg : 1 ≤ F ∧ F ≤ g := by
      rcases hf with hf | hf | hf | hf | hf | hf <;> rw [hf] at hfs hq
      · have hfs2 : (F : Int) = ms_to_samples c0.sample_rate 5 2 := hfs
        omega
      · have hfs2 : (F : Int) = ms_to_samples c0.sample_rate 5 1 := hfs
        omega
      · have hfs2 : (F : Int) = ms_to_samples c0.sample_rate 10 1 := hfs
        omega
      · have hfs2 : (F : Int) = ms_to_samples c0.sample_rate 20 1 := hfs
        omega
      · rw [hq] at hle
        norm_num at hle
      · rw [hq] at hle
        norm_num at hle
    have h0 := Steady.init c F hFg.1 hF (by rw [hrs]; omega) ⟨hb, hrd, hwr⟩ hl hr
    exact ⟨by rw [hrs]; omega, fun i hi => steady_views c F hFg.1 h0 henc hdec inputs i hi⟩
  · intro hlt
    have hcase : F = 2 * g ∨ F = 3 * g := by
      rcases hf with hf | hf | hf | hf | hf | hf <;> rw [hf] at hfs hq
      · rw [hq] at hlt
        norm_num at hlt
      · rw [hq] at hlt
        norm_num at hlt
      · rw [hq] at hlt
        norm_num at hlt
      · rw [hq] at hlt
        norm_num at hlt
      · have hfs2 : (F : Int) = ms_to_samples c0.sample_rate 40 1 := hfs
        omega
      · have hfs2 : (F : Int) = ms_to_samples c0.sample_rate 60 1 := hfs
        omega
    have h0 : Starved g F c := {
      unit := hg, frame := hF, capacity := hrs, read_at_start := hrd,
      cursor_in_frame := by rw [hb]; omega
      write_on_grid := by
        rcases hcase with h2g | h3g
        · exact Or.inl ⟨h2g, Or.inl hwr⟩
        · exact Or.inr ⟨h3g, Or.inl hwr⟩ }
    exact ⟨by rw [hrs]; omega, fun i hi => starved_views c h0 henc hdec inputs i hi⟩

/-- C21, at the failing input: `opus_codec_create(48000)` followed by
`opus_codec_set_frame_size_ms(40.0f)` over the identity pass-through engine
`loopback_engine`, whose every round trip succeeds with `frame_size` decoded
samples. The frame size is 1920 and the ring still has the 3840 slots of
creation; the 3840-th call, the `(2 * frame_size)`-th, takes the underrun
branch and emits `(0, 0)`. -/
theorem frame_size_change_lead_witness :
    ∃ c0 c : t_opus_codec loopback_engine,
      opus_codec_create loopback_engine 48000 (fun _ => true) = some c0 ∧
      (opus_codec_set_frame_size_ms (some c0) (CFloat.finite 40)).1 = some c ∧
      c.frame_size = 1920 ∧ c.ring_size = 3840 ∧
      ∃ v : CallView,
        (process_views (some c) (List.replicate 3840 (1, 1)))[2 * 1920 - 1]? = some v ∧
        v.out_left = some 0 ∧ v.out_right = some 0 ∧ v.underrun = true := by
  have hcreate := opus_codec_create_accepted (E := loopback_engine) 48000 (fun _ => true) () ()
    rfl rfl (fun _ => rfl)
  have hrate : (init_buffers (apply_defaults (set_defaults
      (calloc_codec loopback_engine (get_opus_sample_rate 48000) () ())))).sample_rate =
      48000 := by
    decide
  have hring : (init_buffers (apply_defaults (set_defaults
      (calloc_codec loopback_engine (get_opus_sample_rate 48000) () ())))).ring_size =
      3840 := by
    decide
  generalize init_buffers (apply_defaults (set_defaults
    (calloc_codec loopback_engine (get_opus_sample_rate 48000) () ()))) = c0
    at hcreate hrate hring
  have hlit : CFloat.finite 40 =
      CFloat.finite ((((40, 1) : Int × Int).1 : ℚ) / ((((40, 1) : Int × Int).2 : Int) : ℚ)) := by
    norm_num
  have hacc := set_frame_size_ms_accepted c0 (40, 1) (by simp [duration_fractions])
  rw [← hlit] at hacc
  have hfs : ms_to_samples c0.sample_rate 40 1 = 1920 := by
    rw [hrate]
    decide
  have hset : (opus_codec_set_frame_size_ms (some c0) (CFloat.finite 40)).1 =
      some ({ c0 with
        frame_size := ms_to_samples c0.sample_rate 40 1
        buffer_pos := 0, output_pos := 0, output_available := 0 } :
        t_opus_codec loopback_engine) := by
    rw [hacc]
  obtain ⟨-, hviews⟩ := (frame_size_change_lead 48000 (fun _ => true) c0 _ 40 1920 hcreate
    (by simp [frame_durations]) hset hfs
    (fun _ _ _ => (by decide : (0 : Int) < 2 * ((1920 : Nat) : Int)))
    (fun _ _ _ _ => rfl) (List.replicate 3840 (1, 1))).2 (by norm_num)
  obtain ⟨v, hv, hvl, hvr, hu⟩ := hviews (2 * 1920 - 1) (by rw [List.length_replicate]; decide)
  exact ⟨c0, _, hcreate, hset, hfs, hring, v, hv, hvl, hvr, hu⟩

end OpusCodec
